import Mathlib

/-! The HPC benchmarks (`bfs.c`, `dfs.c`, `merge_sort.c`, `bubble_sort.c`)

A shallow embedding of the adjacency-list graph, the sequential and the
OpenMP breadth-first search of `bfs.c`, the sequential and the OpenMP
depth-first search of `dfs.c`, the merge sorts of `merge_sort.c` and the
bubble sorts of `bubble_sort.c`, followed by the properties proved about
them.

Conventions of the embedding.

* A vertex is a natural number.  The array `Node** adjList` is a list of
  lists: entry `u` is the linked list `adjList[u]`, head first.
* `bool* visited` is a `List Bool` with one flag per vertex.
* The queue of `bfsSequential` is the list of the slots `0 .. rear-1`
  together with the index `front`; `rear` is the length of that list.
* The stack of the depth-first searches is a list whose head is the top.
  The two searches are given twice: with the stack as a list of any height,
  and with the stack in its block of `V` ints, where a push outside the
  block ends the run (`pastBlock`).
* A `while` loop is run for a bounded number of iterations (`fuel`); the
  entry points return `none` when the bound is reached with the loop
  condition still true.
* An `int` array is a `List Int` and an index a natural number: lengths and
  indices are taken to fit in an `int`, as they do in `main`.
* Code that runs at the same time as other code on a shared array is a
  sequence of single reads and writes of array slots, and running together
  is taking these steps in any order.
-/

namespace HPC

/-- Adjacency array `Node** adjList`. -/
abbrev AdjList := List (List Nat)

/-- The linked list stored at `adjList[u]`, head first. -/
def nbrs (adjList : AdjList) (u : Nat) : List Nat := adjList.getD u []

/-- Reading `visited[v]`. -/
def isVisited (visited : List Bool) (v : Nat) : Bool := visited.getD v false

/-- The assignment `visited[v] = true`. -/
def mark (visited : List Bool) (v : Nat) : List Bool := visited.set v true

/-- Every adjacency entry is a vertex of the graph: it lies in `[0, n)`. -/
def InRange (adjList : AdjList) (n : Nat) : Prop := ∀ l ∈ adjList, ∀ v ∈ l, v < n

instance (adjList : AdjList) (n : Nat) : Decidable (InRange adjList n) :=
  inferInstanceAs (Decidable (∀ l ∈ adjList, ∀ v ∈ l, v < n))

/-- An edge of the graph: `v` occurs in the adjacency list of `u`. -/
def Edge (adjList : AdjList) (u v : Nat) : Prop := v ∈ nbrs adjList u

/-- The vertex `v` is reachable from `s` by a path of graph edges. -/
def Reachable (adjList : AdjList) (s v : Nat) : Prop :=
  Relation.ReflTransGen (Edge adjList) s v

/-- A walk of exactly `k` edges from `s` to `v`. -/
inductive Walk (adjList : AdjList) (s : Nat) : Nat → Nat → Prop
  | zero : Walk adjList s 0 s
  | succ {k u v : Nat} : Walk adjList s k u → Edge adjList u v → Walk adjList s (k + 1) v

/-- The vertex `v` is at edge-distance `k` from `s`: some walk of `k` edges
reaches it and no shorter one does. -/
def AtDist (adjList : AdjList) (s k v : Nat) : Prop :=
  Walk adjList s k v ∧ ∀ j, j < k → ¬ Walk adjList s j v

/-! ## `bfs.c` : graph construction -/

namespace Bfs

/-- `createGraph(n)`: `n` list heads, all `NULL`. -/
def createGraph (n : Nat) : AdjList := List.replicate n []

/-- `addEdge(adjList, u, v)`: a node for `v` is put at the head of `adjList[u]`,
then a node for `u` at the head of `adjList[v]`. -/
def addEdge (adjList : AdjList) (u v : Nat) : AdjList :=
  let adjList1 := adjList.set u (v :: nbrs adjList u)
  adjList1.set v (u :: nbrs adjList1 v)

/-- A sequence of `addEdge` calls, in order. -/
def addEdges (adjList : AdjList) (edges : List (Nat × Nat)) : AdjList :=
  edges.foldl (fun g e => addEdge g e.1 e.2) adjList

end Bfs

/-! ## `dfs.c` : graph construction -/

namespace Dfs

/-- The struct `Graph` of `dfs.c`. -/
structure Graph where
  adjList : AdjList
  V : Nat
  deriving DecidableEq, Repr

/-- `createGraph(V)`. -/
def createGraph (V : Nat) : Graph := { adjList := List.replicate V [], V := V }

/-- `addEdge(graph, src, dest)`. -/
def addEdge (graph : Graph) (src dest : Nat) : Graph :=
  let adjList1 := graph.adjList.set src (dest :: nbrs graph.adjList src)
  { graph with adjList := adjList1.set dest (src :: nbrs adjList1 dest) }

/-- A sequence of `addEdge` calls, in order. -/
def addEdges (graph : Graph) (edges : List (Nat × Nat)) : Graph :=
  edges.foldl (fun g e => addEdge g e.1 e.2) graph

end Dfs

/-- The symmetry invariant of an undirected adjacency structure, with
multiplicities. -/
def SymCount (adjList : AdjList) : Prop :=
  ∀ u v, (nbrs adjList u).count v = (nbrs adjList v).count u

/-! ## `bfs.c` : `bfsSequential` -/

namespace Bfs

/-- The locals of `bfsSequential`: the array `visited`, the queue slots
`0 .. rear-1` and the index `front`. -/
structure SeqState where
  visited : List Bool
  queue : List Nat
  front : Nat
  deriving DecidableEq, Repr

/-- The index `rear`. -/
def SeqState.rear (st : SeqState) : Nat := st.queue.length

/-- One pass of the inner `for` body on the neighbour `v`:
`if (!visited[v]) { visited[v] = true; queue[rear++] = v; }`. -/
def visitNeighbour (st : SeqState) (v : Nat) : SeqState :=
  if !isVisited st.visited v then
    { st with visited := mark st.visited v, queue := st.queue ++ [v] }
  else st

/-- The inner `for (temp = adjList[u]; temp; temp = temp->next)`. -/
def scanNeighbours (st : SeqState) (temp : List Nat) : SeqState :=
  temp.foldl visitNeighbour st

/-- The body of `while (front < rear)` with `u = queue[front++]`. -/
def bfsSequentialBody (adjList : AdjList) (st : SeqState) (u : Nat) : SeqState :=
  scanNeighbours { st with front := st.front + 1 } (nbrs adjList u)

/-- At most `fuel` iterations of `while (front < rear)`. -/
def bfsSequentialLoop (adjList : AdjList) : Nat → SeqState → SeqState
  | 0, st => st
  | fuel + 1, st =>
    if h : st.front < st.queue.length then
      bfsSequentialLoop adjList fuel (bfsSequentialBody adjList st st.queue[st.front])
    else st

/-- The state before the loop: `calloc`, `visited[start] = true`,
`queue[rear++] = start`. -/
def bfsSequentialInit (n start : Nat) : SeqState :=
  { visited := mark (List.replicate n false) start, queue := [start], front := 0 }

/-- The function `bfsSequential(adjList, n, start)`; the result is the state
when the loop ends, `none` if it has not ended within `fuel` iterations. -/
def bfsSequential (adjList : AdjList) (n start fuel : Nat) : Option SeqState :=
  let st := bfsSequentialLoop adjList fuel (bfsSequentialInit n start)
  if st.front < st.queue.length then none else some st

/-! ## `bfs.c` : `bfsParallel` -/

/-- One thread of the team inside `#pragma omp parallel`. -/
structure Worker where
  /-- The entries `frontier[i]` of the iterations of the `omp for` given to
  this thread and not started yet. -/
  iters : List Nat
  /-- The rest of the adjacency list under scan (the pointer `temp`). -/
  temp : List Nat
  /-- A neighbour that passed the test outside the critical section and has
  not entered the critical section yet. -/
  waiting : Option Nat
  localQueue : List Nat
  /-- The thread has copied `localQueue` into `nextFrontier`. -/
  merged : Bool
  deriving DecidableEq, Repr

/-- The shared memory of one round together with the team. -/
structure Round where
  visited : List Bool
  nextFrontier : List Nat
  workers : List Worker
  deriving DecidableEq, Repr

/-- How one round is executed: the size of the team, the thread that gets
iteration `i` of the `omp for` (`assign i % threads`), and the interleaving,
given as the thread that performs each successive atomic action.  When the
list `order` is used up the threads still running go to the end of the
parallel region one after the other. -/
structure Schedule where
  threads : Nat
  assign : Nat → Nat
  order : List Nat

/-- One atomic action of a thread.  In this order: the critical section for
the neighbour that passed the outer test; the outer test `if (!visited[v])`
on the next neighbour; the start of the next iteration (`u = frontier[i]`,
`temp = adjList[u]`); the final critical section that appends `localQueue`
to `nextFrontier`.  A thread that has done all of this does nothing. -/
def workerStep (adjList : AdjList) (visited : List Bool) (nextFrontier : List Nat)
    (w : Worker) : List Bool × List Nat × Worker :=
  match w.waiting with
  | some v =>
    if !isVisited visited v then
      (mark visited v, nextFrontier, { w with waiting := none, localQueue := w.localQueue ++ [v] })
    else (visited, nextFrontier, { w with waiting := none })
  | none =>
    match w.temp with
    | v :: rest =>
      if !isVisited visited v then (visited, nextFrontier, { w with temp := rest, waiting := some v })
      else (visited, nextFrontier, { w with temp := rest })
    | [] =>
      match w.iters with
      | u :: us => (visited, nextFrontier, { w with iters := us, temp := nbrs adjList u })
      | [] =>
        if w.merged then (visited, nextFrontier, w)
        else (visited, nextFrontier ++ w.localQueue, { w with merged := true })

/-- Thread `t` performs its next atomic action. -/
def Round.step (adjList : AdjList) (r : Round) (t : Nat) : Round :=
  match r.workers[t]? with
  | none => r
  | some w =>
    let res := workerStep adjList r.visited r.nextFrontier w
    { visited := res.1, nextFrontier := res.2.1, workers := r.workers.set t res.2.2 }

/-- An upper bound on the atomic actions a thread still has to perform. -/
def Worker.budget (adjList : AdjList) (w : Worker) : Nat :=
  (if w.waiting.isSome then 1 else 0) + 2 * w.temp.length
    + (w.iters.map (fun u => 1 + 2 * (nbrs adjList u).length)).sum
    + (if w.merged then 0 else 1)

/-- Thread `t` performs `k` atomic actions in a row. -/
def Round.stepN (adjList : AdjList) (t : Nat) : Nat → Round → Round
  | 0, r => r
  | k + 1, r => Round.stepN adjList t k (Round.step adjList r t)

/-- Thread `t` runs to the end of the parallel region. -/
def Round.finish (adjList : AdjList) (r : Round) (t : Nat) : Round :=
  match r.workers[t]? with
  | none => r
  | some w => Round.stepN adjList t (w.budget adjList) r

/-- The frontier entries handed to thread `t` by `#pragma omp for`. -/
def itersOf (frontier : List Nat) (s : Schedule) (t : Nat) : List Nat :=
  (frontier.enum.filter (fun p => s.assign p.1 % s.threads == t)).map Prod.snd

/-- The team at the start of the parallel region. -/
def initWorkers (frontier : List Nat) (s : Schedule) : List Worker :=
  (List.range s.threads).map fun t =>
    { iters := itersOf frontier s t, temp := [], waiting := none, localQueue := [],
      merged := false }

/-- The parallel region of one round, from fork to join. -/
def runRound (adjList : AdjList) (s : Schedule) (visited : List Bool) (frontier : List Nat) :
    Round :=
  let r0 : Round := { visited := visited, nextFrontier := [], workers := initWorkers frontier s }
  let r1 := s.order.foldl (Round.step adjList) r0
  (List.range s.threads).foldl (Round.finish adjList) r1

/-- The locals of `bfsParallel` between rounds; `frontierSize` is the length
of `frontier`. -/
structure ParState where
  visited : List Bool
  frontier : List Nat
  deriving DecidableEq, Repr

/-- The body of `while (frontierSize > 0)`: one round, then the copy of
`nextFrontier` into `frontier`. -/
def bfsParallelBody (adjList : AdjList) (s : Schedule) (st : ParState) : ParState :=
  let r := runRound adjList s st.visited st.frontier
  { visited := r.visited, frontier := r.nextFrontier }

/-- At most `fuel` iterations of `while (frontierSize > 0)`, the first of
them being round number `k`; `sched k` is the schedule of round `k`. -/
def bfsParallelLoop (adjList : AdjList) (sched : Nat → Schedule) :
    Nat → Nat → ParState → ParState
  | 0, _, st => st
  | fuel + 1, k, st =>
    if 0 < st.frontier.length then
      bfsParallelLoop adjList sched fuel (k + 1) (bfsParallelBody adjList (sched k) st)
    else st

/-- The state before the loop: `visited[start] = true`,
`frontier[frontierSize++] = start`. -/
def bfsParallelInit (n start : Nat) : ParState :=
  { visited := mark (List.replicate n false) start, frontier := [start] }

/-- The function `bfsParallel(adjList, n, start)`. -/
def bfsParallel (adjList : AdjList) (n start : Nat) (sched : Nat → Schedule) (fuel : Nat) :
    Option ParState :=
  let st := bfsParallelLoop adjList sched fuel 0 (bfsParallelInit n start)
  if 0 < st.frontier.length then none else some st

/-- The frontier that `bfsParallel` expands in round `k`: the frontier after
`k` iterations of the loop (empty once the loop has ended). -/
def frontierOfRound (adjList : AdjList) (n start : Nat) (sched : Nat → Schedule) (k : Nat) :
    List Nat :=
  (bfsParallelLoop adjList sched k 0 (bfsParallelInit n start)).frontier

end Bfs

/-! ## `dfs.c` : `DFSSequential` and `DFSParallel` -/

namespace Dfs

/-- The array `visited` and the explicit stack, top first. -/
structure State where
  visited : List Bool
  stack : List Nat
  deriving DecidableEq, Repr

/-- The inner `while (temp)`: every neighbour whose flag is false is pushed,
in adjacency order.  The stack is a list without a limit on its height; the
block of `V` ints of the code is followed by `pushUnvisitedInBlock`. -/
def pushUnvisited (visited : List Bool) (stack temp : List Nat) : List Nat :=
  temp.foldl (fun s v => if !isVisited visited v then v :: s else s) stack

/-- The body of `while (top >= 0)` after `curr = stack[top--]`; `rest` is
the stack below `curr`. -/
def DFSSequentialBody (graph : Graph) (visited : List Bool) (curr : Nat) (rest : List Nat) :
    State :=
  if !isVisited visited curr then
    let visited1 := mark visited curr
    { visited := visited1, stack := pushUnvisited visited1 rest (nbrs graph.adjList curr) }
  else { visited := visited, stack := rest }

/-- At most `fuel` iterations of `while (top >= 0)`, the stack a list
without a limit on its height. -/
def DFSSequentialLoop (graph : Graph) : Nat → State → State
  | 0, st => st
  | fuel + 1, st =>
    match st.stack with
    | [] => st
    | curr :: rest => DFSSequentialLoop graph fuel (DFSSequentialBody graph st.visited curr rest)

/-- The function `DFSSequential(graph, start, visited)` with its stack taken
as an unbounded list; the result is the array `visited` on return, `none` if
the loop has not ended within `fuel` iterations. -/
def DFSSequential (graph : Graph) (start : Nat) (visited : List Bool) (fuel : Nat) :
    Option (List Bool) :=
  let st := DFSSequentialLoop graph fuel { visited := visited, stack := [start] }
  if st.stack = [] then some st.visited else none

/-- The memory of the thread that runs an iteration of the parallel `for` of
`DFSParallel`: the shared `visited` and `locks` (`true` = held) and its
`localStack`, top first. -/
structure ParState where
  visited : List Bool
  locks : List Bool
  localStack : List Nat
  deriving DecidableEq, Repr

/-- The body of the inner `while (top >= 0)` of `DFSParallel` after
`curr = localStack[top--]`.  `omp_set_lock` on a lock that is held never
returns (`none`). -/
def DFSParallelBody (graph : Graph) (st : ParState) (curr : Nat) (rest : List Nat) :
    Option ParState :=
  if !isVisited st.visited curr then
    if st.locks.getD curr false then none
    else
      let locks1 := st.locks.set curr true
      let st1 : State :=
        if !isVisited st.visited curr then
          let visited1 := mark st.visited curr
          { visited := visited1, stack := pushUnvisited visited1 rest (nbrs graph.adjList curr) }
        else { visited := st.visited, stack := rest }
      some { visited := st1.visited, locks := locks1.set curr false, localStack := st1.stack }
  else some { st with localStack := rest }

/-- At most `fuel` iterations of the inner `while (top >= 0)`, `localStack`
a list without a limit on its height; the result is `none` when a lock is
never obtained. -/
def DFSParallelLoop (graph : Graph) : Nat → ParState → Option ParState
  | 0, st => some st
  | fuel + 1, st =>
    match st.localStack with
    | [] => some st
    | curr :: rest =>
      match DFSParallelBody graph st curr rest with
      | none => none
      | some st1 => DFSParallelLoop graph fuel st1

/-- The function `DFSParallel(graph, start, visited)` with `localStack`
taken as an unbounded list.  The array
`frontier` holds `start` alone and `frontierSize` is 1, so the parallel `for`
has the single iteration `i = 0`, run by one thread. -/
def DFSParallel (graph : Graph) (start : Nat) (visited : List Bool) (fuel : Nat) :
    Option (List Bool) :=
  let frontier : List Nat := [start]
  let locks := List.replicate graph.V false
  match frontier with
  | [f] =>
    match DFSParallelLoop graph fuel { visited := visited, locks := locks, localStack := [f] } with
    | some st => if st.localStack = [] then some st.visited else none
    | none => none
  | _ => none

end Dfs

/-! ## Invariants used in the proofs -/

/-- The loop invariant of `bfsSequential`. -/
structure Bfs.SeqInv (adjList : AdjList) (n start : Nat) (st : Bfs.SeqState) : Prop where
  len : st.visited.length = n
  nodup : st.queue.Nodup
  mem_iff : ∀ v, isVisited st.visited v = true ↔ v ∈ st.queue
  reach : ∀ v ∈ st.queue, Reachable adjList start v
  start_mem : start ∈ st.queue
  front_le : st.front ≤ st.queue.length
  closed : ∀ u ∈ st.queue.take st.front, ∀ v ∈ nbrs adjList u, v ∈ st.queue

/-- The number of adjacency entries of the vertices `i, i+1, ...` (the
lists `ls`) whose flag is still false. -/
def pendingFrom (visited : List Bool) : Nat → AdjList → Nat
  | _, [] => 0
  | i, l :: ls => (if isVisited visited i then 0 else l.length) + pendingFrom visited (i + 1) ls

/-- The termination measure of the depth-first loops: the height of the
stack plus the adjacency entries of the vertices not marked yet. -/
def Dfs.measure (graph : Dfs.Graph) (st : Dfs.State) : Nat :=
  st.stack.length + pendingFrom st.visited 0 graph.adjList

/-- The total number of adjacency entries of a graph. -/
def totalEntries (adjList : AdjList) : Nat := (adjList.map List.length).sum

/-- The part of the loop invariant of `DFSSequential` that keeps every
access inside the arrays. -/
structure Dfs.Safe (n : Nat) (st : Dfs.State) : Prop where
  len : st.visited.length = n
  stack_lt : ∀ v ∈ st.stack, v < n

/-- The loop invariant of `DFSSequential` started on clear flags. -/
structure Dfs.Inv (adjList : AdjList) (start : Nat) (st : Dfs.State) : Prop where
  vis_reach : ∀ v, isVisited st.visited v = true → Reachable adjList start v
  stack_reach : ∀ v ∈ st.stack, Reachable adjList start v
  start_ok : isVisited st.visited start = true ∨ start ∈ st.stack
  closed : ∀ u, isVisited st.visited u = true → ∀ v ∈ nbrs adjList u,
    isVisited st.visited v = true ∨ v ∈ st.stack

/-- The neighbours a thread has still to examine in the current round. -/
def Bfs.Worker.todo (adjList : AdjList) (w : Bfs.Worker) : List Nat :=
  w.waiting.toList ++ w.temp ++ w.iters.flatMap (nbrs adjList)

/-- The occurrences of `v` in a local queue not yet copied to `nextFrontier`. -/
def Bfs.Worker.held (v : Nat) (w : Bfs.Worker) : Nat :=
  if w.merged then 0 else w.localQueue.count v

/-- The vertex `v` is a neighbour of some vertex of the frontier. -/
def Bfs.Target (adjList : AdjList) (frontier : List Nat) (v : Nat) : Prop :=
  ∃ u ∈ frontier, v ∈ nbrs adjList u

/-- 1 when `v` has been marked since the round began, else 0. -/
def Bfs.newly (visited0 visited : List Bool) (v : Nat) : Nat :=
  if isVisited visited v && !isVisited visited0 v then 1 else 0

/-- The invariant of one round of `bfsParallel`, kept by every atomic action
of every thread; `visited0` and `frontier` are the arrays at the start of
the round. -/
structure Bfs.RInv (adjList : AdjList) (n : Nat) (visited0 : List Bool) (frontier : List Nat)
    (r : Bfs.Round) : Prop where
  len : r.visited.length = n
  mono : ∀ v, isVisited visited0 v = true → isVisited r.visited v = true
  only : ∀ v, isVisited r.visited v = true →
    isVisited visited0 v = true ∨ Bfs.Target adjList frontier v
  todo_sub : ∀ (t : Nat) (w : Bfs.Worker), r.workers[t]? = some w →
    ∀ v ∈ w.todo adjList, Bfs.Target adjList frontier v
  cover : ∀ v, Bfs.Target adjList frontier v →
    isVisited r.visited v = true ∨
      ∃ (t : Nat) (w : Bfs.Worker), r.workers[t]? = some w ∧ v ∈ w.todo adjList
  merged_done : ∀ (t : Nat) (w : Bfs.Worker), r.workers[t]? = some w → w.merged = true →
    w.todo adjList = []
  count : ∀ v, r.nextFrontier.count v + (r.workers.map (Bfs.Worker.held v)).sum =
    Bfs.newly visited0 r.visited v

/-- Thread `s` of the team has reached the end of the parallel region. -/
def Bfs.Round.Done (r : Bfs.Round) (s : Nat) : Prop :=
  ∃ w : Bfs.Worker, r.workers[s]? = some w ∧ w.merged = true

/-- The invariant of the loop of `bfsParallel` at the start of round `k`. -/
structure Bfs.ParInv (adjList : AdjList) (n start k : Nat) (st : Bfs.ParState) : Prop where
  len : st.visited.length = n
  vis : ∀ v, isVisited st.visited v = true ↔ ∃ j, j ≤ k ∧ Walk adjList start j v
  nodup : st.frontier.Nodup
  fr : ∀ v, v ∈ st.frontier ↔ AtDist adjList start k v

/-! ## The first statements of the entry points, with C `int` arguments

The traversals above take their arguments as natural numbers inside the
graph.  The functions below follow the entry points from the call to the
first use of `start` as an array index, for arbitrary `int` values of the
vertex count and of `start`, and record which blocks are on the heap when
an index falls outside its block. -/

/-- The heap blocks of the traversals. -/
inductive Block
  | visited | queue | frontier | stack | locks | localStack
  deriving DecidableEq, Repr

/-- How a call of an entry point begins. -/
inductive Entry
  /-- The call is rejected with an invalid-start-vertex error before anything
  is allocated. -/
  | invalidStart
  /-- With the blocks `allocated` on the heap, the element `index` of `block`
  is accessed outside the block: undefined behaviour. -/
  | outOfBounds (allocated : List Block) (block : Block) (index : Int)
  /-- The first statements succeed and the traversal loop is entered. -/
  | proceeds (allocated : List Block)
  deriving DecidableEq, Repr

/-- The blocks that a `calloc` or `malloc` of `count` elements puts on the
heap, `count` an `int` and `size_t` of 64 bits.  A negative count is
converted to a size beyond any memory and the call returns `NULL`: no block.
Otherwise the C library decides, and `heap block` tells whether it returns a
block: it may return `NULL` for lack of memory, and for zero elements it
returns `NULL` or a block without a slot. -/
def obtained (heap : Block → Bool) (count : Int) (block : Block) : List Block :=
  if 0 ≤ count ∧ heap block = true then [block] else []

/-- An access to element `index` of the caller's array `block` of `size`
elements, followed by `next`. -/
def access (allocated : List Block) (block : Block) (size index : Int) (next : Entry) : Entry :=
  if 0 ≤ index ∧ index < size then next else Entry.outOfBounds allocated block index

/-- An access to element `index` of a block of `size` elements that the entry
point has asked for, followed by `next`; when the call returned `NULL` the
access is outside every block. -/
def accessOwn (allocated : List Block) (block : Block) (size index : Int) (next : Entry) :
    Entry :=
  if block ∈ allocated ∧ 0 ≤ index ∧ index < size then next
  else Entry.outOfBounds allocated block index

/-- `bfsSequential`: `calloc` of `visited`, `malloc` of `queue`,
`visited[start] = true`, `queue[rear++] = start`. -/
def Bfs.bfsSequentialEntry (heap : Block → Bool) (n start : Int) : Entry :=
  let allocated := obtained heap n Block.visited ++ obtained heap n Block.queue
  accessOwn allocated Block.visited n start
    (accessOwn allocated Block.queue n 0 (Entry.proceeds allocated))

/-- `bfsParallel`: `calloc` of `visited`, `malloc` of `frontier`,
`visited[start] = true`, `frontier[frontierSize++] = start`. -/
def Bfs.bfsParallelEntry (heap : Block → Bool) (n start : Int) : Entry :=
  let allocated := obtained heap n Block.visited ++ obtained heap n Block.frontier
  accessOwn allocated Block.visited n start
    (accessOwn allocated Block.frontier n 0 (Entry.proceeds allocated))

/-- `DFSSequential`: `malloc` of `stack`, `stack[++top] = start`, then in the
loop `curr = stack[top--]` and the test of `visited[curr]`; the caller's
`visited` has `V` flags. -/
def Dfs.DFSSequentialEntry (heap : Block → Bool) (V start : Int) : Entry :=
  let allocated := obtained heap V Block.stack
  accessOwn allocated Block.stack V 0
    (access allocated Block.visited V start (Entry.proceeds allocated))

/-- `DFSParallel`: `malloc` of `frontier`, `frontier[0] = start`, `malloc`
of `locks` and `omp_init_lock(&locks[i])` from `i = 0` on, then in the
iteration `malloc` of `localStack`, `localStack[++top] = frontier[i]`,
`curr = localStack[top--]` and the test of `visited[curr]`; the caller's
`visited` has `V` flags. -/
def Dfs.DFSParallelEntry (heap : Block → Bool) (V start : Int) : Entry :=
  let allocated1 := obtained heap V Block.frontier
  let allocated2 := allocated1 ++ obtained heap V Block.locks
  let allocated3 := allocated2 ++ obtained heap V Block.localStack
  accessOwn allocated1 Block.frontier V 0
    (accessOwn allocated2 Block.locks V 0
      (accessOwn allocated3 Block.localStack V 0
        (access allocated3 Block.visited V start (Entry.proceeds allocated3))))

/-- The graph of the concrete scenario: the path `0 - 1 - 2 - 3`. -/
def Bfs.pathGraph : AdjList := Bfs.addEdges (Bfs.createGraph 4) [(0, 1), (1, 2), (2, 3)]

/-! ## Further definitions for the rounds of `bfsParallel` -/

/-- The state of a round after the first `k` atomic actions of its
interleaving. -/
def Bfs.roundPrefix (adjList : AdjList) (s : Bfs.Schedule) (visited : List Bool)
    (frontier : List Nat) (k : Nat) : Bfs.Round :=
  (s.order.take k).foldl (Bfs.Round.step adjList)
    { visited := visited, nextFrontier := [], workers := Bfs.initWorkers frontier s }

/-- The occurrences of `v` that a thread has copied to `nextFrontier`. -/
def Bfs.Worker.delivered (v : Nat) (w : Bfs.Worker) : Nat :=
  if w.merged then w.localQueue.count v else 0

/-- The array `nextFrontier` holds what the threads have copied into it. -/
def Bfs.Round.Delivered (r : Bfs.Round) : Prop :=
  ∀ v, r.nextFrontier.count v = (r.workers.map (Bfs.Worker.delivered v)).sum

/-! ## `merge_sort.c` : `merge` and `sequentialMergeSort`

The array is a list of integers and the index arguments are natural numbers.
The three `while` loops of `merge` are run for as many iterations as they
can make: the two runs together hold `sizeLeft + sizeRight` elements. -/

namespace MergeSort

/-- The array under merge and the three indices of `merge`. -/
structure MergeState where
  arrayToSort : List Int
  indexLeft : Nat
  indexRight : Nat
  indexMerged : Nat
  deriving DecidableEq, Repr

/-- The loop `while (indexLeft < sizeLeft && indexRight < sizeRight)`. -/
def mergeBoth (leftHalf rightHalf : List Int) : Nat → MergeState → MergeState
  | 0, st => st
  | fuel + 1, st =>
    if st.indexLeft < leftHalf.length ∧ st.indexRight < rightHalf.length then
      if leftHalf.getD st.indexLeft 0 ≤ rightHalf.getD st.indexRight 0 then
        mergeBoth leftHalf rightHalf fuel
          { arrayToSort := st.arrayToSort.set st.indexMerged (leftHalf.getD st.indexLeft 0),
            indexLeft := st.indexLeft + 1, indexRight := st.indexRight,
            indexMerged := st.indexMerged + 1 }
      else
        mergeBoth leftHalf rightHalf fuel
          { arrayToSort := st.arrayToSort.set st.indexMerged (rightHalf.getD st.indexRight 0),
            indexLeft := st.indexLeft, indexRight := st.indexRight + 1,
            indexMerged := st.indexMerged + 1 }
    else st

/-- The loop `while (indexLeft < sizeLeft)`. -/
def copyLeft (leftHalf : List Int) : Nat → MergeState → MergeState
  | 0, st => st
  | fuel + 1, st =>
    if st.indexLeft < leftHalf.length then
      copyLeft leftHalf fuel
        { arrayToSort := st.arrayToSort.set st.indexMerged (leftHalf.getD st.indexLeft 0),
          indexLeft := st.indexLeft + 1, indexRight := st.indexRight,
          indexMerged := st.indexMerged + 1 }
    else st

/-- The loop `while (indexRight < sizeRight)`. -/
def copyRight (rightHalf : List Int) : Nat → MergeState → MergeState
  | 0, st => st
  | fuel + 1, st =>
    if st.indexRight < rightHalf.length then
      copyRight rightHalf fuel
        { arrayToSort := st.arrayToSort.set st.indexMerged (rightHalf.getD st.indexRight 0),
          indexLeft := st.indexLeft, indexRight := st.indexRight + 1,
          indexMerged := st.indexMerged + 1 }
    else st

/-- The function `merge(arrayToSort, startIndex, midIndex, endIndex)`: the two
runs are copied to `leftHalf` and `rightHalf`, then merged back from
`startIndex` on. -/
def merge (arrayToSort : List Int) (startIndex midIndex endIndex : Nat) : List Int :=
  let sizeLeft := midIndex - startIndex + 1
  let sizeRight := endIndex - midIndex
  let leftHalf := (List.range sizeLeft).map fun i => arrayToSort.getD (startIndex + i) 0
  let rightHalf := (List.range sizeRight).map fun j => arrayToSort.getD (midIndex + 1 + j) 0
  let st0 : MergeState :=
    { arrayToSort := arrayToSort, indexLeft := 0, indexRight := 0, indexMerged := startIndex }
  let st1 := mergeBoth leftHalf rightHalf (sizeLeft + sizeRight) st0
  let st2 := copyLeft leftHalf sizeLeft st1
  let st3 := copyRight rightHalf sizeRight st2
  st3.arrayToSort

/-- The recursion of `sequentialMergeSort`, at most `depth` calls deep. -/
def sequentialMergeSortDepth : Nat → List Int → Nat → Nat → List Int
  | 0, arrayToSort, _, _ => arrayToSort
  | depth + 1, arrayToSort, startIndex, endIndex =>
    if startIndex < endIndex then
      let midIndex := startIndex + (endIndex - startIndex) / 2
      let sortedLeft := sequentialMergeSortDepth depth arrayToSort startIndex midIndex
      let sortedBoth := sequentialMergeSortDepth depth sortedLeft (midIndex + 1) endIndex
      merge sortedBoth startIndex midIndex endIndex
    else arrayToSort

/-- The function `sequentialMergeSort(arrayToSort, startIndex, endIndex)`.
Every call halves the segment, so the recursion is never deeper than the
segment is long. -/
def sequentialMergeSort (arrayToSort : List Int) (startIndex endIndex : Nat) : List Int :=
  sequentialMergeSortDepth (endIndex - startIndex) arrayToSort startIndex endIndex

/-- The elements `arr[startIndex .. endIndex]`. -/
def segment (arr : List Int) (startIndex endIndex : Nat) : List Int :=
  (arr.drop startIndex).take (endIndex + 1 - startIndex)

end MergeSort

/-! ## `bubble_sort.c` : `bubbleSortSeq` and `bubbleSortPar` -/

namespace BubbleSort

/-- The body of both inner loops:
`if (arr[j] > arr[j + 1]) { tmp = arr[j]; arr[j] = arr[j + 1]; arr[j + 1] = tmp; }`. -/
def compareSwap (arr : List Int) (j : Nat) : List Int :=
  if arr.getD j 0 > arr.getD (j + 1) 0 then
    let tmp := arr.getD j 0
    (arr.set j (arr.getD (j + 1) 0)).set (j + 1) tmp
  else arr

/-- The function `bubbleSortSeq(arr, n)`: for `i = 0 .. n-2`, the pass
`j = 0 .. n-i-2`. -/
def bubbleSortSeq (arr : List Int) (n : Nat) : List Int :=
  (List.range (n - 1)).foldl
    (fun a i => (List.range (n - i - 1)).foldl compareSwap a) arr

/-- The iterations of the parallel `for (j = start; j < n - 1; j += 2)`. -/
def phaseIndices (n start : Nat) : List Nat :=
  (List.range (n - 1)).filter fun j => start ≤ j ∧ (j - start) % 2 = 0

/-- One phase of `bubbleSortPar`.  Its iterations work on the disjoint pairs
`(j, j + 1)`, so the order in which the threads run them does not matter;
they are run here in increasing order of `j`. -/
def oddEvenPhase (arr : List Int) (n start : Nat) : List Int :=
  (phaseIndices n start).foldl compareSwap arr

/-- The function `bubbleSortPar(arr, n)`: for `i = 0 .. n-2`, the phase that
starts at `i % 2`. -/
def bubbleSortPar (arr : List Int) (n : Nat) : List Int :=
  (List.range (n - 1)).foldl (fun a i => oddEvenPhase a n (i % 2)) arr

/-- One pass of bubble sort with `k` comparisons, on the list itself. -/
def bubblePass : Nat → List Int → List Int
  | 0, l => l
  | k + 1, a :: b :: rest =>
    if a > b then b :: bubblePass k (a :: rest) else a :: bubblePass k (b :: rest)
  | _ + 1, l => l

/-- The array after some passes of `bubbleSortSeq`: the last `i` elements
are in their final places. -/
def Settled (arr : List Int) (i : Nat) : Prop :=
  ∃ U T : List Int, arr = U ++ T ∧ T.length = i ∧ T.Sorted (· ≤ ·) ∧ ∀ u ∈ U, ∀ t ∈ T, u ≤ t

end BubbleSort

/-! ## Traces of the depth-first loop -/

/-- The neighbours that the inner `while (temp)` pushes, in the order of the
pushes. -/
def Dfs.pushedBy (visited : List Bool) (temp : List Nat) : List Nat :=
  temp.filter fun v => !isVisited visited v

/-- The vertices pushed during at most `fuel` iterations of the loop of
`DFSSequential`, in order. -/
def Dfs.pushTrace (graph : Dfs.Graph) : Nat → Dfs.State → List Nat
  | 0, _ => []
  | fuel + 1, st =>
    match st.stack with
    | [] => []
    | curr :: rest =>
      (if !isVisited st.visited curr then
          Dfs.pushedBy (mark st.visited curr) (nbrs graph.adjList curr)
        else []) ++
        Dfs.pushTrace graph fuel (Dfs.DFSSequentialBody graph st.visited curr rest)

/-! ## The random generators

The sequence of values returned by `rand()` is a function `rand`: `rand k`
is the value of call number `k`, counted from 0, of the run of the
generator; the values of `rand()` are never negative. -/

/-- `generateRandomGraph(adjList, n)`: vertex `i = 1 .. n-1` gets the edge
`addEdge(adjList, i, rand() % i)`; then `extraEdges = n` times two vertices
`u = rand() % n`, `v = rand() % n` are drawn and joined when different. -/
def Bfs.generateRandomGraph (adjList : AdjList) (n : Nat) (rand : Nat → Nat) : AdjList :=
  let tree := (List.range (n - 1)).foldl
    (fun g k => Bfs.addEdge g (k + 1) (rand k % (k + 1))) adjList
  let extraEdges := n
  (List.range extraEdges).foldl
    (fun g i =>
      let u := rand (n - 1 + 2 * i) % n
      let v := rand (n - 1 + 2 * i + 1) % n
      if u ≠ v then Bfs.addEdge g u v else g)
    tree

/-- The arguments of the calls of `addEdge` that `generateRandomGraph` makes,
in order. -/
def Bfs.generateRandomGraphCalls (n : Nat) (rand : Nat → Nat) : List (Nat × Nat) :=
  (List.range (n - 1)).map (fun k => (k + 1, rand k % (k + 1))) ++
    ((List.range n).map
      (fun i => (rand (n - 1 + 2 * i) % n, rand (n - 1 + 2 * i + 1) % n))).filter
      (fun e => e.1 ≠ e.2)

/-- `generateRandomTree(graph, V)`: vertex `i = 1 .. V-1` gets the edge
`addEdge(graph, rand() % i, i)`. -/
def Dfs.generateRandomTree (graph : Dfs.Graph) (V : Nat) (rand : Nat → Nat) : Dfs.Graph :=
  (List.range (V - 1)).foldl (fun g k => Dfs.addEdge g (rand k % (k + 1)) (k + 1)) graph

/-- The adjacency entries of the graph are below `n`, stated on `nbrs`. -/
def EntriesBelow (adjList : AdjList) (n : Nat) : Prop :=
  ∀ u v, v ∈ nbrs adjList u → v < n

/-- Every vertex up to `m` is reachable from vertex 0. -/
def ConnectedUpTo (adjList : AdjList) (m : Nat) : Prop :=
  ∀ v, v ≤ m → Reachable adjList 0 v

/-- In the random tree, `v` is one of the vertices `1 .. m` and its parent,
`rand() % v` at the call made for `v`, is `u`. -/
def Dfs.ChildOf (rand : Nat → Nat) (m u v : Nat) : Prop :=
  1 ≤ v ∧ v ≤ m ∧ rand (v - 1) % v = u

instance (rand : Nat → Nat) (m u v : Nat) : Decidable (Dfs.ChildOf rand m u v) :=
  inferInstanceAs (Decidable (1 ≤ v ∧ v ≤ m ∧ rand (v - 1) % v = u))

/-- The adjacency lists after the first `m` calls of `addEdge` made by
`generateRandomTree`. -/
def Dfs.treeAdj (V : Nat) (rand : Nat → Nat) (m : Nat) : AdjList :=
  (List.range m).foldl (fun a k => Bfs.addEdge a (rand k % (k + 1)) (k + 1))
    (List.replicate V [])

/-- The vertex is marked or on the stack. -/
def Dfs.Discovered (st : Dfs.State) (v : Nat) : Prop :=
  isVisited st.visited v = true ∨ v ∈ st.stack

/-- The loop invariant of `DFSSequential` on a random tree: the stack holds
different unmarked vertices whose parents are marked. -/
structure Dfs.TreeInv (V : Nat) (rand : Nat → Nat) (st : Dfs.State) : Prop where
  safe : Dfs.Safe V st
  nodup : st.stack.Nodup
  unmarked : ∀ v ∈ st.stack, isVisited st.visited v = false
  parent : ∀ v ∈ st.stack, v ≠ 0 → isVisited st.visited (rand (v - 1) % v) = true

/-- The ghost invariant for the order in which `bfsSequential` fills its
queue: `ql` lists the queue slots together with the level at which each
vertex was claimed (0 for `start`, one more than the level of the vertex
whose adjacency list was being scanned for the others). -/
structure Bfs.LevelInv (adjList : AdjList) (start : Nat) (st : Bfs.SeqState)
    (ql : List (Nat × Nat)) : Prop where
  fst : ql.map Prod.fst = st.queue
  walk : ∀ p ∈ ql, Walk adjList start p.2 p.1
  sorted : ql.Pairwise (fun a b => a.2 ≤ b.2)
  head : ql.head? = some (start, 0)
  closed : ∀ p ∈ ql.take st.front, ∀ v ∈ nbrs adjList p.1, ∃ q ∈ ql, q.1 = v ∧ q.2 ≤ p.2 + 1
  bound : ∀ p, ql[st.front]? = some p → ∀ q ∈ ql, q.2 ≤ p.2 + 1

/-! ## `merge_sort.c` : `parallelMergeSort`

The tasks that `parallelMergeSort` creates run at the same time on one
shared array. A piece of code is modelled by its accesses to that array in
program order, one read or one write of an `int` at a time; what follows a
read may depend on the value read. The temporary arrays of `merge` and
its indices are local to the call. Two tasks that run at the same time take
their steps in any order; the order is given by a schedule. -/

namespace MergeSort

/-- The accesses of a piece of code to the shared array `arrayToSort`, in
program order. -/
inductive Steps where
  | done : Steps
  | read (index : Nat) (next : Int → Steps) : Steps
  | write (index : Nat) (value : Int) (next : Steps) : Steps

/-- The steps run alone on the array, from the first to the last. -/
def Steps.run : Steps → List Int → List Int
  | .done, arrayToSort => arrayToSort
  | .read index next, arrayToSort => (next (arrayToSort.getD index 0)).run arrayToSort
  | .write index value next, arrayToSort => next.run (arrayToSort.set index value)

/-- One piece of code followed by another. -/
def Steps.andThen : Steps → Steps → Steps
  | .done, rest => rest
  | .read index next, rest => .read index (fun value => (next value).andThen rest)
  | .write index value next, rest => .write index value (next.andThen rest)

/-- Two tasks running at the same time: `true` in the schedule lets the
first task take its next step, `false` the second; a task that has ended
leaves the other one to run alone; when the schedule is used up the rest of
the first task runs, then the rest of the second. -/
def together : List Bool → Steps → Steps → Steps
  | [], first, second => first.andThen second
  | true :: sched, first, second =>
    match first with
    | .done => second
    | .read index next => .read index (fun value => together sched (next value) second)
    | .write index value next => .write index value (together sched next second)
  | false :: sched, first, second =>
    match second with
    | .done => first
    | .read index next => .read index (fun value => together sched first (next value))
    | .write index value next => .write index value (together sched first next)

/-- The loop `for (i = 0; i < size; i++) half[i] = arrayToSort[base + i];`
with `count` iterations left; `i` is the number of elements copied so far. -/
def copyToHalf (base : Nat) : Nat → List Int → (List Int → Steps) → Steps
  | 0, half, rest => rest half
  | count + 1, half, rest =>
    .read (base + half.length) (fun value => copyToHalf base count (half ++ [value]) rest)

/-- The loop `while (indexLeft < sizeLeft && indexRight < sizeRight)`, one
write of `arrayToSort[indexMerged]` per iteration. -/
def mergeBothSteps (leftHalf rightHalf : List Int) :
    Nat → Nat → Nat → Nat → (Nat → Nat → Nat → Steps) → Steps
  | 0, indexLeft, indexRight, indexMerged, rest => rest indexLeft indexRight indexMerged
  | fuel + 1, indexLeft, indexRight, indexMerged, rest =>
    if indexLeft < leftHalf.length ∧ indexRight < rightHalf.length then
      if leftHalf.getD indexLeft 0 ≤ rightHalf.getD indexRight 0 then
        .write indexMerged (leftHalf.getD indexLeft 0)
          (mergeBothSteps leftHalf rightHalf fuel (indexLeft + 1) indexRight (indexMerged + 1) rest)
      else
        .write indexMerged (rightHalf.getD indexRight 0)
          (mergeBothSteps leftHalf rightHalf fuel indexLeft (indexRight + 1) (indexMerged + 1) rest)
    else rest indexLeft indexRight indexMerged

/-- The loop `while (indexLeft < sizeLeft)`. -/
def copyLeftSteps (leftHalf : List Int) : Nat → Nat → Nat → (Nat → Steps) → Steps
  | 0, _, indexMerged, rest => rest indexMerged
  | fuel + 1, indexLeft, indexMerged, rest =>
    if indexLeft < leftHalf.length then
      .write indexMerged (leftHalf.getD indexLeft 0)
        (copyLeftSteps leftHalf fuel (indexLeft + 1) (indexMerged + 1) rest)
    else rest indexMerged

/-- The loop `while (indexRight < sizeRight)`. -/
def copyRightSteps (rightHalf : List Int) : Nat → Nat → Nat → Steps → Steps
  | 0, _, _, rest => rest
  | fuel + 1, indexRight, indexMerged, rest =>
    if indexRight < rightHalf.length then
      .write indexMerged (rightHalf.getD indexRight 0)
        (copyRightSteps rightHalf fuel (indexRight + 1) (indexMerged + 1) rest)
    else rest

/-- The accesses of `merge(arrayToSort, startIndex, midIndex, endIndex)`. -/
def mergeSteps (startIndex midIndex endIndex : Nat) : Steps :=
  let sizeLeft := midIndex - startIndex + 1
  let sizeRight := endIndex - midIndex
  copyToHalf startIndex sizeLeft [] fun leftHalf =>
  copyToHalf (midIndex + 1) sizeRight [] fun rightHalf =>
  mergeBothSteps leftHalf rightHalf (sizeLeft + sizeRight) 0 0 startIndex
    fun indexLeft indexRight indexMerged =>
  copyLeftSteps leftHalf sizeLeft indexLeft indexMerged fun indexMerged2 =>
  copyRightSteps rightHalf sizeRight indexRight indexMerged2 .done

/-- The accesses of `sequentialMergeSort`, the recursion at most `depth`
calls deep. -/
def sequentialMergeSortSteps : Nat → Nat → Nat → Steps
  | 0, _, _ => .done
  | depth + 1, startIndex, endIndex =>
    if startIndex < endIndex then
      let midIndex := startIndex + (endIndex - startIndex) / 2
      (sequentialMergeSortSteps depth startIndex midIndex).andThen
        ((sequentialMergeSortSteps depth (midIndex + 1) endIndex).andThen
          (mergeSteps startIndex midIndex endIndex))
    else .done

/-- `#define MIN_SIZE_FOR_PARALLEL 5000`. -/
def MIN_SIZE_FOR_PARALLEL : Nat := 5000

/-- The accesses of `parallelMergeSort`, the recursion at most `depth` calls
deep. The two `#pragma omp task` blocks run together, in the order that
`sched startIndex endIndex` gives for this call; `#pragma omp taskwait`
lets `merge` start when both have ended. -/
def parallelMergeSortSteps (sched : Nat → Nat → List Bool) : Nat → Nat → Nat → Steps
  | 0, _, _ => .done
  | depth + 1, startIndex, endIndex =>
    if startIndex < endIndex then
      if endIndex - startIndex + 1 < MIN_SIZE_FOR_PARALLEL then
        sequentialMergeSortSteps (endIndex - startIndex) startIndex endIndex
      else
        let midIndex := startIndex + (endIndex - startIndex) / 2
        (together (sched startIndex endIndex)
          (parallelMergeSortSteps sched depth startIndex midIndex)
          (parallelMergeSortSteps sched depth (midIndex + 1) endIndex)).andThen
          (mergeSteps startIndex midIndex endIndex)
    else .done

/-- The function `parallelMergeSort(arrayToSort, startIndex, endIndex)` under
the schedules `sched`. Every call halves the segment, so the recursion is
never deeper than the segment is long. -/
def parallelMergeSort (sched : Nat → Nat → List Bool) (arrayToSort : List Int)
    (startIndex endIndex : Nat) : List Int :=
  (parallelMergeSortSteps sched (endIndex - startIndex) startIndex endIndex).run arrayToSort

/-- Every access of the steps is to a slot `startIndex .. endIndex`. -/
inductive Within (startIndex endIndex : Nat) : Steps → Prop
  | done : Within startIndex endIndex .done
  | read {index : Nat} {next : Int → Steps} : startIndex ≤ index → index ≤ endIndex →
      (∀ value, Within startIndex endIndex (next value)) →
      Within startIndex endIndex (.read index next)
  | write {index : Nat} {value : Int} {next : Steps} : startIndex ≤ index →
      index ≤ endIndex → Within startIndex endIndex next →
      Within startIndex endIndex (.write index value next)

end MergeSort

/-! ## `dfs.c` : the stack as a block of `V` ints

`DFSSequential` and `DFSParallel` allocate `V` ints for their stack and push
without a test. The definitions of the two functions above take the stack
as a list that can grow without limit. Those below follow the block: a push
at height `V` or more writes outside it, which is undefined behaviour, and
the run is followed no further. -/

namespace Dfs

end Dfs

/-! ## Lemmas on the graph representation -/

theorem nbrs_of_lt {adjList : AdjList} {u : Nat} (h : u < adjList.length) :
    nbrs adjList u = adjList[u] := by
  simp [nbrs, List.getD, List.getElem?_eq_getElem h]

theorem nbrs_of_ge {adjList : AdjList} {u : Nat} (h : adjList.length ≤ u) :
    nbrs adjList u = [] := by
  simp [nbrs, List.getD, List.getElem?_eq_none h]

theorem nbrs_set (adjList : AdjList) (u w : Nat) (l : List Nat) (h : u < adjList.length) :
    nbrs (adjList.set u l) w = if w = u then l else nbrs adjList w := by
  unfold nbrs
  simp only [List.getD_eq_getElem?_getD, List.getElem?_set]
  by_cases hw : w = u
  · subst hw; simp [h]
  · have : ¬ u = w := fun e => hw e.symm
    simp [hw, this]

theorem nbrs_replicate (n u : Nat) : nbrs (List.replicate n []) u = [] := by
  unfold nbrs
  simp only [List.getD_eq_getElem?_getD, List.getElem?_replicate]
  split <;> rfl

theorem Bfs.length_addEdge (adjList : AdjList) (u v : Nat) :
    (Bfs.addEdge adjList u v).length = adjList.length := by
  simp [Bfs.addEdge]

/-- The adjacency list of any vertex after one `addEdge` with both endpoints
inside the graph. -/
theorem Bfs.nbrs_addEdge (adjList : AdjList) (u v w : Nat)
    (hu : u < adjList.length) (hv : v < adjList.length) :
    nbrs (Bfs.addEdge adjList u v) w =
      (if w = v then [u] else []) ++ ((if w = u then [v] else []) ++ nbrs adjList w) := by
  unfold Bfs.addEdge
  simp only
  rw [nbrs_set _ v w _ (by simpa using hv), nbrs_set _ u v _ hu, nbrs_set _ u w _ hu]
  by_cases h1 : w = v <;> by_cases h2 : w = u <;> by_cases h3 : v = u <;>
    simp_all

theorem Dfs.adjList_addEdge (graph : Dfs.Graph) (src dest : Nat) :
    (Dfs.addEdge graph src dest).adjList = Bfs.addEdge graph.adjList src dest := rfl

theorem Dfs.V_addEdge (graph : Dfs.Graph) (src dest : Nat) :
    (Dfs.addEdge graph src dest).V = graph.V := rfl

theorem Dfs.adjList_addEdges (graph : Dfs.Graph) (edges : List (Nat × Nat)) :
    (Dfs.addEdges graph edges).adjList = Bfs.addEdges graph.adjList edges := by
  unfold Dfs.addEdges Bfs.addEdges
  induction edges generalizing graph with
  | nil => rfl
  | cons e es ih => simp only [List.foldl_cons]; rw [ih]; rfl

theorem symCount_replicate (n : Nat) : SymCount (List.replicate n []) := by
  intro u v
  simp [nbrs_replicate]

theorem Bfs.symCount_addEdge {adjList : AdjList} {a b : Nat} (h : SymCount adjList)
    (ha : a < adjList.length) (hb : b < adjList.length) :
    SymCount (Bfs.addEdge adjList a b) := by
  intro u v
  rw [Bfs.nbrs_addEdge _ _ _ _ ha hb, Bfs.nbrs_addEdge _ _ _ _ ha hb]
  simp only [List.count_append]
  rw [h u v]
  by_cases h1 : u = b <;> by_cases h2 : u = a <;> by_cases h3 : v = a <;>
    by_cases h4 : v = b <;> simp_all

theorem Bfs.length_addEdges (adjList : AdjList) (edges : List (Nat × Nat)) :
    (Bfs.addEdges adjList edges).length = adjList.length := by
  unfold Bfs.addEdges
  induction edges generalizing adjList with
  | nil => rfl
  | cons e es ih => simp only [List.foldl_cons]; rw [ih, Bfs.length_addEdge]

theorem Bfs.symCount_addEdges {adjList : AdjList} {edges : List (Nat × Nat)}
    (h : SymCount adjList)
    (he : ∀ e ∈ edges, e.1 < adjList.length ∧ e.2 < adjList.length) :
    SymCount (Bfs.addEdges adjList edges) := by
  unfold Bfs.addEdges
  induction edges generalizing adjList with
  | nil => exact h
  | cons e es ih =>
    simp only [List.foldl_cons]
    have h1 := he e (List.mem_cons_self _ _)
    apply ih (Bfs.symCount_addEdge h h1.1 h1.2)
    intro e2 he2
    rw [Bfs.length_addEdge]
    exact he e2 (List.mem_cons_of_mem _ he2)


/-! ## Lemmas on the array `visited` -/

theorem length_mark (visited : List Bool) (v : Nat) : (mark visited v).length = visited.length := by
  simp [mark]

theorem isVisited_mark (visited : List Bool) (v w : Nat) :
    isVisited (mark visited v) w = true ↔
      (w = v ∧ v < visited.length) ∨ isVisited visited w = true := by
  unfold isVisited mark
  simp only [List.getD_eq_getElem?_getD, List.getElem?_set]
  by_cases hw : v = w
  · subst hw
    by_cases hl : v < visited.length
    · simp [hl]
    · simp [hl, List.getElem?_eq_none (Nat.le_of_not_lt hl)]
  · have : ¬ w = v := fun e => hw e.symm
    simp [hw, this]

theorem isVisited_lt {visited : List Bool} {v : Nat} (h : isVisited visited v = true) :
    v < visited.length := by
  by_contra hl
  unfold isVisited at h
  simp [List.getD_eq_getElem?_getD, List.getElem?_eq_none (Nat.le_of_not_lt hl)] at h

theorem isVisited_replicate (n v : Nat) : isVisited (List.replicate n false) v = false := by
  unfold isVisited
  simp only [List.getD_eq_getElem?_getD, List.getElem?_replicate]
  split <;> rfl

theorem isVisited_mark_of_true {visited : List Bool} {w : Nat} (v : Nat)
    (h : isVisited visited w = true) : isVisited (mark visited v) w = true :=
  (isVisited_mark visited v w).2 (Or.inr h)

/-- Two flag arrays of the same length with the same flags are equal. -/
theorem visited_ext {a b : List Bool} (hl : a.length = b.length)
    (h : ∀ v, isVisited a v = true ↔ isVisited b v = true) : a = b := by
  apply List.ext_getElem hl
  intro i h1 h2
  have := h i
  unfold isVisited at this
  simp only [List.getD_eq_getElem?_getD, List.getElem?_eq_getElem h1,
    List.getElem?_eq_getElem h2, Option.getD_some] at this
  cases ha : a[i] <;> cases hb : b[i] <;> simp_all

theorem nbrs_lt {adjList : AdjList} {n u v : Nat} (hr : InRange adjList n)
    (h : v ∈ nbrs adjList u) : v < n := by
  by_cases hu : u < adjList.length
  · rw [nbrs_of_lt hu] at h
    exact hr _ (List.getElem_mem hu) v h
  · rw [nbrs_of_ge (Nat.le_of_not_lt hu)] at h
    simp at h

theorem length_le_of_nodup_lt {l : List Nat} {n : Nat} (hn : l.Nodup) (h : ∀ x ∈ l, x < n) :
    l.length ≤ n := by
  have hsub : l ⊆ List.range n := fun x hx => List.mem_range.2 (h x hx)
  have := (hn.subperm hsub).length_le
  simpa using this

theorem Reachable.edge_step {adjList : AdjList} {s u v : Nat} (h : Reachable adjList s u)
    (e : v ∈ nbrs adjList u) : Reachable adjList s v :=
  Relation.ReflTransGen.tail h e

/-- A set of vertices that contains `s` and is closed under edges contains
everything reachable from `s`. -/
theorem Reachable.mem_of_closed {adjList : AdjList} {s : Nat} (P : Nat → Prop) (hs : P s)
    (hc : ∀ u, P u → ∀ v ∈ nbrs adjList u, P v) {v : Nat} (h : Reachable adjList s v) : P v := by
  induction h with
  | refl => exact hs
  | tail _ e ih => exact hc _ ih _ e

theorem Reachable.lt_of_inRange {adjList : AdjList} {n s v : Nat} (hr : InRange adjList n) (hs : s < n)
    (h : Reachable adjList s v) : v < n :=
  Reachable.mem_of_closed (fun x => x < n) hs (fun _ _ _ e => nbrs_lt hr e) h

/-! ## `bfsSequential` -/

namespace Bfs

theorem visitNeighbour_front (st : SeqState) (v : Nat) : (visitNeighbour st v).front = st.front := by
  unfold visitNeighbour; split <;> rfl

theorem scanNeighbours_front (st : SeqState) (temp : List Nat) :
    (scanNeighbours st temp).front = st.front := by
  unfold scanNeighbours
  induction temp generalizing st with
  | nil => rfl
  | cons v vs ih => simp only [List.foldl_cons]; rw [ih, visitNeighbour_front]

/-- The part of the invariant that the scan of one adjacency list maintains. -/
theorem scanNeighbours_spec (adjList : AdjList) (n start : Nat) (temp : List Nat) :
    ∀ st : SeqState, st.visited.length = n → st.queue.Nodup →
      (∀ v, isVisited st.visited v = true ↔ v ∈ st.queue) →
      (∀ v ∈ st.queue, Reachable adjList start v) →
      (∀ v ∈ temp, v < n ∧ Reachable adjList start v) →
      (scanNeighbours st temp).visited.length = n ∧ (scanNeighbours st temp).queue.Nodup ∧
      (∀ v, isVisited (scanNeighbours st temp).visited v = true ↔
        v ∈ (scanNeighbours st temp).queue) ∧
      (∀ v ∈ (scanNeighbours st temp).queue, Reachable adjList start v) ∧
      (∃ added, (scanNeighbours st temp).queue = st.queue ++ added) ∧
      (∀ v ∈ temp, v ∈ (scanNeighbours st temp).queue) := by
  induction temp with
  | nil =>
    intro st hl hn hm hr _
    exact ⟨hl, hn, hm, hr, ⟨[], by simp [scanNeighbours]⟩, by simp⟩
  | cons x xs ih =>
    intro st hl hn hm hr ht
    have hx := ht x (List.mem_cons_self _ _)
    have hxs : ∀ v ∈ xs, v < n ∧ Reachable adjList start v :=
      fun v hv => ht v (List.mem_cons_of_mem _ hv)
    have key : (visitNeighbour st x).visited.length = n ∧ (visitNeighbour st x).queue.Nodup ∧
        (∀ v, isVisited (visitNeighbour st x).visited v = true ↔
          v ∈ (visitNeighbour st x).queue) ∧
        (∀ v ∈ (visitNeighbour st x).queue, Reachable adjList start v) ∧
        (∃ added, (visitNeighbour st x).queue = st.queue ++ added) ∧
        x ∈ (visitNeighbour st x).queue := by
      unfold visitNeighbour
      by_cases hv : isVisited st.visited x = true
      · simp only [hv, Bool.not_true, Bool.false_eq_true, if_false]
        exact ⟨hl, hn, hm, hr, ⟨[], by simp⟩, (hm x).1 hv⟩
      · have hnot : x ∉ st.queue := fun h => hv ((hm x).2 h)
        simp only [Bool.not_eq_true] at hv
        simp only [hv, Bool.not_false, if_true]
        refine ⟨by rw [length_mark]; exact hl, ?_, ?_, ?_, ⟨[x], rfl⟩, by simp⟩
        · exact List.Nodup.append hn (List.nodup_singleton x) (by simpa using hnot)
        · intro v
          rw [isVisited_mark, hl, hm v]
          simp only [List.mem_append, List.mem_singleton]
          constructor
          · rintro (⟨rfl, _⟩ | h)
            · exact Or.inr rfl
            · exact Or.inl h
          · rintro (h | rfl)
            · exact Or.inr h
            · exact Or.inl ⟨rfl, hx.1⟩
        · intro v hv2
          simp only [List.mem_append, List.mem_singleton] at hv2
          rcases hv2 with h | rfl
          · exact hr v h
          · exact hx.2
    obtain ⟨k1, k2, k3, k4, ⟨a1, k5⟩, k6⟩ := key
    obtain ⟨r1, r2, r3, r4, ⟨a2, r5⟩, r6⟩ := ih (visitNeighbour st x) k1 k2 k3 k4 hxs
    have e : scanNeighbours st (x :: xs) = scanNeighbours (visitNeighbour st x) xs := rfl
    rw [e]
    refine ⟨r1, r2, r3, r4, ⟨a1 ++ a2, by rw [r5, k5, List.append_assoc]⟩, ?_⟩
    intro v hv
    rcases List.mem_cons.1 hv with rfl | h
    · rw [r5]; exact List.mem_append_left _ k6
    · exact r6 v h

theorem seqInv_init {adjList : AdjList} {n start : Nat} (hs : start < n) :
    SeqInv adjList n start (bfsSequentialInit n start) := by
  refine ⟨by simp [bfsSequentialInit, length_mark], by simp [bfsSequentialInit], ?_, ?_,
    by simp [bfsSequentialInit], by simp [bfsSequentialInit], by simp [bfsSequentialInit]⟩
  · intro v
    simp only [bfsSequentialInit, isVisited_mark, isVisited_replicate, List.length_replicate,
      List.mem_singleton]
    simp [hs]
  · intro v hv
    simp only [bfsSequentialInit, List.mem_singleton] at hv
    subst hv
    exact Relation.ReflTransGen.refl

theorem seqInv_body {adjList : AdjList} {n start : Nat} (hr : InRange adjList n)
    {st : SeqState} (inv : SeqInv adjList n start st) (h : st.front < st.queue.length) :
    SeqInv adjList n start (bfsSequentialBody adjList st st.queue[st.front]) ∧
      (bfsSequentialBody adjList st st.queue[st.front]).front = st.front + 1 := by
  have hu : st.queue[st.front] ∈ st.queue := List.getElem_mem h
  have hscan := scanNeighbours_spec adjList n start
    (nbrs adjList st.queue[st.front]) { st with front := st.front + 1 }
    inv.len inv.nodup inv.mem_iff inv.reach
    (fun v hv => ⟨nbrs_lt hr hv, (inv.reach _ hu).edge_step hv⟩)
  obtain ⟨r1, r2, r3, r4, ⟨added, r5⟩, r6⟩ := hscan
  have hf : (bfsSequentialBody adjList st st.queue[st.front]).front = st.front + 1 := by
    unfold bfsSequentialBody; rw [scanNeighbours_front]
  have hq : (bfsSequentialBody adjList st st.queue[st.front]).queue = st.queue ++ added := r5
  refine ⟨⟨r1, r2, r3, r4, ?_, ?_, ?_⟩, hf⟩
  · rw [hq]; exact List.mem_append_left _ inv.start_mem
  · rw [hf, hq, List.length_append]; omega
  · rw [hf, hq]
    intro u hu2 v hv
    rw [List.take_append_of_le_length (by omega), List.take_succ,
      List.getElem?_eq_getElem h] at hu2
    simp only [Option.toList_some, List.mem_append, List.mem_singleton] at hu2
    rcases hu2 with h1 | rfl
    · exact List.mem_append_left _ (inv.closed u h1 v hv)
    · rw [← hq]; exact r6 v hv

/-- The invariant holds after any number of iterations. -/
theorem seqInv_loop {adjList : AdjList} {n start : Nat} (hr : InRange adjList n) (fuel : Nat) :
    ∀ st : SeqState, SeqInv adjList n start st →
      SeqInv adjList n start (bfsSequentialLoop adjList fuel st) := by
  induction fuel with
  | zero => intro st inv; exact inv
  | succ k ih =>
    intro st inv
    unfold bfsSequentialLoop
    split
    · rename_i h; exact ih _ (seqInv_body hr inv h).1
    · exact inv

theorem SeqInv.rear_le {adjList : AdjList} {n start : Nat} {st : SeqState}
    (inv : SeqInv adjList n start st) : st.queue.length ≤ n :=
  length_le_of_nodup_lt inv.nodup
    (fun x hx => by have := isVisited_lt ((inv.mem_iff x).2 hx); rw [inv.len] at this; exact this)

/-- With `n` iterations left to run (counting those already made) the loop
ends by itself. -/
theorem bfsSequentialLoop_ends {adjList : AdjList} {n start : Nat} (hr : InRange adjList n)
    (fuel : Nat) : ∀ st : SeqState, SeqInv adjList n start st → n ≤ fuel + st.front →
      ¬ (bfsSequentialLoop adjList fuel st).front < (bfsSequentialLoop adjList fuel st).queue.length := by
  induction fuel with
  | zero =>
    intro st inv hf
    have := inv.rear_le
    simp only [bfsSequentialLoop]
    omega
  | succ k ih =>
    intro st inv hf
    unfold bfsSequentialLoop
    split
    · rename_i h
      have hb := seqInv_body hr inv h
      exact ih _ hb.1 (by rw [hb.2]; omega)
    · assumption

/-- When the loop has ended the queue holds exactly the reachable vertices. -/
theorem SeqInv.mem_queue_iff {adjList : AdjList} {n start : Nat} {st : SeqState}
    (inv : SeqInv adjList n start st) (hend : ¬ st.front < st.queue.length) (v : Nat) :
    v ∈ st.queue ↔ Reachable adjList start v := by
  constructor
  · exact inv.reach v
  · intro h
    have hfull : st.queue.take st.front = st.queue := List.take_of_length_le (by omega)
    exact Reachable.mem_of_closed (fun x => x ∈ st.queue) inv.start_mem
      (fun u hu w hw => inv.closed u (by rw [hfull]; exact hu) w hw) h

/-- The function `bfsSequential` returns, in a state that satisfies the
invariant with the queue used up. -/
theorem bfsSequential_returns {adjList : AdjList} {n start fuel : Nat} (hr : InRange adjList n)
    (hs : start < n) (hf : n ≤ fuel) :
    ∃ st, bfsSequential adjList n start fuel = some st ∧ SeqInv adjList n start st ∧
      ¬ st.front < st.queue.length := by
  have inv0 : SeqInv adjList n start (bfsSequentialInit n start) := seqInv_init hs
  have hend := bfsSequentialLoop_ends hr fuel _ inv0 (by omega)
  refine ⟨bfsSequentialLoop adjList fuel (bfsSequentialInit n start), ?_, seqInv_loop hr fuel _ inv0,
    hend⟩
  unfold bfsSequential
  simp only [hend, if_false]

end Bfs

/-! ## `DFSSequential` -/

theorem pendingFrom_le (visited : List Bool) (ls : AdjList) :
    ∀ i, pendingFrom visited i ls ≤ totalEntries ls := by
  induction ls with
  | nil => intro i; simp [pendingFrom, totalEntries]
  | cons l ls ih =>
    intro i
    have := ih (i + 1)
    simp only [pendingFrom, totalEntries, List.map_cons, List.sum_cons] at *
    split <;> omega

theorem isVisited_mark_ne {visited : List Bool} {c i : Nat} (h : i ≠ c) :
    isVisited (mark visited c) i = isVisited visited i := by
  have := isVisited_mark visited c i
  cases h1 : isVisited (mark visited c) i <;> cases h2 : isVisited visited i <;> simp_all

theorem pendingFrom_mark_lt (visited : List Bool) (c : Nat) (ls : AdjList) :
    ∀ i, c < i → pendingFrom (mark visited c) i ls = pendingFrom visited i ls := by
  induction ls with
  | nil => intro i _; rfl
  | cons l ls ih =>
    intro i hi
    simp only [pendingFrom]
    rw [ih (i + 1) (by omega), isVisited_mark_ne (by omega)]

/-- Marking an unmarked vertex takes its adjacency entries out of the
pending ones. -/
theorem pendingFrom_mark (visited : List Bool) (c : Nat) (hc : c < visited.length)
    (hv : isVisited visited c = false) (ls : AdjList) :
    ∀ i, i ≤ c →
      pendingFrom (mark visited c) i ls + (ls.getD (c - i) []).length = pendingFrom visited i ls := by
  induction ls with
  | nil => intro i _; simp [pendingFrom]
  | cons l ls ih =>
    intro i hi
    simp only [pendingFrom]
    by_cases hci : c = i
    · subst hci
      have h1 : isVisited (mark visited c) c = true := (isVisited_mark visited c c).2 (Or.inl ⟨rfl, hc⟩)
      rw [pendingFrom_mark_lt visited c ls (c + 1) (by omega), h1, hv]
      simp only [Nat.sub_self, List.getD_cons_zero, if_true, Bool.false_eq_true, if_false]
      omega
    · have h2 := ih (i + 1) (by omega)
      have e : c - i = (c - (i + 1)) + 1 := by omega
      rw [isVisited_mark_ne (fun e => hci e.symm), e, List.getD_cons_succ]
      omega

namespace Dfs

theorem mem_pushUnvisited (visited : List Bool) (temp : List Nat) :
    ∀ (stack : List Nat) (w : Nat), w ∈ pushUnvisited visited stack temp ↔
      w ∈ stack ∨ (w ∈ temp ∧ isVisited visited w = false) := by
  induction temp with
  | nil => intro stack w; simp [pushUnvisited]
  | cons x xs ih =>
    intro stack w
    have e : pushUnvisited visited stack (x :: xs) =
        pushUnvisited visited (if !isVisited visited x then x :: stack else stack) xs := rfl
    rw [e, ih]
    by_cases hx : isVisited visited x = true
    · simp only [hx, Bool.not_true, Bool.false_eq_true, if_false, List.mem_cons]
      constructor
      · rintro (h | ⟨h1, h2⟩)
        · exact Or.inl h
        · exact Or.inr ⟨Or.inr h1, h2⟩
      · rintro (h | ⟨h1 | h1, h2⟩)
        · exact Or.inl h
        · subst h1; rw [hx] at h2; cases h2
        · exact Or.inr ⟨h1, h2⟩
    · simp only [Bool.not_eq_true] at hx
      simp only [hx, Bool.not_false, if_true, List.mem_cons]
      constructor
      · rintro ((h | h) | ⟨h1, h2⟩)
        · subst h; exact Or.inr ⟨Or.inl rfl, hx⟩
        · exact Or.inl h
        · exact Or.inr ⟨Or.inr h1, h2⟩
      · rintro (h | ⟨h1 | h1, h2⟩)
        · exact Or.inl (Or.inr h)
        · exact Or.inl (Or.inl h1)
        · exact Or.inr ⟨h1, h2⟩

theorem length_pushUnvisited (visited : List Bool) (temp : List Nat) :
    ∀ stack : List Nat, (pushUnvisited visited stack temp).length ≤ stack.length + temp.length := by
  induction temp with
  | nil => intro stack; simp [pushUnvisited]
  | cons x xs ih =>
    intro stack
    have e : pushUnvisited visited stack (x :: xs) =
        pushUnvisited visited (if !isVisited visited x then x :: stack else stack) xs := rfl
    rw [e]
    by_cases hx : (!isVisited visited x) = true
    · rw [if_pos hx]
      have := ih (x :: stack)
      simp only [List.length_cons] at *; omega
    · rw [if_neg hx]
      have := ih stack
      simp only [List.length_cons] at *; omega

theorem safe_body {graph : Graph} {n : Nat} (hr : InRange graph.adjList n) {visited : List Bool}
    {curr : Nat} {rest : List Nat} (h : Safe n { visited := visited, stack := curr :: rest }) :
    Safe n (DFSSequentialBody graph visited curr rest) := by
  have hl : visited.length = n := h.len
  have hrest : ∀ v ∈ rest, v < n := fun v hv => h.stack_lt v (List.mem_cons_of_mem _ hv)
  unfold DFSSequentialBody
  split
  · refine ⟨by simp only [length_mark]; exact hl, ?_⟩
    intro v hv
    rcases (mem_pushUnvisited _ _ _ _).1 hv with h1 | ⟨h1, _⟩
    · exact hrest v h1
    · exact nbrs_lt hr h1
  · exact ⟨hl, hrest⟩

/-- Every iteration lowers the measure. -/
theorem measure_body (graph : Graph) {n : Nat} {visited : List Bool}
    {curr : Nat} {rest : List Nat} (h : Safe n { visited := visited, stack := curr :: rest }) :
    measure graph (DFSSequentialBody graph visited curr rest) + 1 ≤
      measure graph { visited := visited, stack := curr :: rest } := by
  have hl : visited.length = n := h.len
  have hc : curr < n := h.stack_lt curr (List.mem_cons_self _ _)
  unfold DFSSequentialBody measure
  by_cases hv : isVisited visited curr = true
  · simp only [hv, Bool.not_true, Bool.false_eq_true, if_false, List.length_cons]
    omega
  · simp only [Bool.not_eq_true] at hv
    simp only [hv, Bool.not_false, if_true, List.length_cons]
    have h1 := length_pushUnvisited (mark visited curr) (nbrs graph.adjList curr) rest
    have h2 := pendingFrom_mark visited curr (by omega) hv graph.adjList 0 (Nat.zero_le _)
    simp only [Nat.sub_zero] at h2
    have e : (nbrs graph.adjList curr).length = (graph.adjList.getD curr []).length := rfl
    omega

/-- With fuel for the whole measure the loop runs until the stack is empty. -/
theorem loop_ends {graph : Graph} {n : Nat} (hr : InRange graph.adjList n) (fuel : Nat) :
    ∀ st : State, Safe n st → measure graph st ≤ fuel →
      (DFSSequentialLoop graph fuel st).stack = [] := by
  induction fuel with
  | zero =>
    intro st _ hm
    unfold measure at hm
    simp only [DFSSequentialLoop]
    exact List.length_eq_zero.1 (by omega)
  | succ k ih =>
    intro st hs hm
    unfold DFSSequentialLoop
    obtain ⟨visited, stack⟩ := st
    cases stack with
    | nil => rfl
    | cons curr rest =>
      simp only
      have := measure_body graph hs
      exact ih _ (safe_body hr hs) (by omega)

theorem inv_body {graph : Graph} {n start : Nat}
    {visited : List Bool} {curr : Nat} {rest : List Nat}
    (hs : Safe n { visited := visited, stack := curr :: rest })
    (h : Inv graph.adjList start { visited := visited, stack := curr :: rest }) :
    Inv graph.adjList start (DFSSequentialBody graph visited curr rest) := by
  have hl : visited.length = n := hs.len
  have hc : curr < n := hs.stack_lt curr (List.mem_cons_self _ _)
  have hcr : Reachable graph.adjList start curr := h.stack_reach curr (List.mem_cons_self _ _)
  unfold DFSSequentialBody
  by_cases hv : isVisited visited curr = true
  · simp only [hv, Bool.not_true, Bool.false_eq_true, if_false]
    refine ⟨h.vis_reach, fun v hv2 => h.stack_reach v (List.mem_cons_of_mem _ hv2), ?_, ?_⟩
    · rcases h.start_ok with h1 | h1
      · exact Or.inl h1
      · rcases List.mem_cons.1 h1 with h2 | h2
        · subst h2; exact Or.inl hv
        · exact Or.inr h2
    · intro u hu v hv2
      rcases h.closed u hu v hv2 with h1 | h1
      · exact Or.inl h1
      · rcases List.mem_cons.1 h1 with h2 | h2
        · subst h2; exact Or.inl hv
        · exact Or.inr h2
  · simp only [Bool.not_eq_true] at hv
    simp only [hv, Bool.not_false, if_true]
    have hmc : isVisited (mark visited curr) curr = true :=
      (isVisited_mark visited curr curr).2 (Or.inl ⟨rfl, by omega⟩)
    have key : ∀ v, v ∈ curr :: rest → isVisited (mark visited curr) v = true ∨
        v ∈ pushUnvisited (mark visited curr) rest (nbrs graph.adjList curr) := by
      intro v hv2
      rcases List.mem_cons.1 hv2 with h2 | h2
      · subst h2; exact Or.inl hmc
      · exact Or.inr ((mem_pushUnvisited _ _ _ _).2 (Or.inl h2))
    refine ⟨?_, ?_, ?_, ?_⟩
    · intro v hv2
      rcases (isVisited_mark visited curr v).1 hv2 with ⟨h1, _⟩ | h1
      · subst h1; exact hcr
      · exact h.vis_reach v h1
    · intro v hv2
      rcases (mem_pushUnvisited _ _ _ _).1 hv2 with h1 | ⟨h1, _⟩
      · exact h.stack_reach v (List.mem_cons_of_mem _ h1)
      · exact hcr.edge_step h1
    · rcases h.start_ok with h1 | h1
      · exact Or.inl (isVisited_mark_of_true curr h1)
      · exact key start h1
    · intro u hu v hv2
      rcases (isVisited_mark visited curr u).1 hu with ⟨h1, _⟩ | h1
      · subst h1
        cases hvv : isVisited (mark visited u) v
        · exact Or.inr ((mem_pushUnvisited _ _ _ _).2 (Or.inr ⟨hv2, hvv⟩))
        · exact Or.inl rfl
      · rcases h.closed u h1 v hv2 with h2 | h2
        · exact Or.inl (isVisited_mark_of_true curr h2)
        · exact key v h2

theorem inv_loop {graph : Graph} {n : Nat} (start : Nat) (hr : InRange graph.adjList n) (fuel : Nat) :
    ∀ st : State, Safe n st → Inv graph.adjList start st →
      Inv graph.adjList start (DFSSequentialLoop graph fuel st) := by
  induction fuel with
  | zero => intro st _ h; exact h
  | succ k ih =>
    intro st hs h
    unfold DFSSequentialLoop
    obtain ⟨visited, stack⟩ := st
    cases stack with
    | nil => exact h
    | cons curr rest => exact ih _ (safe_body hr hs) (inv_body hs h)

theorem measure_init_le (graph : Graph) (start : Nat) (visited : List Bool) :
    measure graph { visited := visited, stack := [start] } ≤ 1 + totalEntries graph.adjList := by
  have := pendingFrom_le visited graph.adjList 0
  simp only [measure, List.length_singleton]
  omega

/-- On a graph whose entries are vertices, `DFSSequential` returns. -/
theorem DFSSequential_returns {graph : Graph} {start fuel : Nat} {visited : List Bool}
    (hr : InRange graph.adjList graph.V) (hs : start < graph.V) (hl : visited.length = graph.V)
    (hf : 1 + totalEntries graph.adjList ≤ fuel) :
    DFSSequential graph start visited fuel =
      some (DFSSequentialLoop graph fuel { visited := visited, stack := [start] }).visited := by
  have hsafe : Safe graph.V { visited := visited, stack := [start] } :=
    ⟨hl, fun v hv => by simp only [List.mem_singleton] at hv; omega⟩
  have hend := loop_ends hr fuel _ hsafe (le_trans (measure_init_le graph start visited) hf)
  unfold DFSSequential
  simp only [hend, if_true]

end Dfs

/-! ## `DFSParallel` -/

theorem unlock_lock (n curr : Nat) :
    ((List.replicate n false).set curr true).set curr false = List.replicate n false := by
  rw [List.set_set]
  apply List.ext_getElem (by simp)
  intro i h1 h2
  simp [List.getElem_set]

namespace Dfs

/-- With every lock free, one iteration of the inner loop of `DFSParallel`
gets its lock, does what the body of `DFSSequential` does, and frees it. -/
theorem parallelBody_eq (graph : Graph) (visited : List Bool) (curr : Nat) (rest : List Nat)
    (n : Nat) :
    DFSParallelBody graph
        { visited := visited, locks := List.replicate n false, localStack := curr :: rest }
        curr rest =
      some { visited := (DFSSequentialBody graph visited curr rest).visited,
             locks := List.replicate n false,
             localStack := (DFSSequentialBody graph visited curr rest).stack } := by
  have hfree : (List.replicate n false).getD curr false = false := isVisited_replicate n curr
  unfold DFSParallelBody DFSSequentialBody
  by_cases hv : isVisited visited curr = true
  · simp [hv]
  · simp only [Bool.not_eq_true] at hv
    simp [hv, hfree, unlock_lock]

theorem parallelLoop_eq (graph : Graph) (n fuel : Nat) : ∀ (visited : List Bool) (stack : List Nat),
    DFSParallelLoop graph fuel
        { visited := visited, locks := List.replicate n false, localStack := stack } =
      some { visited := (DFSSequentialLoop graph fuel { visited := visited, stack := stack }).visited,
             locks := List.replicate n false,
             localStack :=
               (DFSSequentialLoop graph fuel { visited := visited, stack := stack }).stack } := by
  induction fuel with
  | zero => intro visited stack; rfl
  | succ k ih =>
    intro visited stack
    cases stack with
    | nil => rfl
    | cons curr rest =>
      simp only [DFSParallelLoop, DFSSequentialLoop]
      rw [parallelBody_eq]
      simp only
      rw [ih]

/-- The two depth-first searches compute the same result on every input. -/
theorem DFSParallel_eq (graph : Graph) (start : Nat) (visited : List Bool) (fuel : Nat) :
    DFSParallel graph start visited fuel = DFSSequential graph start visited fuel := by
  unfold DFSParallel DFSSequential
  simp only
  rw [parallelLoop_eq]

end Dfs

/-! ## One round of `bfsParallel` -/

theorem sum_map_set {α : Type} (f : α → Nat) : ∀ (l : List α) (t : Nat) (w w' : α),
    l[t]? = some w → ((l.set t w').map f).sum + f w = (l.map f).sum + f w' := by
  intro l
  induction l with
  | nil => intro t w w' h; simp at h
  | cons a as ih =>
    intro t w w' h
    cases t with
    | zero =>
      simp only [List.getElem?_cons_zero, Option.some.injEq] at h
      subst h
      simp only [List.set_cons_zero, List.map_cons, List.sum_cons]
      omega
    | succ t =>
      simp only [List.getElem?_cons_succ] at h
      have := ih t w w' h
      simp only [List.set_cons_succ, List.map_cons, List.sum_cons]
      omega

theorem getElem?_set_cases {α : Type} {l : List α} {t s : Nat} {w' x : α}
    (h : (l.set t w')[s]? = some x) : (s = t ∧ x = w') ∨ (s ≠ t ∧ l[s]? = some x) := by
  rw [List.getElem?_set] at h
  by_cases hts : t = s
  · subst hts
    simp only [if_true] at h
    split at h
    · exact Or.inl ⟨rfl, (Option.some.inj h).symm⟩
    · cases h
  · simp only [hts, if_false] at h
    exact Or.inr ⟨fun e => hts e.symm, h⟩

theorem getElem?_set_self_of_some {α : Type} {l : List α} {t : Nat} {w w' : α}
    (h : l[t]? = some w) : (l.set t w')[t]? = some w' := by
  have hl : t < l.length := by
    by_contra hc
    rw [List.getElem?_eq_none (Nat.le_of_not_lt hc)] at h
    cases h
  rw [List.getElem?_set]
  simp [hl]

namespace Bfs

/-- The invariant survives any change to the shared arrays and to one
thread that only marks neighbours the thread still had to examine, drops
from its work only neighbours that are marked, and accounts for every new
mark by one new entry of its local queue. -/
theorem RInv.update {adjList : AdjList} {n : Nat} {visited0 : List Bool} {frontier : List Nat}
    {r : Round} (inv : RInv adjList n visited0 frontier r) {t : Nat} {w : Worker}
    (ht : r.workers[t]? = some w) (vis' : List Bool) (nf' : List Nat) (w' : Worker)
    (a : vis'.length = r.visited.length)
    (b : ∀ x, isVisited r.visited x = true → isVisited vis' x = true)
    (c : ∀ x, isVisited vis' x = true → isVisited r.visited x = true ∨ x ∈ w.todo adjList)
    (d : ∀ x ∈ w'.todo adjList, x ∈ w.todo adjList)
    (e : ∀ x ∈ w.todo adjList, x ∈ w'.todo adjList ∨ isVisited vis' x = true)
    (f : w'.merged = true → w.merged = true ∨ w'.todo adjList = [])
    (g : ∀ x, nf'.count x + w'.held x + newly visited0 r.visited x =
      r.nextFrontier.count x + w.held x + newly visited0 vis' x) :
    RInv adjList n visited0 frontier
      { visited := vis', nextFrontier := nf', workers := r.workers.set t w' } := by
  refine ⟨a.trans inv.len, fun v h => b v (inv.mono v h), ?_, ?_, ?_, ?_, ?_⟩
  · intro v hv
    rcases c v hv with h1 | h1
    · exact inv.only v h1
    · exact Or.inr (inv.todo_sub t w ht v h1)
  · intro s x hs v hv
    rcases getElem?_set_cases hs with ⟨_, rfl⟩ | ⟨_, h2⟩
    · exact inv.todo_sub t w ht v (d v hv)
    · exact inv.todo_sub s x h2 v hv
  · intro v hv
    rcases inv.cover v hv with h1 | ⟨s, x, h1, h2⟩
    · exact Or.inl (b v h1)
    · by_cases hst : s = t
      · subst hst
        rw [ht] at h1
        cases h1
        rcases e v h2 with h3 | h3
        · exact Or.inr ⟨s, w', getElem?_set_self_of_some ht, h3⟩
        · exact Or.inl h3
      · refine Or.inr ⟨s, x, ?_, h2⟩
        simp only
        rw [List.getElem?_set_ne (fun e => hst e.symm)]
        exact h1
  · intro s x hs hm
    rcases getElem?_set_cases hs with ⟨_, rfl⟩ | ⟨_, h2⟩
    · rcases f hm with h3 | h3
      · have h4 := inv.merged_done t w ht h3
        apply List.eq_nil_iff_forall_not_mem.2
        intro y hy
        have := d y hy
        rw [h4] at this
        cases this
      · exact h3
    · exact inv.merged_done s x h2 hm
  · intro v
    have h1 := inv.count v
    have h2 := sum_map_set (Worker.held v) r.workers t w w' ht
    have h3 := g v
    simp only
    omega

theorem newly_mark_self {visited0 visited : List Bool} {v : Nat} (hv : isVisited visited v = false)
    (h0 : isVisited visited0 v = false) (hl : v < visited.length) :
    newly visited0 visited v = 0 ∧ newly visited0 (mark visited v) v = 1 := by
  have h1 : isVisited (mark visited v) v = true := (isVisited_mark visited v v).2 (Or.inl ⟨rfl, hl⟩)
  simp [newly, hv, h0, h1]

theorem newly_mark_ne {visited0 visited : List Bool} {v x : Nat} (h : x ≠ v) :
    newly visited0 (mark visited v) x = newly visited0 visited x := by
  simp [newly, isVisited_mark_ne h]

theorem Worker.mem_todo (adjList : AdjList) (w : Worker) (x : Nat) :
    x ∈ w.todo adjList ↔ w.waiting = some x ∨ x ∈ w.temp ∨ ∃ u ∈ w.iters, x ∈ nbrs adjList u := by
  unfold Worker.todo
  simp only [List.mem_append, Option.mem_toList, Option.mem_def, List.mem_flatMap, or_assoc]

/-- Every atomic action of every thread keeps the invariant of the round. -/
theorem RInv.keep_step {adjList : AdjList} {n : Nat} {visited0 : List Bool} {frontier : List Nat}
    (hr : InRange adjList n) {r : Round} (inv : RInv adjList n visited0 frontier r) (t : Nat) :
    RInv adjList n visited0 frontier (Round.step adjList r t) := by
  unfold Round.step
  cases ht : r.workers[t]? with
  | none => exact inv
  | some w =>
    simp only
    obtain ⟨iters, temp, waiting, lq, merged⟩ := w
    cases waiting with
    | some v =>
      have hvt : v ∈ Worker.todo adjList ⟨iters, temp, some v, lq, merged⟩ :=
        (Worker.mem_todo _ _ _).2 (Or.inl rfl)
      have hm : merged = false := by
        cases merged with
        | false => rfl
        | true =>
          have := inv.merged_done t _ ht rfl
          rw [this] at hvt
          cases hvt
      subst hm
      have hvn : v < n := by
        obtain ⟨u, _, hu⟩ := inv.todo_sub t _ ht v hvt
        exact nbrs_lt hr hu
      by_cases hv : isVisited r.visited v = true
      · simp only [workerStep, hv, Bool.not_true, Bool.false_eq_true, if_false]
        refine inv.update ht _ _ _ rfl (fun _ h => h) (fun _ h => Or.inl h) ?_ ?_ ?_ ?_
        · intro x hx
          rw [Worker.mem_todo] at hx ⊢
          rcases hx with h | h | h
          · cases h
          · exact Or.inr (Or.inl h)
          · exact Or.inr (Or.inr h)
        · intro x hx
          rw [Worker.mem_todo] at hx
          rw [Worker.mem_todo]
          rcases hx with h | h | h
          · cases h; exact Or.inr hv
          · exact Or.inl (Or.inr (Or.inl h))
          · exact Or.inl (Or.inr (Or.inr h))
        · intro h; cases h
        · intro x; simp [Worker.held]
      · simp only [Bool.not_eq_true] at hv
        simp only [workerStep, hv, Bool.not_false, if_true]
        have h0 : isVisited visited0 v = false := by
          cases h : isVisited visited0 v with
          | false => rfl
          | true => rw [inv.mono v h] at hv; cases hv
        refine inv.update ht _ _ _ (length_mark _ _) (fun x h => isVisited_mark_of_true v h) ?_
          ?_ ?_ ?_ ?_
        · intro x hx
          rcases (isVisited_mark _ _ _).1 hx with ⟨rfl, _⟩ | h
          · exact Or.inr hvt
          · exact Or.inl h
        · intro x hx
          rw [Worker.mem_todo] at hx ⊢
          rcases hx with h | h | h
          · cases h
          · exact Or.inr (Or.inl h)
          · exact Or.inr (Or.inr h)
        · intro x hx
          rw [Worker.mem_todo] at hx
          rw [Worker.mem_todo]
          rcases hx with h | h | h
          · cases h
            exact Or.inr ((isVisited_mark _ _ _).2 (Or.inl ⟨rfl, by rw [inv.len]; exact hvn⟩))
          · exact Or.inl (Or.inr (Or.inl h))
          · exact Or.inl (Or.inr (Or.inr h))
        · intro h; cases h
        · intro x
          by_cases hx : x = v
          · subst hx
            have := newly_mark_self hv h0 (by rw [inv.len]; exact hvn)
            simp only [Worker.held, List.count_append, List.count_singleton, this.1, this.2]
            simp
            omega
          · rw [newly_mark_ne hx]
            have : ¬ v = x := fun e => hx e.symm
            simp [Worker.held, List.count_append, List.count_singleton, this]
    | none =>
      cases temp with
      | cons v rest =>
        by_cases hv : isVisited r.visited v = true
        · simp only [workerStep, hv, Bool.not_true, Bool.false_eq_true, if_false]
          refine inv.update ht _ _ _ rfl (fun _ h => h) (fun _ h => Or.inl h) ?_ ?_ ?_ ?_
          · intro x hx
            rw [Worker.mem_todo] at hx ⊢
            rcases hx with h | h | h
            · cases h
            · exact Or.inr (Or.inl (List.mem_cons_of_mem _ h))
            · exact Or.inr (Or.inr h)
          · intro x hx
            rw [Worker.mem_todo] at hx
            rw [Worker.mem_todo]
            rcases hx with h | h | h
            · cases h
            · rcases List.mem_cons.1 h with h1 | h1
              · subst h1; exact Or.inr hv
              · exact Or.inl (Or.inr (Or.inl h1))
            · exact Or.inl (Or.inr (Or.inr h))
          · intro h; exact Or.inl h
          · intro x; simp [Worker.held]
        · simp only [Bool.not_eq_true] at hv
          simp only [workerStep, hv, Bool.not_false, if_true]
          refine inv.update ht _ _ _ rfl (fun _ h => h) (fun _ h => Or.inl h) ?_ ?_ ?_ ?_
          · intro x hx
            rw [Worker.mem_todo] at hx ⊢
            rcases hx with h | h | h
            · cases h; exact Or.inr (Or.inl (List.mem_cons_self _ _))
            · exact Or.inr (Or.inl (List.mem_cons_of_mem _ h))
            · exact Or.inr (Or.inr h)
          · intro x hx
            rw [Worker.mem_todo] at hx
            rw [Worker.mem_todo]
            rcases hx with h | h | h
            · cases h
            · rcases List.mem_cons.1 h with h1 | h1
              · subst h1; exact Or.inl (Or.inl rfl)
              · exact Or.inl (Or.inr (Or.inl h1))
            · exact Or.inl (Or.inr (Or.inr h))
          · intro h; exact Or.inl h
          · intro x; simp [Worker.held]
      | nil =>
        cases iters with
        | cons u us =>
          simp only [workerStep]
          refine inv.update ht _ _ _ rfl (fun _ h => h) (fun _ h => Or.inl h) ?_ ?_ ?_ ?_
          · intro x hx
            rw [Worker.mem_todo] at hx ⊢
            rcases hx with h | h | ⟨y, h1, h2⟩
            · cases h
            · exact Or.inr (Or.inr ⟨u, List.mem_cons_self _ _, h⟩)
            · exact Or.inr (Or.inr ⟨y, List.mem_cons_of_mem _ h1, h2⟩)
          · intro x hx
            rw [Worker.mem_todo] at hx
            rw [Worker.mem_todo]
            rcases hx with h | h | ⟨y, h1, h2⟩
            · cases h
            · cases h
            · rcases List.mem_cons.1 h1 with h3 | h3
              · subst h3; exact Or.inl (Or.inr (Or.inl h2))
              · exact Or.inl (Or.inr (Or.inr ⟨y, h3, h2⟩))
          · intro h; exact Or.inl h
          · intro x; simp [Worker.held]
        | nil =>
          cases merged with
          | true =>
            simp only [workerStep, if_true]
            refine inv.update ht _ _ _ rfl (fun _ h => h) (fun _ h => Or.inl h) ?_ ?_ ?_ ?_
            · intro x hx; exact hx
            · intro x hx; exact Or.inl hx
            · intro h; exact Or.inl h
            · intro x; rfl
          | false =>
            simp only [workerStep, Bool.false_eq_true, if_false]
            refine inv.update ht _ _ _ rfl (fun _ h => h) (fun _ h => Or.inl h) ?_ ?_ ?_ ?_
            · intro x hx; exact hx
            · intro x hx; exact Or.inl hx
            · intro _; exact Or.inr (by simp [Worker.todo])
            · intro x; simp [Worker.held, List.count_append]

end Bfs

/-! ## The end of the parallel region -/

namespace Bfs

theorem workerStep_merged (adjList : AdjList) (visited : List Bool) (nf : List Nat) (w : Worker)
    (h : w.merged = true) : (workerStep adjList visited nf w).2.2.merged = true := by
  obtain ⟨iters, temp, waiting, lq, merged⟩ := w
  simp only at h
  subst h
  unfold workerStep
  cases waiting with
  | some v => simp only; split <;> rfl
  | none =>
    cases temp with
    | cons v rest => simp only; split <;> rfl
    | nil =>
      cases iters with
      | cons u us => rfl
      | nil => rfl

/-- An atomic action of a thread that has not finished uses up some of its
budget. -/
theorem workerStep_budget (adjList : AdjList) (visited : List Bool) (nf : List Nat) (w : Worker)
    (h : w.merged = false) :
    (workerStep adjList visited nf w).2.2.budget adjList + 1 ≤ w.budget adjList := by
  obtain ⟨iters, temp, waiting, lq, merged⟩ := w
  simp only at h
  subst h
  unfold workerStep
  cases waiting with
  | some v =>
    simp only
    split <;> simp only [Worker.budget, Option.isSome_some, Option.isSome_none, if_true,
      Bool.false_eq_true, if_false] <;> omega
  | none =>
    cases temp with
    | cons v rest =>
      simp only
      split <;> simp only [Worker.budget, Option.isSome_some, Option.isSome_none, if_true,
        Bool.false_eq_true, if_false, List.length_cons] <;> omega
    | nil =>
      cases iters with
      | cons u us =>
        simp only [Worker.budget, Option.isSome_none, Bool.false_eq_true, if_false,
          List.length_nil, List.map_cons, List.sum_cons]
        omega
      | nil =>
        simp only [Worker.budget, Option.isSome_none, Bool.false_eq_true, if_false,
          List.length_nil, List.map_nil, List.sum_nil, if_true]
        omega

theorem Round.step_length (adjList : AdjList) (r : Round) (t : Nat) :
    (Round.step adjList r t).workers.length = r.workers.length := by
  unfold Round.step
  split
  · rfl
  · simp

theorem Round.step_ne (adjList : AdjList) (r : Round) {t s : Nat} (h : s ≠ t) :
    (Round.step adjList r t).workers[s]? = r.workers[s]? := by
  unfold Round.step
  split
  · rfl
  · simp only
    rw [List.getElem?_set_ne (fun e => h e.symm)]

theorem Round.step_self (adjList : AdjList) (r : Round) {t : Nat} {w : Worker}
    (h : r.workers[t]? = some w) :
    (Round.step adjList r t).workers[t]? =
      some (workerStep adjList r.visited r.nextFrontier w).2.2 := by
  unfold Round.step
  rw [h]
  simp only
  exact getElem?_set_self_of_some h

theorem Round.Done.keep_done_step {adjList : AdjList} {r : Round} {s : Nat} (h : r.Done s) (t : Nat) :
    (Round.step adjList r t).Done s := by
  obtain ⟨w, h1, h2⟩ := h
  by_cases hst : s = t
  · subst hst
    exact ⟨_, Round.step_self adjList r h1, workerStep_merged _ _ _ _ h2⟩
  · exact ⟨w, by rw [Round.step_ne adjList r hst]; exact h1, h2⟩

theorem Round.stepN_length (adjList : AdjList) (t k : Nat) : ∀ r : Round,
    (Round.stepN adjList t k r).workers.length = r.workers.length := by
  induction k with
  | zero => intro r; rfl
  | succ k ih => intro r; simp only [Round.stepN]; rw [ih, Round.step_length]

theorem Round.Done.keep_done_stepN {adjList : AdjList} {s : Nat} (t k : Nat) : ∀ r : Round, r.Done s →
    (Round.stepN adjList t k r).Done s := by
  induction k with
  | zero => intro r h; exact h
  | succ k ih => intro r h; exact ih _ (h.keep_done_step t)

theorem RInv.keep_stepN {adjList : AdjList} {n : Nat} {visited0 : List Bool} {frontier : List Nat}
    (hr : InRange adjList n) (t k : Nat) : ∀ r : Round, RInv adjList n visited0 frontier r →
      RInv adjList n visited0 frontier (Round.stepN adjList t k r) := by
  induction k with
  | zero => intro r h; exact h
  | succ k ih => intro r h; exact ih _ (h.keep_step hr t)

/-- A thread that is given as many atomic actions as its budget reaches the
end of the parallel region. -/
theorem Round.stepN_done (adjList : AdjList) (t k : Nat) : ∀ (r : Round) (w : Worker),
    r.workers[t]? = some w → w.merged = true ∨ w.budget adjList ≤ k →
      (Round.stepN adjList t k r).Done t := by
  induction k with
  | zero =>
    intro r w h hb
    refine ⟨w, h, ?_⟩
    rcases hb with h1 | h1
    · exact h1
    · cases hm : w.merged with
      | true => rfl
      | false =>
        unfold Worker.budget at h1
        simp only [hm, Bool.false_eq_true, if_false] at h1
        omega
  | succ k ih =>
    intro r w h hb
    simp only [Round.stepN]
    apply ih _ _ (Round.step_self adjList r h)
    cases hm : w.merged with
    | true => exact Or.inl (workerStep_merged _ _ _ _ hm)
    | false =>
      have := workerStep_budget adjList r.visited r.nextFrontier w hm
      rcases hb with h1 | h1
      · rw [hm] at h1; cases h1
      · exact Or.inr (by omega)

theorem Round.finish_length (adjList : AdjList) (r : Round) (t : Nat) :
    (Round.finish adjList r t).workers.length = r.workers.length := by
  unfold Round.finish
  split
  · rfl
  · exact Round.stepN_length _ _ _ _

theorem Round.Done.keep_done_finish {adjList : AdjList} {r : Round} {s : Nat} (h : r.Done s) (t : Nat) :
    (Round.finish adjList r t).Done s := by
  unfold Round.finish
  split
  · exact h
  · exact h.keep_done_stepN _ _ _

theorem RInv.keep_finish {adjList : AdjList} {n : Nat} {visited0 : List Bool} {frontier : List Nat}
    (hr : InRange adjList n) {r : Round} (h : RInv adjList n visited0 frontier r) (t : Nat) :
    RInv adjList n visited0 frontier (Round.finish adjList r t) := by
  unfold Round.finish
  split
  · exact h
  · exact h.keep_stepN hr _ _ _

theorem Round.finish_done (adjList : AdjList) (r : Round) {t : Nat} (h : t < r.workers.length) :
    (Round.finish adjList r t).Done t := by
  unfold Round.finish
  rw [List.getElem?_eq_getElem h]
  exact Round.stepN_done adjList t _ r _ (List.getElem?_eq_getElem h) (Or.inr (Nat.le_refl _))

/-- The interleaved part of a round keeps the invariant and the team. -/
theorem RInv.foldl_step {adjList : AdjList} {n : Nat} {visited0 : List Bool}
    {frontier : List Nat} (hr : InRange adjList n) (order : List Nat) : ∀ r : Round,
    RInv adjList n visited0 frontier r →
      RInv adjList n visited0 frontier (order.foldl (Round.step adjList) r) ∧
      (order.foldl (Round.step adjList) r).workers.length = r.workers.length := by
  induction order with
  | nil => intro r h; exact ⟨h, rfl⟩
  | cons t ts ih =>
    intro r h
    obtain ⟨h1, h2⟩ := ih _ (h.keep_step hr t)
    exact ⟨h1, by rw [List.foldl_cons, h2, Round.step_length]⟩

/-- After the threads of `ts` have run to the end, each of them is done, and
so is every thread that was done before. -/
theorem RInv.foldl_finish {adjList : AdjList} {n : Nat} {visited0 : List Bool}
    {frontier : List Nat} (hr : InRange adjList n) (ts : List Nat) : ∀ r : Round,
    RInv adjList n visited0 frontier r →
      RInv adjList n visited0 frontier (ts.foldl (Round.finish adjList) r) ∧
      (ts.foldl (Round.finish adjList) r).workers.length = r.workers.length ∧
      (∀ s, r.Done s → (ts.foldl (Round.finish adjList) r).Done s) ∧
      (∀ s ∈ ts, s < r.workers.length → (ts.foldl (Round.finish adjList) r).Done s) := by
  induction ts with
  | nil => intro r h; exact ⟨h, rfl, fun _ h => h, by simp⟩
  | cons t ts ih =>
    intro r h
    obtain ⟨h1, h2, h3, h4⟩ := ih _ (h.keep_finish hr t)
    refine ⟨h1, by rw [List.foldl_cons, h2, Round.finish_length], ?_, ?_⟩
    · intro s hs
      exact h3 s (hs.keep_done_finish t)
    · intro s hs hlt
      rcases List.mem_cons.1 hs with rfl | h5
      · exact h3 s (Round.finish_done adjList r hlt)
      · exact h4 s h5 (by rw [Round.finish_length]; exact hlt)

theorem getElem?_initWorkers (frontier : List Nat) (s : Schedule) (t : Nat) :
    (initWorkers frontier s)[t]? =
      if t < s.threads then
        some { iters := itersOf frontier s t, temp := [], waiting := none, localQueue := [],
               merged := false }
      else none := by
  unfold initWorkers
  rw [List.getElem?_map]
  split
  · rename_i h; rw [List.getElem?_range h]; rfl
  · rename_i h; rw [List.getElem?_eq_none (by simpa using h)]; rfl

theorem mem_itersOf (frontier : List Nat) (s : Schedule) (t u : Nat) :
    u ∈ itersOf frontier s t ↔ ∃ i, frontier[i]? = some u ∧ s.assign i % s.threads = t := by
  unfold itersOf
  simp only [List.mem_map, List.mem_filter, beq_iff_eq, Prod.exists, exists_eq_right,
    List.mk_mem_enum_iff_getElem?]

theorem sum_held_initWorkers (frontier : List Nat) (s : Schedule) (v : Nat) :
    ((initWorkers frontier s).map (Worker.held v)).sum = 0 := by
  unfold initWorkers
  rw [List.map_map]
  apply List.sum_eq_zero
  intro x hx
  simp only [List.mem_map, Function.comp] at hx
  obtain ⟨t, _, rfl⟩ := hx
  simp [Worker.held]

/-- The invariant holds when the team is formed. -/
theorem RInv.init (adjList : AdjList) {n : Nat} (visited : List Bool) (frontier : List Nat)
    (s : Schedule) (hl : visited.length = n) (hs : 0 < s.threads) :
    RInv adjList n visited frontier
      { visited := visited, nextFrontier := [], workers := initWorkers frontier s } := by
  refine ⟨hl, fun _ h => h, fun _ h => Or.inl h, ?_, ?_, ?_, ?_⟩
  · intro t w ht v hv
    simp only [getElem?_initWorkers] at ht
    split at ht
    · cases ht
      rw [Worker.mem_todo] at hv
      rcases hv with h | h | ⟨u, h1, h2⟩
      · cases h
      · cases h
      · obtain ⟨i, h3, _⟩ := (mem_itersOf _ _ _ _).1 h1
        exact ⟨u, List.mem_iff_getElem?.2 ⟨i, h3⟩, h2⟩
    · cases ht
  · intro v ⟨u, hu, hv⟩
    obtain ⟨i, hi⟩ := List.mem_iff_getElem?.1 hu
    refine Or.inr ⟨s.assign i % s.threads,
      { iters := itersOf frontier s (s.assign i % s.threads), temp := [], waiting := none,
        localQueue := [], merged := false }, ?_, ?_⟩
    · simp only [getElem?_initWorkers]
      rw [if_pos (Nat.mod_lt _ hs)]
    · rw [Worker.mem_todo]
      exact Or.inr (Or.inr ⟨u, (mem_itersOf _ _ _ _).2 ⟨i, hi, rfl⟩, hv⟩)
  · intro t w ht hm
    simp only [getElem?_initWorkers] at ht
    split at ht
    · cases ht; cases hm
    · cases ht
  · intro v
    simp only [List.count_nil, sum_held_initWorkers, newly]
    cases isVisited visited v <;> rfl

/-- What one round does: it marks exactly the neighbours of the frontier,
and the next frontier lists, once each, those of them that were not marked
before. -/
theorem runRound_spec {adjList : AdjList} {n : Nat} (hr : InRange adjList n) (s : Schedule)
    (hs : 0 < s.threads) (visited : List Bool) (frontier : List Nat) (hl : visited.length = n) :
    (runRound adjList s visited frontier).visited.length = n ∧
    (∀ v, isVisited (runRound adjList s visited frontier).visited v = true ↔
      isVisited visited v = true ∨ Target adjList frontier v) ∧
    (runRound adjList s visited frontier).nextFrontier.Nodup ∧
    (∀ v, v ∈ (runRound adjList s visited frontier).nextFrontier ↔
      Target adjList frontier v ∧ isVisited visited v = false) := by
  have inv0 := RInv.init adjList visited frontier s hl hs
  obtain ⟨inv1, len1⟩ := RInv.foldl_step hr s.order _ inv0
  obtain ⟨inv2, len2, _, done2⟩ := RInv.foldl_finish hr (List.range s.threads) _ inv1
  have hlen : (runRound adjList s visited frontier).workers.length = s.threads := by
    unfold runRound
    simp only
    rw [len2, len1]
    simp [initWorkers]
  have hdone : ∀ (t : Nat) (w : Worker),
      (runRound adjList s visited frontier).workers[t]? = some w → w.merged = true := by
    intro t w ht
    have hlt : t < s.threads := by
      by_contra hc
      rw [List.getElem?_eq_none (by rw [hlen]; omega)] at ht
      cases ht
    obtain ⟨w2, h1, h2⟩ := done2 t (List.mem_range.2 hlt) (by rw [len1]; simpa [initWorkers] using hlt)
    have : (runRound adjList s visited frontier).workers[t]? = some w2 := h1
    rw [ht] at this
    cases this
    exact h2
  have inv : RInv adjList n visited frontier (runRound adjList s visited frontier) := inv2
  have hsum : ∀ v, ((runRound adjList s visited frontier).workers.map (Worker.held v)).sum = 0 := by
    intro v
    apply List.sum_eq_zero
    intro x hx
    obtain ⟨w, hw, rfl⟩ := List.mem_map.1 hx
    obtain ⟨t, ht⟩ := List.mem_iff_getElem?.1 hw
    simp [Worker.held, hdone t w ht]
  have hvis : ∀ v, isVisited (runRound adjList s visited frontier).visited v = true ↔
      isVisited visited v = true ∨ Target adjList frontier v := by
    intro v
    constructor
    · exact inv.only v
    · rintro (h | h)
      · exact inv.mono v h
      · rcases inv.cover v h with h1 | ⟨t, w, h1, h2⟩
        · exact h1
        · rw [inv.merged_done t w h1 (hdone t w h1)] at h2
          cases h2
  have hcount : ∀ v, (runRound adjList s visited frontier).nextFrontier.count v =
      newly visited (runRound adjList s visited frontier).visited v := by
    intro v
    have := inv.count v
    rw [hsum v] at this
    simpa using this
  refine ⟨inv.len, hvis, ?_, ?_⟩
  · rw [List.nodup_iff_count_le_one]
    intro v
    rw [hcount v]
    unfold newly
    split <;> omega
  · intro v
    rw [← List.count_pos_iff, hcount v]
    unfold newly
    have := hvis v
    cases h1 : isVisited (runRound adjList s visited frontier).visited v <;>
      cases h2 : isVisited visited v <;> simp_all

end Bfs

/-! ## Walks and distances -/

theorem walk_zero_iff {adjList : AdjList} {s v : Nat} : Walk adjList s 0 v ↔ v = s := by
  constructor
  · intro h; cases h; rfl
  · rintro rfl; exact Walk.zero

theorem walk_succ_iff {adjList : AdjList} {s k v : Nat} :
    Walk adjList s (k + 1) v ↔ ∃ u, Walk adjList s k u ∧ v ∈ nbrs adjList u := by
  constructor
  · intro h; cases h with
    | succ h1 h2 => exact ⟨_, h1, h2⟩
  · rintro ⟨u, h1, h2⟩; exact Walk.succ h1 h2

theorem Walk.reachable {adjList : AdjList} {s k v : Nat} (h : Walk adjList s k v) :
    Reachable adjList s v := by
  induction h with
  | zero => exact Relation.ReflTransGen.refl
  | succ _ e ih => exact ih.edge_step e

theorem Reachable.exists_walk {adjList : AdjList} {s v : Nat} (h : Reachable adjList s v) :
    ∃ k, Walk adjList s k v := by
  induction h with
  | refl => exact ⟨0, Walk.zero⟩
  | tail _ e ih => obtain ⟨k, hk⟩ := ih; exact ⟨k + 1, Walk.succ hk e⟩

/-- A vertex reached by a walk has a distance, at most the length of the walk. -/
theorem Walk.exists_atDist {adjList : AdjList} {s v : Nat} : ∀ {k : Nat}, Walk adjList s k v →
    ∃ i, i ≤ k ∧ AtDist adjList s i v := by
  intro k
  induction k using Nat.strong_induction_on with
  | _ k ih =>
    intro h
    by_cases hmin : ∀ j, j < k → ¬ Walk adjList s j v
    · exact ⟨k, Nat.le_refl _, h, hmin⟩
    · push_neg at hmin
      obtain ⟨j, hj, hw⟩ := hmin
      obtain ⟨i, hi, hd⟩ := ih j hj hw
      exact ⟨i, by omega, hd⟩

theorem AtDist.unique {adjList : AdjList} {s j k v : Nat} (h1 : AtDist adjList s j v)
    (h2 : AtDist adjList s k v) : j = k := by
  rcases Nat.lt_trichotomy j k with h | h | h
  · exact absurd h1.1 (h2.2 j h)
  · exact h
  · exact absurd h2.1 (h1.2 k h)

/-- A vertex at distance `k + 1` is a neighbour of a vertex at distance `k`. -/
theorem AtDist.pred {adjList : AdjList} {s k v : Nat} (h : AtDist adjList s (k + 1) v) :
    ∃ u, AtDist adjList s k u ∧ v ∈ nbrs adjList u := by
  obtain ⟨u, hu, e⟩ := walk_succ_iff.1 h.1
  refine ⟨u, ⟨hu, ?_⟩, e⟩
  intro j hj hw
  exact h.2 (j + 1) (by omega) (Walk.succ hw e)

theorem AtDist.exists_le {adjList : AdjList} {s : Nat} : ∀ {k v : Nat}, AtDist adjList s k v →
    ∀ j, j ≤ k → ∃ u, AtDist adjList s j u := by
  intro k
  induction k with
  | zero =>
    intro v h j hj
    have : j = 0 := by omega
    subst this
    exact ⟨v, h⟩
  | succ k ih =>
    intro v h j hj
    by_cases hjk : j = k + 1
    · subst hjk; exact ⟨v, h⟩
    · obtain ⟨u, hu, _⟩ := h.pred
      exact ih hu j (by omega)

/-- The vertices on a shortest walk: `k + 1` distinct vertices at distance at
most `k`. -/
theorem AtDist.exists_chain {adjList : AdjList} {s : Nat} : ∀ {k v : Nat}, AtDist adjList s k v →
    ∃ l : List Nat, l.length = k + 1 ∧ l.Nodup ∧
      ∀ x ∈ l, ∃ j, j ≤ k ∧ AtDist adjList s j x := by
  intro k
  induction k with
  | zero =>
    intro v h
    exact ⟨[v], rfl, List.nodup_singleton v, fun x hx => by
      simp only [List.mem_singleton] at hx; subst hx; exact ⟨0, Nat.le_refl _, h⟩⟩
  | succ k ih =>
    intro v h
    obtain ⟨u, hu, _⟩ := h.pred
    obtain ⟨l, h1, h2, h3⟩ := ih hu
    refine ⟨v :: l, by simp [h1], List.nodup_cons.2 ⟨?_, h2⟩, ?_⟩
    · intro hv
      obtain ⟨j, hj, hd⟩ := h3 v hv
      have := hd.unique h
      omega
    · intro x hx
      rcases List.mem_cons.1 hx with rfl | hx
      · exact ⟨k + 1, Nat.le_refl _, h⟩
      · obtain ⟨j, hj, hd⟩ := h3 x hx
        exact ⟨j, by omega, hd⟩

/-- In a graph on `n` vertices every distance is below `n`. -/
theorem AtDist.dist_lt {adjList : AdjList} {n s k v : Nat} (hr : InRange adjList n) (hs : s < n)
    (h : AtDist adjList s k v) : k < n := by
  obtain ⟨l, h1, h2, h3⟩ := h.exists_chain
  have := length_le_of_nodup_lt h2
    (fun x hx => by obtain ⟨j, _, hd⟩ := h3 x hx; exact hd.1.reachable.lt_of_inRange hr hs)
  omega

/-! ## The loop of `bfsParallel` -/

namespace Bfs

theorem parInv_init (adjList : AdjList) {n start : Nat} (hs : start < n) :
    ParInv adjList n start 0 (bfsParallelInit n start) := by
  refine ⟨by simp [bfsParallelInit, length_mark], ?_, by simp [bfsParallelInit], ?_⟩
  · intro v
    simp only [bfsParallelInit, isVisited_mark, isVisited_replicate, List.length_replicate]
    constructor
    · rintro (⟨rfl, _⟩ | h)
      · exact ⟨0, Nat.le_refl _, Walk.zero⟩
      · cases h
    · rintro ⟨j, hj, hw⟩
      have : j = 0 := by omega
      subst this
      exact Or.inl ⟨walk_zero_iff.1 hw, hs⟩
  · intro v
    simp only [bfsParallelInit, List.mem_singleton]
    constructor
    · rintro rfl; exact ⟨Walk.zero, fun j hj => by omega⟩
    · intro h; exact walk_zero_iff.1 h.1

/-- One round takes the invariant from round `k` to round `k + 1`. -/
theorem parInv_body {adjList : AdjList} {n start k : Nat} (hr : InRange adjList n)
    (s : Schedule) (hs : 0 < s.threads) {st : ParState} (inv : ParInv adjList n start k st) :
    ParInv adjList n start (k + 1) (bfsParallelBody adjList s st) := by
  obtain ⟨r1, r2, r3, r4⟩ := runRound_spec hr s hs st.visited st.frontier inv.len
  have hnot : ∀ v, isVisited st.visited v = false ↔ ∀ j, j ≤ k → ¬ Walk adjList start j v := by
    intro v
    have := inv.vis v
    cases h : isVisited st.visited v
    · simp only [h, Bool.false_eq_true, false_iff, not_exists, not_and] at this
      simpa using this
    · simp only [h, true_iff] at this
      obtain ⟨j, hj, hw⟩ := this
      simp only [Bool.true_eq_false, false_iff, not_forall]
      exact ⟨j, hj, not_not.2 hw⟩
  have htarget : ∀ v, Target adjList st.frontier v → Walk adjList start (k + 1) v := by
    rintro v ⟨u, hu, e⟩
    exact Walk.succ ((inv.fr u).1 hu).1 e
  refine ⟨r1, ?_, r3, ?_⟩
  · intro v
    show isVisited (runRound adjList s st.visited st.frontier).visited v = true ↔ _
    rw [r2 v]
    constructor
    · rintro (h | h)
      · obtain ⟨j, hj, hw⟩ := (inv.vis v).1 h
        exact ⟨j, by omega, hw⟩
      · exact ⟨k + 1, Nat.le_refl _, htarget v h⟩
    · rintro ⟨j, hj, hw⟩
      by_cases hjk : j ≤ k
      · exact Or.inl ((inv.vis v).2 ⟨j, hjk, hw⟩)
      · have : j = k + 1 := by omega
        subst this
        obtain ⟨u, hu, e⟩ := walk_succ_iff.1 hw
        obtain ⟨i, hi, hd⟩ := hu.exists_atDist
        by_cases hik : i = k
        · subst hik
          exact Or.inr ⟨u, (inv.fr u).2 hd, e⟩
        · exact Or.inl ((inv.vis v).2 ⟨i + 1, by omega, Walk.succ hd.1 e⟩)
  · intro v
    show v ∈ (runRound adjList s st.visited st.frontier).nextFrontier ↔ _
    rw [r4 v, hnot v]
    constructor
    · rintro ⟨h1, h2⟩
      exact ⟨htarget v h1, fun j hj => h2 j (by omega)⟩
    · intro h
      obtain ⟨u, hu, e⟩ := h.pred
      exact ⟨⟨u, (inv.fr u).2 hu, e⟩, fun j hj => h.2 j (by omega)⟩

/-- After at most `fuel` iterations started in round `k` the loop is in some
round `k'` with the invariant, and it stopped early only on an empty
frontier. -/
theorem parInv_loop {adjList : AdjList} {n start : Nat} (hr : InRange adjList n)
    (sched : Nat → Schedule) (hs : ∀ k, 0 < (sched k).threads) (fuel : Nat) :
    ∀ (k : Nat) (st : ParState), ParInv adjList n start k st →
      ∃ k', k ≤ k' ∧ k' ≤ k + fuel ∧
        ParInv adjList n start k' (bfsParallelLoop adjList sched fuel k st) ∧
        (k' < k + fuel → (bfsParallelLoop adjList sched fuel k st).frontier = []) := by
  induction fuel with
  | zero =>
    intro k st inv
    exact ⟨k, Nat.le_refl _, Nat.le_refl _, inv, fun h => by omega⟩
  | succ f ih =>
    intro k st inv
    unfold bfsParallelLoop
    by_cases hfr : 0 < st.frontier.length
    · simp only [hfr, if_true]
      obtain ⟨k', h1, h2, h3, h4⟩ := ih (k + 1) _ (parInv_body hr (sched k) (hs k) inv)
      exact ⟨k', by omega, by omega, h3, fun h => h4 (by omega)⟩
    · simp only [hfr, if_false]
      exact ⟨k, Nat.le_refl _, by omega, inv, fun _ => List.length_eq_zero.1 (by omega)⟩

/-- The frontier of round `k` holds, once each, the vertices at distance `k`. -/
theorem frontierOfRound_spec {adjList : AdjList} {n start : Nat} (hr : InRange adjList n)
    (hs : start < n) (sched : Nat → Schedule) (hsched : ∀ k, 0 < (sched k).threads) (k : Nat) :
    (frontierOfRound adjList n start sched k).Nodup ∧
      ∀ v, v ∈ frontierOfRound adjList n start sched k ↔ AtDist adjList start k v := by
  obtain ⟨k', _, h2, h3, h4⟩ := parInv_loop hr sched hsched k 0 _ (parInv_init adjList hs)
  unfold frontierOfRound
  by_cases hk : k' = k
  · subst hk
    exact ⟨h3.nodup, h3.fr⟩
  · have hnil := h4 (by omega)
    refine ⟨h3.nodup, ?_⟩
    intro v
    rw [hnil]
    simp only [List.not_mem_nil, false_iff]
    intro hd
    obtain ⟨u, hu⟩ := hd.exists_le k' (by omega)
    have := (h3.fr u).2 hu
    rw [hnil] at this
    cases this

/-- The function `bfsParallel` returns, with exactly the reachable vertices
marked. -/
theorem bfsParallel_returns {adjList : AdjList} {n start fuel : Nat} (hr : InRange adjList n)
    (hs : start < n) (sched : Nat → Schedule) (hsched : ∀ k, 0 < (sched k).threads)
    (hf : n ≤ fuel) :
    ∃ st, bfsParallel adjList n start sched fuel = some st ∧ st.frontier = [] ∧
      st.visited.length = n ∧
      ∀ v, isVisited st.visited v = true ↔ Reachable adjList start v := by
  obtain ⟨k', _, h2, h3, h4⟩ :=
    parInv_loop hr sched hsched fuel 0 _ (parInv_init adjList hs)
  have hnil : (bfsParallelLoop adjList sched fuel 0 (bfsParallelInit n start)).frontier = [] := by
    by_cases hk : k' < 0 + fuel
    · exact h4 hk
    · apply List.eq_nil_iff_forall_not_mem.2
      intro v hv
      have := ((h3.fr v).1 hv).dist_lt hr hs
      omega
  refine ⟨_, ?_, hnil, h3.len, ?_⟩
  · unfold bfsParallel
    simp only [hnil, List.length_nil, Nat.lt_irrefl, if_false]
  · intro v
    rw [h3.vis v]
    constructor
    · rintro ⟨j, _, hw⟩; exact hw.reachable
    · intro h
      obtain ⟨j, hw⟩ := h.exists_walk
      obtain ⟨i, _, hd⟩ := hw.exists_atDist
      refine ⟨i, ?_, hd.1⟩
      by_contra hc
      obtain ⟨u, hu⟩ := hd.exists_le k' (by omega)
      have := (h3.fr u).2 hu
      rw [hnil] at this
      cases this

end Bfs

/-! ## Flags are never cleared -/

namespace Bfs

theorem visitNeighbour_mono (st : SeqState) (x v : Nat) (h : isVisited st.visited v = true) :
    isVisited (visitNeighbour st x).visited v = true := by
  unfold visitNeighbour
  split
  · exact isVisited_mark_of_true x h
  · exact h

theorem scanNeighbours_mono (temp : List Nat) (v : Nat) : ∀ st : SeqState,
    isVisited st.visited v = true → isVisited (scanNeighbours st temp).visited v = true := by
  induction temp with
  | nil => intro st h; exact h
  | cons x xs ih => intro st h; exact ih _ (visitNeighbour_mono st x v h)

end Bfs

namespace Dfs

end Dfs

/-! ## The path graph -/

namespace Bfs

theorem pathGraph_eq : pathGraph = [[1], [2, 0], [3, 1], [2]] := by decide

theorem pathGraph_edge {u v : Nat} (h : v ∈ nbrs pathGraph u) : v ≤ u + 1 := by
  rw [pathGraph_eq] at h
  match u, h with
  | 0, h => simp [nbrs] at h; omega
  | 1, h => simp [nbrs] at h; omega
  | 2, h => simp [nbrs] at h; omega
  | 3, h => simp [nbrs] at h; omega
  | _ + 4, h => simp [nbrs] at h

theorem pathGraph_walk_le {k v : Nat} (h : Walk pathGraph 0 k v) : v ≤ k := by
  induction h with
  | zero => exact Nat.le_refl _
  | succ _ e ih => have := pathGraph_edge e; omega

theorem pathGraph_walk_self {k : Nat} (hk : k ≤ 3) : Walk pathGraph 0 k k := by
  have w0 : Walk pathGraph 0 0 0 := Walk.zero
  have w1 : Walk pathGraph 0 1 1 := Walk.succ w0 (by rw [pathGraph_eq]; simp [Edge, nbrs])
  have w2 : Walk pathGraph 0 2 2 := Walk.succ w1 (by rw [pathGraph_eq]; simp [Edge, nbrs])
  have w3 : Walk pathGraph 0 3 3 := Walk.succ w2 (by rw [pathGraph_eq]; simp [Edge, nbrs])
  match k, hk with
  | 0, _ => exact w0
  | 1, _ => exact w1
  | 2, _ => exact w2
  | 3, _ => exact w3

theorem pathGraph_atDist {k : Nat} (hk : k ≤ 3) (v : Nat) : AtDist pathGraph 0 k v ↔ v = k := by
  constructor
  · intro h
    have h1 := pathGraph_walk_le h.1
    by_contra hne
    have hlt : v < k := by omega
    exact h.2 v hlt (pathGraph_walk_self (by omega))
  · rintro rfl
    exact ⟨pathGraph_walk_self hk, fun j hj hw => by have := pathGraph_walk_le hw; omega⟩

end Bfs

theorem eq_singleton_of_nodup {l : List Nat} {a : Nat} (hn : l.Nodup) (h : ∀ v, v ∈ l ↔ v = a) :
    l = [a] := by
  have hp : l.Perm [a] :=
    (List.perm_ext_iff_of_nodup hn (List.nodup_singleton a)).2 (fun v => by simp [h v])
  exact List.perm_singleton.1 hp

/-! ## Further lemmas on the scan of an adjacency list -/

namespace Bfs

theorem visitNeighbour_rear_le (st : SeqState) (x : Nat) :
    st.queue.length ≤ (visitNeighbour st x).queue.length := by
  unfold visitNeighbour
  split
  · simp
  · exact Nat.le_refl _

theorem scanNeighbours_rear_le (temp : List Nat) : ∀ st : SeqState,
    st.queue.length ≤ (scanNeighbours st temp).queue.length := by
  induction temp with
  | nil => intro st; exact Nat.le_refl _
  | cons x xs ih => intro st; exact le_trans (visitNeighbour_rear_le st x) (ih _)

theorem scanNeighbours_append (st : SeqState) (a b : List Nat) :
    scanNeighbours st (a ++ b) = scanNeighbours (scanNeighbours st a) b := by
  unfold scanNeighbours
  rw [List.foldl_append]

end Bfs

/-! ## The properties -/

/-- C1. On a graph over `n` vertices whose adjacency entries are all below
`n`, and for a start vertex below `n`, `bfsSequential` returns (any bound of
at least `n` iterations is enough) and the vertices whose flag is true when
its loop ends are exactly the vertices reachable from `start`. -/
theorem bfsSequential_visits_reachable (adjList : AdjList) (n start fuel : Nat)
    (_hlen : adjList.length = n) (hr : InRange adjList n) (hs : start < n) (hf : n ≤ fuel) :
    ∃ st, Bfs.bfsSequential adjList n start fuel = some st ∧
      ∀ v, isVisited st.visited v = true ↔ Reachable adjList start v := by
  obtain ⟨st, h1, inv, hend⟩ := Bfs.bfsSequential_returns hr hs hf
  exact ⟨st, h1, fun v => (inv.mem_iff v).trans (inv.mem_queue_iff hend v)⟩

/-- The statement of C1 on the path `0 - 1 - 2 - 3` from vertex 0. -/
theorem bfsSequential_visits_reachable_witness :
    ∃ st, Bfs.bfsSequential Bfs.pathGraph 4 0 4 = some st ∧
      ∀ v, isVisited st.visited v = true ↔ Reachable Bfs.pathGraph 0 v :=
  bfsSequential_visits_reachable Bfs.pathGraph 4 0 4 (by decide) (by decide) (by decide)
    (by decide)

/-- C2. On a graph over `V` vertices whose adjacency entries are all below
`V`, for a start vertex below `V` and an all-false array `visited`,
`DFSSequential` (its stack an unbounded list) returns, within one iteration
more than the graph has adjacency entries, and `visited[v]` is then true
exactly for the vertices `v` reachable from `start`. -/
theorem DFSSequential_visits_reachable (graph : Dfs.Graph) (start fuel : Nat)
    (_hlen : graph.adjList.length = graph.V) (hr : InRange graph.adjList graph.V)
    (hs : start < graph.V) (hf : 1 + totalEntries graph.adjList ≤ fuel) :
    ∃ visited, Dfs.DFSSequential graph start (List.replicate graph.V false) fuel = some visited ∧
      ∀ v, isVisited visited v = true ↔ Reachable graph.adjList start v := by
  have hsafe : Dfs.Safe graph.V { visited := List.replicate graph.V false, stack := [start] } :=
    ⟨by simp, fun v hv => by simp only [List.mem_singleton] at hv; omega⟩
  have hinv : Dfs.Inv graph.adjList start
      { visited := List.replicate graph.V false, stack := [start] } := by
    refine ⟨?_, ?_, Or.inr (List.mem_singleton.2 rfl), ?_⟩
    · intro v hv; rw [isVisited_replicate] at hv; cases hv
    · intro v hv
      simp only [List.mem_singleton] at hv
      subst hv
      exact Relation.ReflTransGen.refl
    · intro u hu; rw [isVisited_replicate] at hu; cases hu
  have hend := Dfs.loop_ends hr fuel _ hsafe
    (le_trans (Dfs.measure_init_le graph start _) hf)
  have inv := Dfs.inv_loop start hr fuel _ hsafe hinv
  refine ⟨_, Dfs.DFSSequential_returns hr hs (by simp) hf, ?_⟩
  intro v
  constructor
  · exact inv.vis_reach v
  · intro h
    refine Reachable.mem_of_closed (fun x => isVisited _ x = true) ?_ ?_ h
    · rcases inv.start_ok with h1 | h1
      · exact h1
      · rw [hend] at h1; cases h1
    · intro u hu w hw
      rcases inv.closed u hu w hw with h1 | h1
      · exact h1
      · rw [hend] at h1; cases h1

/-- The statement of C2 on the path `0 - 1 - 2 - 3` from vertex 0. -/
theorem DFSSequential_visits_reachable_witness :
    ∃ visited, Dfs.DFSSequential ⟨Bfs.pathGraph, 4⟩ 0 (List.replicate 4 false) 7 = some visited ∧
      ∀ v, isVisited visited v = true ↔ Reachable Bfs.pathGraph 0 v :=
  DFSSequential_visits_reachable ⟨Bfs.pathGraph, 4⟩ 0 7 (by decide) (by decide) (by decide)
    (by decide)

/-- C3. For every graph over `n` vertices with entries below `n`, every start
below `n`, and every execution of the rounds of `bfsParallel` (any positive
number of threads in each round, in particular 1, 2, 4 or 8, any
distribution of the frontier among them, any interleaving of their atomic
actions and hence any order of their local buffers in the next frontier),
`bfsParallel` and `bfsSequential` both return and leave the same array
`visited`. -/
theorem bfsParallel_visited_eq_bfsSequential (adjList : AdjList) (n start fuel : Nat)
    (sched : Nat → Bfs.Schedule) (_hlen : adjList.length = n) (hr : InRange adjList n)
    (hs : start < n) (hsched : ∀ k, 0 < (sched k).threads) (hf : n ≤ fuel) :
    ∃ stS stP, Bfs.bfsSequential adjList n start fuel = some stS ∧
      Bfs.bfsParallel adjList n start sched fuel = some stP ∧ stP.visited = stS.visited := by
  obtain ⟨stS, h1, inv, hend⟩ := Bfs.bfsSequential_returns hr hs hf
  obtain ⟨stP, h2, _, hlen, hvis⟩ := Bfs.bfsParallel_returns hr hs sched hsched hf
  refine ⟨stS, stP, h1, h2, visited_ext (hlen.trans inv.len.symm) ?_⟩
  intro v
  rw [hvis v, inv.mem_iff v, inv.mem_queue_iff hend v]

/-- The statement of C3 on the path graph, with teams of 1, 2, 4 and 8 threads
in successive rounds. -/
theorem bfsParallel_visited_eq_bfsSequential_witness :
    ∃ stS stP, Bfs.bfsSequential Bfs.pathGraph 4 0 4 = some stS ∧
      Bfs.bfsParallel Bfs.pathGraph 4 0
        (fun k => { threads := 2 ^ (k % 4), assign := fun i => i + k, order := [0, 1, 1, 0, 3] })
        4 = some stP ∧
      stP.visited = stS.visited :=
  bfsParallel_visited_eq_bfsSequential Bfs.pathGraph 4 0 4
    (fun k => { threads := 2 ^ (k % 4), assign := fun i => i + k, order := [0, 1, 1, 0, 3] })
    (by decide) (by decide) (by decide) (fun k => Nat.two_pow_pos (k % 4)) (by decide)

/-- C5. `bfsSequential` claims each vertex at most once: it returns, its
queue then lists every vertex reachable from `start` exactly once and no
other vertex, and `rear` never exceeds `n`, neither between two iterations
of the `while` loop nor in the middle of the scan of an adjacency list. -/
theorem bfsSequential_claims_once (adjList : AdjList) (n start fuel : Nat)
    (_hlen : adjList.length = n) (hr : InRange adjList n) (hs : start < n) (hf : n ≤ fuel) :
    (∃ st, Bfs.bfsSequential adjList n start fuel = some st ∧
      (∀ v, Reachable adjList start v → st.queue.count v = 1) ∧
      (∀ v, ¬ Reachable adjList start v → st.queue.count v = 0)) ∧
    (∀ k, (Bfs.bfsSequentialLoop adjList k (Bfs.bfsSequentialInit n start)).rear ≤ n) ∧
    (∀ k u temp1 temp2,
      (Bfs.bfsSequentialLoop adjList k (Bfs.bfsSequentialInit n start)).queue[
        (Bfs.bfsSequentialLoop adjList k (Bfs.bfsSequentialInit n start)).front]? = some u →
      nbrs adjList u = temp1 ++ temp2 →
      (Bfs.scanNeighbours
        { Bfs.bfsSequentialLoop adjList k (Bfs.bfsSequentialInit n start) with
          front := (Bfs.bfsSequentialLoop adjList k (Bfs.bfsSequentialInit n start)).front + 1 }
        temp1).rear ≤ n) := by
  have inv0 : Bfs.SeqInv adjList n start (Bfs.bfsSequentialInit n start) := Bfs.seqInv_init hs
  refine ⟨?_, fun k => (Bfs.seqInv_loop hr k _ inv0).rear_le, ?_⟩
  · obtain ⟨st, h1, inv, hend⟩ := Bfs.bfsSequential_returns hr hs hf
    refine ⟨st, h1, ?_, ?_⟩
    · intro v hv
      exact List.count_eq_one_of_mem inv.nodup ((inv.mem_queue_iff hend v).2 hv)
    · intro v hv
      exact List.count_eq_zero.2 (fun h => hv ((inv.mem_queue_iff hend v).1 h))
  · intro k u temp1 temp2 hu htemp
    have inv := Bfs.seqInv_loop hr k _ inv0
    have hlt : (Bfs.bfsSequentialLoop adjList k (Bfs.bfsSequentialInit n start)).front <
        (Bfs.bfsSequentialLoop adjList k (Bfs.bfsSequentialInit n start)).queue.length := by
      by_contra hc
      rw [List.getElem?_eq_none (Nat.le_of_not_lt hc)] at hu
      cases hu
    have hu2 := hu
    rw [List.getElem?_eq_getElem hlt] at hu2
    cases hu2
    have hb := (Bfs.seqInv_body hr inv hlt).1.rear_le
    unfold Bfs.bfsSequentialBody at hb
    rw [htemp, Bfs.scanNeighbours_append] at hb
    exact le_trans (Bfs.scanNeighbours_rear_le temp2 _) hb

/-- The first part of C5 on the path graph. -/
theorem bfsSequential_claims_once_witness :
    ∃ st, Bfs.bfsSequential Bfs.pathGraph 4 0 4 = some st ∧
      (∀ v, Reachable Bfs.pathGraph 0 v → st.queue.count v = 1) ∧
      (∀ v, ¬ Reachable Bfs.pathGraph 0 v → st.queue.count v = 0) :=
  (bfsSequential_claims_once Bfs.pathGraph 4 0 4 (by decide) (by decide) (by decide)
    (by decide)).1

/-- C6. For every graph over `n` vertices with entries below `n`, every start
below `n`, every execution of the rounds and every `k`, the frontier that
`bfsParallel` expands in round `k` has no repetition and its elements are
exactly the vertices at edge-distance `k` from `start`; on the path
`0 - 1 - 2 - 3` from vertex 0 the frontiers of rounds 0 to 3 are `[0]`,
`[1]`, `[2]`, `[3]`, whatever the execution. -/
theorem bfsParallel_frontier_levels (adjList : AdjList) (n start k : Nat)
    (sched : Nat → Bfs.Schedule) (_hlen : adjList.length = n) (hr : InRange adjList n)
    (hs : start < n) (hsched : ∀ j, 0 < (sched j).threads) :
    ((Bfs.frontierOfRound adjList n start sched k).Nodup ∧
      ∀ v, v ∈ Bfs.frontierOfRound adjList n start sched k ↔ AtDist adjList start k v) ∧
    (List.range 4).map (Bfs.frontierOfRound Bfs.pathGraph 4 0 sched) = [[0], [1], [2], [3]] := by
  refine ⟨Bfs.frontierOfRound_spec hr hs sched hsched k, ?_⟩
  have hp : ∀ j, j ≤ 3 → Bfs.frontierOfRound Bfs.pathGraph 4 0 sched j = [j] := by
    intro j hj
    obtain ⟨h1, h2⟩ := @Bfs.frontierOfRound_spec Bfs.pathGraph 4 0
      (by decide) (by decide) sched hsched j
    exact eq_singleton_of_nodup h1 (fun v => (h2 v).trans (Bfs.pathGraph_atDist hj v))
  have e : List.range 4 = [0, 1, 2, 3] := by decide
  rw [e]
  simp only [List.map_cons, List.map_nil]
  rw [hp 0 (by omega), hp 1 (by omega), hp 2 (by omega), hp 3 (by omega)]

/-- The statement of C6 on the cycle `0 - 1 - 3 - 2 - 0`, round 1, with two
threads. -/
theorem bfsParallel_frontier_levels_witness :
    ((Bfs.frontierOfRound [[1, 2], [0, 3], [0, 3], [1, 2]] 4 0
        (fun _ => { threads := 2, assign := fun i => i, order := [0, 1, 0, 1, 1, 0] }) 1).Nodup ∧
      ∀ v, v ∈ Bfs.frontierOfRound [[1, 2], [0, 3], [0, 3], [1, 2]] 4 0
          (fun _ => { threads := 2, assign := fun i => i, order := [0, 1, 0, 1, 1, 0] }) 1 ↔
        AtDist [[1, 2], [0, 3], [0, 3], [1, 2]] 0 1 v) ∧
    (List.range 4).map (Bfs.frontierOfRound Bfs.pathGraph 4 0
      (fun _ => { threads := 2, assign := fun i => i, order := [0, 1, 0, 1, 1, 0] })) =
        [[0], [1], [2], [3]] :=
  bfsParallel_frontier_levels [[1, 2], [0, 3], [0, 3], [1, 2]] 4 0 1
    (fun _ => { threads := 2, assign := fun i => i, order := [0, 1, 0, 1, 1, 0] })
    (by decide) (by decide) (by decide) (fun _ => Nat.succ_pos 1)

/-- C8. `createGraph(n)` returns `n` empty adjacency lists.  For every graph
and all vertices `u`, `v` of it, `addEdge(u, v)` keeps the number of lists;
when `u != v` the list of `u` becomes `v` followed by its old list and the
list of `v` becomes `u` followed by its old list; when `u = v` the list of
`u` gains two copies of `u` at its head; the list of every other vertex is
unchanged; and a second `addEdge(u, v)` inserts the edge again.  The
functions of `dfs.c` do the same on the field `adjList` and keep `V`. -/
theorem addEdge_head_insertion (n V : Nat) (adjList : AdjList) (u v : Nat)
    (hu : u < adjList.length) (hv : v < adjList.length) :
    ((Bfs.createGraph n).length = n ∧ ∀ w, nbrs (Bfs.createGraph n) w = []) ∧
    (Bfs.addEdge adjList u v).length = adjList.length ∧
    (u ≠ v → nbrs (Bfs.addEdge adjList u v) u = v :: nbrs adjList u ∧
      nbrs (Bfs.addEdge adjList u v) v = u :: nbrs adjList v) ∧
    (u = v → nbrs (Bfs.addEdge adjList u v) u = u :: u :: nbrs adjList u) ∧
    (∀ w, w ≠ u → w ≠ v → nbrs (Bfs.addEdge adjList u v) w = nbrs adjList w) ∧
    (u ≠ v → nbrs (Bfs.addEdge (Bfs.addEdge adjList u v) u v) u = v :: v :: nbrs adjList u ∧
      nbrs (Bfs.addEdge (Bfs.addEdge adjList u v) u v) v = u :: u :: nbrs adjList v) ∧
    Dfs.createGraph n = { adjList := Bfs.createGraph n, V := n } ∧
    Dfs.addEdge { adjList := adjList, V := V } u v =
      { adjList := Bfs.addEdge adjList u v, V := V } := by
  have hu2 : u < (Bfs.addEdge adjList u v).length := by rw [Bfs.length_addEdge]; exact hu
  have hv2 : v < (Bfs.addEdge adjList u v).length := by rw [Bfs.length_addEdge]; exact hv
  refine ⟨⟨by simp [Bfs.createGraph], fun w => nbrs_replicate n w⟩, Bfs.length_addEdge _ _ _,
    ?_, ?_, ?_, ?_, rfl, rfl⟩
  · intro hne
    have hne2 : ¬ v = u := fun e => hne e.symm
    rw [Bfs.nbrs_addEdge _ _ _ _ hu hv, Bfs.nbrs_addEdge _ _ _ _ hu hv]
    simp [hne, hne2]
  · rintro rfl
    rw [Bfs.nbrs_addEdge _ _ _ _ hu hv]
    simp
  · intro w h1 h2
    rw [Bfs.nbrs_addEdge _ _ _ _ hu hv]
    simp [h1, h2]
  · intro hne
    have hne2 : ¬ v = u := fun e => hne e.symm
    rw [Bfs.nbrs_addEdge _ _ _ _ hu2 hv2, Bfs.nbrs_addEdge _ _ _ _ hu2 hv2,
      Bfs.nbrs_addEdge _ _ _ _ hu hv, Bfs.nbrs_addEdge _ _ _ _ hu hv]
    simp [hne, hne2]

/-- The head insertion of C8 for the edge `(0, 2)` added to the path
`0 - 1 - 2`. -/
theorem addEdge_head_insertion_witness :
    nbrs (Bfs.addEdge [[1], [0, 2], [1]] 0 2) 0 = [2, 1] ∧
    nbrs (Bfs.addEdge [[1], [0, 2], [1]] 0 2) 2 = [0, 1] :=
  (addEdge_head_insertion 3 3 [[1], [0, 2], [1]] 0 2 (by decide) (by decide)).2.2.1 (by decide)

/-- C9. A graph built from `createGraph(n)` by any sequence of `addEdge`
calls with endpoints below `n` is undirected: `v` occurs in the list of `u`
as many times as `u` occurs in the list of `v`, so `v` is a neighbour of `u`
exactly when `u` is a neighbour of `v`; this holds for `bfs.c` and for
`dfs.c`. -/
theorem addEdges_undirected (n : Nat) (edges : List (Nat × Nat))
    (h : ∀ e ∈ edges, e.1 < n ∧ e.2 < n) (u v : Nat) :
    (nbrs (Bfs.addEdges (Bfs.createGraph n) edges) u).count v =
      (nbrs (Bfs.addEdges (Bfs.createGraph n) edges) v).count u ∧
    (v ∈ nbrs (Bfs.addEdges (Bfs.createGraph n) edges) u ↔
      u ∈ nbrs (Bfs.addEdges (Bfs.createGraph n) edges) v) ∧
    (nbrs (Dfs.addEdges (Dfs.createGraph n) edges).adjList u).count v =
      (nbrs (Dfs.addEdges (Dfs.createGraph n) edges).adjList v).count u ∧
    (v ∈ nbrs (Dfs.addEdges (Dfs.createGraph n) edges).adjList u ↔
      u ∈ nbrs (Dfs.addEdges (Dfs.createGraph n) edges).adjList v) := by
  have hsym : SymCount (Bfs.addEdges (Bfs.createGraph n) edges) :=
    Bfs.symCount_addEdges (symCount_replicate n)
      (fun e he => by simpa [Bfs.createGraph] using h e he)
  have hmem : v ∈ nbrs (Bfs.addEdges (Bfs.createGraph n) edges) u ↔
      u ∈ nbrs (Bfs.addEdges (Bfs.createGraph n) edges) v := by
    rw [← List.count_pos_iff, ← List.count_pos_iff, hsym u v]
  have e : (Dfs.addEdges (Dfs.createGraph n) edges).adjList =
      Bfs.addEdges (Bfs.createGraph n) edges := Dfs.adjList_addEdges _ _
  rw [e]
  exact ⟨hsym u v, hmem, hsym u v, hmem⟩

/-- The symmetry of C9 after four `addEdge` calls, one a repetition and one a
self-loop. -/
theorem addEdges_undirected_witness :
    (nbrs (Bfs.addEdges (Bfs.createGraph 3) [(0, 1), (1, 0), (2, 2), (1, 2)]) 1).count 0 =
      (nbrs (Bfs.addEdges (Bfs.createGraph 3) [(0, 1), (1, 0), (2, 2), (1, 2)]) 0).count 1 :=
  (addEdges_undirected 3 [(0, 1), (1, 0), (2, 2), (1, 2)] (by decide) 1 0).1

/-! ## The double check of `bfsParallel` -/

namespace Bfs

/-- An atomic action keeps `nextFrontier` equal to what has been copied. -/
theorem Round.Delivered.keep_delivered_step {adjList : AdjList} {n : Nat} {visited0 : List Bool}
    {frontier : List Nat} {r : Round} (inv : RInv adjList n visited0 frontier r)
    (q : r.Delivered) (t : Nat) : (Round.step adjList r t).Delivered := by
  unfold Round.step
  cases ht : r.workers[t]? with
  | none => exact q
  | some w =>
    simp only
    have key : ∀ v, (workerStep adjList r.visited r.nextFrontier w).2.1.count v +
        w.delivered v =
        r.nextFrontier.count v + (workerStep adjList r.visited r.nextFrontier w).2.2.delivered v := by
      intro v
      obtain ⟨iters, temp, waiting, lq, merged⟩ := w
      cases waiting with
      | some x =>
        have hm : merged = false := by
          cases merged with
          | false => rfl
          | true =>
            have h1 := inv.merged_done t _ ht rfl
            have h2 : x ∈ Worker.todo adjList ⟨iters, temp, some x, lq, true⟩ :=
              (Worker.mem_todo _ _ _).2 (Or.inl rfl)
            rw [h1] at h2
            cases h2
        subst hm
        unfold workerStep
        simp only
        split <;> simp [Worker.delivered]
      | none =>
        cases temp with
        | cons x rest =>
          unfold workerStep
          simp only
          split <;> simp [Worker.delivered]
        | nil =>
          cases iters with
          | cons u us => simp [workerStep, Worker.delivered]
          | nil =>
            cases merged with
            | true => simp [workerStep, Worker.delivered]
            | false => simp [workerStep, Worker.delivered, List.count_append]
    intro v
    have h1 := q v
    have h2 := sum_map_set (Worker.delivered v) r.workers t w
      (workerStep adjList r.visited r.nextFrontier w).2.2 ht
    have h3 := key v
    simp only
    omega

theorem RInv.keep_both_stepN {adjList : AdjList} {n : Nat} {visited0 : List Bool}
    {frontier : List Nat} (hr : InRange adjList n) (t k : Nat) : ∀ r : Round,
    RInv adjList n visited0 frontier r → r.Delivered →
      (Round.stepN adjList t k r).Delivered := by
  induction k with
  | zero => intro r _ q; exact q
  | succ k ih => intro r inv q; exact ih _ (inv.keep_step hr t) (q.keep_delivered_step inv t)

theorem RInv.keep_both_finish {adjList : AdjList} {n : Nat} {visited0 : List Bool}
    {frontier : List Nat} (hr : InRange adjList n) {r : Round}
    (inv : RInv adjList n visited0 frontier r) (q : r.Delivered) (t : Nat) :
    (Round.finish adjList r t).Delivered := by
  unfold Round.finish
  split
  · exact q
  · exact RInv.keep_both_stepN hr _ _ r inv q

theorem RInv.foldl_step_delivered {adjList : AdjList} {n : Nat} {visited0 : List Bool}
    {frontier : List Nat} (hr : InRange adjList n) (order : List Nat) : ∀ r : Round,
    RInv adjList n visited0 frontier r → r.Delivered →
      (order.foldl (Round.step adjList) r).Delivered := by
  induction order with
  | nil => intro r _ q; exact q
  | cons t ts ih => intro r inv q; exact ih _ (inv.keep_step hr t) (q.keep_delivered_step inv t)

theorem RInv.foldl_finish_delivered {adjList : AdjList} {n : Nat} {visited0 : List Bool}
    {frontier : List Nat} (hr : InRange adjList n) (ts : List Nat) : ∀ r : Round,
    RInv adjList n visited0 frontier r → r.Delivered →
      (ts.foldl (Round.finish adjList) r).Delivered := by
  induction ts with
  | nil => intro r _ q; exact q
  | cons t ts ih =>
    intro r inv q
    exact ih _ (inv.keep_finish hr t) (RInv.keep_both_finish hr inv q t)

theorem delivered_init (visited : List Bool) (frontier : List Nat) (s : Schedule) :
    Round.Delivered
      { visited := visited, nextFrontier := [], workers := initWorkers frontier s } := by
  intro v
  simp only [List.count_nil]
  symm
  apply List.sum_eq_zero
  intro x hx
  simp only [initWorkers, List.map_map, List.mem_map, Function.comp] at hx
  obtain ⟨t, _, rfl⟩ := hx
  simp [Worker.delivered]

/-- At the join every thread has copied its local queue, the invariant of
the round holds and `nextFrontier` is the sum of the local queues. -/
theorem runRound_join {adjList : AdjList} {n : Nat} (hr : InRange adjList n) (s : Schedule)
    (hs : 0 < s.threads) (visited : List Bool) (frontier : List Nat) (hl : visited.length = n) :
    RInv adjList n visited frontier (runRound adjList s visited frontier) ∧
    (runRound adjList s visited frontier).Delivered ∧
    ∀ (t : Nat) (w : Worker),
      (runRound adjList s visited frontier).workers[t]? = some w → w.merged = true := by
  have inv0 := RInv.init adjList visited frontier s hl hs
  have q0 := delivered_init visited frontier s
  obtain ⟨inv1, len1⟩ := RInv.foldl_step hr s.order _ inv0
  have q1 := RInv.foldl_step_delivered hr s.order _ inv0 q0
  obtain ⟨inv2, len2, _, done2⟩ := RInv.foldl_finish hr (List.range s.threads) _ inv1
  have q2 := RInv.foldl_finish_delivered hr (List.range s.threads) _ inv1 q1
  have hlen : (runRound adjList s visited frontier).workers.length = s.threads := by
    unfold runRound
    simp only
    rw [len2, len1]
    simp [initWorkers]
  refine ⟨inv2, q2, ?_⟩
  intro t w ht
  have hlt : t < s.threads := by
    by_contra hc
    rw [List.getElem?_eq_none (by rw [hlen]; omega)] at ht
    cases ht
  obtain ⟨w2, h1, h2⟩ :=
    done2 t (List.mem_range.2 hlt) (by rw [len1]; simpa [initWorkers] using hlt)
  have : (runRound adjList s visited frontier).workers[t]? = some w2 := h1
  rw [ht] at this
  cases this
  exact h2

theorem roundPrefix_inv {adjList : AdjList} {n : Nat} (hr : InRange adjList n) (s : Schedule)
    (hs : 0 < s.threads) (visited : List Bool) (frontier : List Nat) (hl : visited.length = n)
    (k : Nat) : RInv adjList n visited frontier (roundPrefix adjList s visited frontier k) :=
  (RInv.foldl_step hr (s.order.take k) _ (RInv.init adjList visited frontier s hl hs)).1

end Bfs

theorem le_sum_map_of_getElem? {α : Type} (f : α → Nat) : ∀ (l : List α) (i : Nat) (a : α),
    l[i]? = some a → f a ≤ (l.map f).sum := by
  intro l
  induction l with
  | nil => intro i a h; simp at h
  | cons x xs ih =>
    intro i a h
    cases i with
    | zero =>
      simp only [List.getElem?_cons_zero, Option.some.injEq] at h
      subst h
      simp only [List.map_cons, List.sum_cons]
      omega
    | succ i =>
      simp only [List.getElem?_cons_succ] at h
      have := ih i a h
      simp only [List.map_cons, List.sum_cons]
      omega

theorem add_le_sum_map_of_ne {α : Type} (f : α → Nat) : ∀ (l : List α) (i j : Nat) (a b : α),
    i ≠ j → l[i]? = some a → l[j]? = some b → f a + f b ≤ (l.map f).sum := by
  intro l
  induction l with
  | nil => intro i j a b _ h; simp at h
  | cons x xs ih =>
    intro i j a b hne hi hj
    simp only [List.map_cons, List.sum_cons]
    cases i with
    | zero =>
      cases j with
      | zero => exact absurd rfl hne
      | succ j =>
        simp only [List.getElem?_cons_zero, Option.some.injEq] at hi
        simp only [List.getElem?_cons_succ] at hj
        subst hi
        have := le_sum_map_of_getElem? f xs j b hj
        omega
    | succ i =>
      cases j with
      | zero =>
        simp only [List.getElem?_cons_zero, Option.some.injEq] at hj
        simp only [List.getElem?_cons_succ] at hi
        subst hj
        have := le_sum_map_of_getElem? f xs i a hi
        omega
      | succ j =>
        simp only [List.getElem?_cons_succ] at hi hj
        have := ih i j a b (fun e => hne (by rw [e])) hi hj
        omega

theorem Bfs.runRound_length {adjList : AdjList} {n : Nat} (hr : InRange adjList n)
    (s : Bfs.Schedule) (hs : 0 < s.threads) (visited : List Bool) (frontier : List Nat)
    (hl : visited.length = n) :
    (Bfs.runRound adjList s visited frontier).workers.length = s.threads := by
  have inv0 := Bfs.RInv.init adjList visited frontier s hl hs
  obtain ⟨inv1, len1⟩ := Bfs.RInv.foldl_step hr s.order _ inv0
  obtain ⟨_, len2, _, _⟩ := Bfs.RInv.foldl_finish hr (List.range s.threads) _ inv1
  unfold Bfs.runRound
  simp only
  rw [len2, len1]
  simp [Bfs.initWorkers]

theorem Bfs.roundPrefix_length {adjList : AdjList} {n : Nat} (hr : InRange adjList n)
    (s : Bfs.Schedule) (hs : 0 < s.threads) (visited : List Bool) (frontier : List Nat)
    (hl : visited.length = n) (k : Nat) :
    (Bfs.roundPrefix adjList s visited frontier k).workers.length = s.threads := by
  have inv0 := Bfs.RInv.init adjList visited frontier s hl hs
  obtain ⟨_, len1⟩ := Bfs.RInv.foldl_step hr (s.order.take k) _ inv0
  unfold Bfs.roundPrefix
  rw [len1]
  simp [Bfs.initWorkers]

/-- C11. In a round of `bfsParallel`, take any interleaving and any moment of
it at which two different threads have both passed the unsynchronised test
for the same neighbour `v`, still unmarked.  The critical section of a
thread marks `v` and appends it to the local queue of the thread when `v` is
unmarked, and changes neither the flags nor the queue when `v` is marked.
At the end of the round `v` is marked, it occurs once in all the local
queues together, so at most one of the two threads has appended it, and it
occurs exactly once in the next frontier. -/
theorem bfsParallel_double_check (adjList : AdjList) (n : Nat) (s : Bfs.Schedule)
    (visited : List Bool) (frontier : List Nat) (k v t1 t2 : Nat) (w1 w2 : Bfs.Worker)
    (hr : InRange adjList n) (hl : visited.length = n) (hs : 0 < s.threads) (hne : t1 ≠ t2)
    (h1 : (Bfs.roundPrefix adjList s visited frontier k).workers[t1]? = some w1)
    (hw1 : w1.waiting = some v)
    (h2 : (Bfs.roundPrefix adjList s visited frontier k).workers[t2]? = some w2)
    (_hw2 : w2.waiting = some v)
    (hv : isVisited (Bfs.roundPrefix adjList s visited frontier k).visited v = false) :
    (∀ (w : Bfs.Worker) (vis : List Bool) (nf : List Nat), w.waiting = some v →
      isVisited vis v = false →
      Bfs.workerStep adjList vis nf w =
        (mark vis v, nf, { w with waiting := none, localQueue := w.localQueue ++ [v] })) ∧
    (∀ (w : Bfs.Worker) (vis : List Bool) (nf : List Nat), w.waiting = some v →
      isVisited vis v = true →
      Bfs.workerStep adjList vis nf w = (vis, nf, { w with waiting := none })) ∧
    isVisited (Bfs.runRound adjList s visited frontier).visited v = true ∧
    ((Bfs.runRound adjList s visited frontier).workers.map
      (fun w => w.localQueue.count v)).sum = 1 ∧
    (∃ f1 f2 : Bfs.Worker,
      (Bfs.runRound adjList s visited frontier).workers[t1]? = some f1 ∧
      (Bfs.runRound adjList s visited frontier).workers[t2]? = some f2 ∧
      f1.localQueue.count v + f2.localQueue.count v ≤ 1) ∧
    (Bfs.runRound adjList s visited frontier).nextFrontier.count v = 1 := by
  have invk := Bfs.roundPrefix_inv hr s hs visited frontier hl k
  have htarget : Bfs.Target adjList frontier v :=
    invk.todo_sub t1 w1 h1 v ((Bfs.Worker.mem_todo _ _ _).2 (Or.inl hw1))
  have hv0 : isVisited visited v = false := by
    cases h : isVisited visited v with
    | false => rfl
    | true => rw [invk.mono v h] at hv; cases hv
  obtain ⟨_, r2, r3, r4⟩ := Bfs.runRound_spec hr s hs visited frontier hl
  obtain ⟨_, q, hdone⟩ := Bfs.runRound_join hr s hs visited frontier hl
  have hcount : (Bfs.runRound adjList s visited frontier).nextFrontier.count v = 1 :=
    List.count_eq_one_of_mem r3 ((r4 v).2 ⟨htarget, hv0⟩)
  have hsum : ((Bfs.runRound adjList s visited frontier).workers.map
      (fun w => w.localQueue.count v)).sum = 1 := by
    have e : (Bfs.runRound adjList s visited frontier).workers.map
        (fun w => w.localQueue.count v) =
        (Bfs.runRound adjList s visited frontier).workers.map (Bfs.Worker.delivered v) := by
      apply List.map_congr_left
      intro w hw
      obtain ⟨t, ht⟩ := List.mem_iff_getElem?.1 hw
      simp [Bfs.Worker.delivered, hdone t w ht]
    rw [e, ← q v, hcount]
  have hlen := Bfs.runRound_length hr s hs visited frontier hl
  have hlenk := Bfs.roundPrefix_length hr s hs visited frontier hl k
  have ht1 : t1 < (Bfs.runRound adjList s visited frontier).workers.length := by
    by_contra hc
    rw [List.getElem?_eq_none (by rw [hlenk]; rw [hlen] at hc; omega)] at h1
    cases h1
  have ht2 : t2 < (Bfs.runRound adjList s visited frontier).workers.length := by
    by_contra hc
    rw [List.getElem?_eq_none (by rw [hlenk]; rw [hlen] at hc; omega)] at h2
    cases h2
  refine ⟨?_, ?_, (r2 v).2 (Or.inr htarget), hsum, ?_, hcount⟩
  · intro w vis nf hw hvis
    unfold Bfs.workerStep
    rw [hw]
    simp [hvis]
  · intro w vis nf hw hvis
    unfold Bfs.workerStep
    rw [hw]
    simp [hvis]
  · refine ⟨_, _, List.getElem?_eq_getElem ht1, List.getElem?_eq_getElem ht2, ?_⟩
    have := add_le_sum_map_of_ne (fun w : Bfs.Worker => w.localQueue.count v) _ t1 t2 _ _ hne
      (List.getElem?_eq_getElem ht1) (List.getElem?_eq_getElem ht2)
    rw [hsum] at this
    exact this

/-- The statement of C11 on the cycle `0 - 1 - 3 - 2 - 0`, second round: after
six atomic actions both threads have passed the test for vertex 3. -/
theorem bfsParallel_double_check_witness :
    isVisited (Bfs.runRound [[1, 2], [0, 3], [0, 3], [1, 2]]
      { threads := 2, assign := fun i => i, order := [0, 1, 0, 1, 0, 1, 1, 0] }
      [true, true, true, false] [1, 2]).visited 3 = true ∧
    ((Bfs.runRound [[1, 2], [0, 3], [0, 3], [1, 2]]
      { threads := 2, assign := fun i => i, order := [0, 1, 0, 1, 0, 1, 1, 0] }
      [true, true, true, false] [1, 2]).workers.map (fun w => w.localQueue.count 3)).sum = 1 ∧
    (Bfs.runRound [[1, 2], [0, 3], [0, 3], [1, 2]]
      { threads := 2, assign := fun i => i, order := [0, 1, 0, 1, 0, 1, 1, 0] }
      [true, true, true, false] [1, 2]).nextFrontier.count 3 = 1 :=
  have h := bfsParallel_double_check [[1, 2], [0, 3], [0, 3], [1, 2]] 4
    { threads := 2, assign := fun i => i, order := [0, 1, 0, 1, 0, 1, 1, 0] }
    [true, true, true, false] [1, 2] 6 3 0 1
    { iters := [], temp := [], waiting := some 3, localQueue := [], merged := false }
    { iters := [], temp := [], waiting := some 3, localQueue := [], merged := false }
    (by decide) (by decide) (by decide) (by decide) (by decide) rfl (by decide) rfl (by decide)
  ⟨h.2.2.1, h.2.2.2.1, h.2.2.2.2.2⟩

/-! ## `merge` and `sequentialMergeSort` -/

theorem set_length_append_cons {α : Type} (P : List α) (x v : α) (Q : List α) :
    (P ++ x :: Q).set P.length v = P ++ v :: Q := by
  induction P with
  | nil => rfl
  | cons p ps ih => simp only [List.cons_append, List.length_cons, List.set_cons_succ, ih]

theorem drop_eq_getD_cons (L : List Int) (i : Nat) (h : i < L.length) :
    L.drop i = L.getD i 0 :: L.drop (i + 1) := by
  rw [List.drop_eq_getElem_cons h, List.getD_eq_getElem L 0 h]

theorem map_range_getD (A L C : List Int) :
    ((List.range L.length).map fun i => (A ++ L ++ C).getD (A.length + i) 0) = L := by
  apply List.ext_getElem (by simp)
  intro i h1 h2
  simp only [List.getElem_map, List.getElem_range]
  rw [List.append_assoc, List.getD_eq_getElem?_getD, List.getElem?_append_right (by omega)]
  simp only [Nat.add_sub_cancel_left]
  rw [List.getElem?_append_left h2, List.getElem?_eq_getElem h2]
  rfl

namespace MergeSort

/-- The loop that copies the rest of `leftHalf` writes it over the next slots
and stops at the end of `leftHalf`. -/
theorem copyLeft_spec (L : List Int) (fuel : Nat) : ∀ (P X B : List Int) (il ir : Nat),
    L.length - il ≤ fuel → L.length - il ≤ X.length → il ≤ L.length →
    copyLeft L fuel
        { arrayToSort := P ++ X ++ B, indexLeft := il, indexRight := ir, indexMerged := P.length } =
      { arrayToSort := (P ++ L.drop il) ++ X.drop (L.length - il) ++ B, indexLeft := L.length,
        indexRight := ir, indexMerged := (P ++ L.drop il).length } := by
  induction fuel with
  | zero =>
    intro P X B il ir hf _ hil
    have e : il = L.length := by omega
    subst e
    simp [copyLeft]
  | succ f ih =>
    intro P X B il ir hf hx hil
    unfold copyLeft
    by_cases hlt : il < L.length
    · simp only [hlt, if_true]
      cases X with
      | nil => simp only [List.length_nil] at hx; omega
      | cons x X1 =>
        have hset : (P ++ x :: X1 ++ B).set P.length (L.getD il 0) =
            (P ++ [L.getD il 0]) ++ X1 ++ B := by
          rw [List.append_assoc, List.cons_append, set_length_append_cons]
          simp
        have hlen : P.length + 1 = (P ++ [L.getD il 0]).length := by simp
        rw [hset, hlen, ih _ X1 B (il + 1) ir (by omega)
          (by simp only [List.length_cons] at hx; omega) (by omega)]
        have hd : L.length - il = (L.length - (il + 1)) + 1 := by omega
        rw [drop_eq_getD_cons L il hlt, hd, List.drop_succ_cons]
        simp
    · have e : il = L.length := by omega
      subst e
      simp

/-- The loop that copies the rest of `rightHalf`. -/
theorem copyRight_spec (R : List Int) (fuel : Nat) : ∀ (P X B : List Int) (il ir : Nat),
    R.length - ir ≤ fuel → R.length - ir ≤ X.length → ir ≤ R.length →
    copyRight R fuel
        { arrayToSort := P ++ X ++ B, indexLeft := il, indexRight := ir, indexMerged := P.length } =
      { arrayToSort := (P ++ R.drop ir) ++ X.drop (R.length - ir) ++ B, indexLeft := il,
        indexRight := R.length, indexMerged := (P ++ R.drop ir).length } := by
  induction fuel with
  | zero =>
    intro P X B il ir hf _ hir
    have e : ir = R.length := by omega
    subst e
    simp [copyRight]
  | succ f ih =>
    intro P X B il ir hf hx hir
    unfold copyRight
    by_cases hlt : ir < R.length
    · simp only [hlt, if_true]
      cases X with
      | nil => simp only [List.length_nil] at hx; omega
      | cons x X1 =>
        have hset : (P ++ x :: X1 ++ B).set P.length (R.getD ir 0) =
            (P ++ [R.getD ir 0]) ++ X1 ++ B := by
          rw [List.append_assoc, List.cons_append, set_length_append_cons]
          simp
        have hlen : P.length + 1 = (P ++ [R.getD ir 0]).length := by simp
        rw [hset, hlen, ih _ X1 B il (ir + 1) (by omega)
          (by simp only [List.length_cons] at hx; omega) (by omega)]
        have hd : R.length - ir = (R.length - (ir + 1)) + 1 := by omega
        rw [drop_eq_getD_cons R ir hlt, hd, List.drop_succ_cons]
        simp
    · have e : ir = R.length := by omega
      subst e
      simp

/-- The two copy loops, run when one of the runs is used up, write the rest
of the other run. -/
theorem copy_loops_spec (L R P X B : List Int) (il ir : Nat) (hil : il ≤ L.length)
    (hir : ir ≤ R.length) (hx : X.length = (L.length - il) + (R.length - ir))
    (hend : ¬ (il < L.length ∧ ir < R.length)) :
    (copyRight R R.length (copyLeft L L.length
        { arrayToSort := P ++ X ++ B, indexLeft := il, indexRight := ir,
          indexMerged := P.length })).arrayToSort =
      P ++ List.merge (L.drop il) (R.drop ir) (fun a b => decide (a ≤ b)) ++ B := by
  rw [copyLeft_spec L L.length P X B il ir (by omega) (by omega) hil,
    copyRight_spec R R.length _ _ B L.length ir (by omega)
      (by simp only [List.length_drop]; omega) hir]
  simp only
  have hdrop : (X.drop (L.length - il)).drop (R.length - ir) = [] := by
    apply List.drop_eq_nil_of_le
    simp only [List.length_drop]
    omega
  rw [hdrop]
  by_cases h1 : il < L.length
  · have h2 : ir = R.length := by
      by_contra hc
      exact hend ⟨h1, by omega⟩
    subst h2
    simp [List.merge_right]
  · have h2 : il = L.length := by omega
    subst h2
    simp [List.nil_merge]

/-- The three loops of `merge` write the merge of what is left of the two
runs over the slots from `indexMerged` on. -/
theorem merge_loops_spec (L R : List Int) (fuel : Nat) : ∀ (P X B : List Int) (il ir : Nat),
    il ≤ L.length → ir ≤ R.length → X.length = (L.length - il) + (R.length - ir) →
    (L.length - il) + (R.length - ir) ≤ fuel →
    (copyRight R R.length (copyLeft L L.length (mergeBoth L R fuel
        { arrayToSort := P ++ X ++ B, indexLeft := il, indexRight := ir,
          indexMerged := P.length }))).arrayToSort =
      P ++ List.merge (L.drop il) (R.drop ir) (fun a b => decide (a ≤ b)) ++ B := by
  induction fuel with
  | zero =>
    intro P X B il ir hil hir hx hf
    simp only [mergeBoth]
    exact copy_loops_spec L R P X B il ir hil hir hx (by omega)
  | succ f ih =>
    intro P X B il ir hil hir hx hf
    unfold mergeBoth
    by_cases hg : il < L.length ∧ ir < R.length
    · simp only [hg, and_self, if_true]
      cases X with
      | nil => simp only [List.length_nil] at hx; omega
      | cons x X1 =>
        simp only [List.length_cons] at hx
        have hset : ∀ v : Int, (P ++ x :: X1 ++ B).set P.length v = (P ++ [v]) ++ X1 ++ B := by
          intro v
          rw [List.append_assoc, List.cons_append, set_length_append_cons]
          simp
        have hlen : ∀ v : Int, P.length + 1 = (P ++ [v]).length := by intro v; simp
        rw [drop_eq_getD_cons L il hg.1, drop_eq_getD_cons R ir hg.2, List.cons_merge_cons]
        by_cases hle : L.getD il 0 ≤ R.getD ir 0
        · simp only [hle, if_true, decide_True]
          rw [hset, hlen (L.getD il 0), ih _ X1 B (il + 1) ir (by omega) hir (by omega) (by omega),
            ← drop_eq_getD_cons R ir hg.2]
          simp
        · simp only [hle, if_false, decide_False, Bool.false_eq_true]
          rw [hset, hlen (R.getD ir 0), ih _ X1 B il (ir + 1) hil (by omega) (by omega) (by omega),
            ← drop_eq_getD_cons L il hg.1]
          simp
    · simp only [hg, if_false]
      exact copy_loops_spec L R P X B il ir hil hir hx hg

/-- The function `merge` on an array cut into the part before the runs, the
two runs, and the part after them. -/
theorem merge_spec (A L R B : List Int) (hL : L ≠ []) :
    merge (A ++ L ++ R ++ B) A.length (A.length + L.length - 1)
        (A.length + L.length + R.length - 1) =
      A ++ List.merge L R (fun a b => decide (a ≤ b)) ++ B := by
  have hLpos : 0 < L.length := List.length_pos.2 hL
  have e1 : A.length + L.length - 1 - A.length + 1 = L.length := by omega
  have e2 : A.length + L.length + R.length - 1 - (A.length + L.length - 1) = R.length := by omega
  have e3 : A.length + L.length - 1 + 1 = (A ++ L).length := by simp; omega
  unfold merge
  simp only [e1, e2, e3]
  have hleft : ((List.range L.length).map fun i => (A ++ L ++ R ++ B).getD (A.length + i) 0) = L := by
    have := map_range_getD A L (R ++ B)
    simpa [List.append_assoc] using this
  have hright : ((List.range R.length).map fun j =>
      (A ++ L ++ R ++ B).getD ((A ++ L).length + j) 0) = R := map_range_getD (A ++ L) R B
  rw [hleft, hright]
  have harr : A ++ L ++ R ++ B = A ++ (L ++ R) ++ B := by simp
  rw [harr]
  have := merge_loops_spec L R (L.length + R.length) A (L ++ R) B 0 0 (Nat.zero_le _)
    (Nat.zero_le _) (by simp) (by omega)
  simpa using this

/-- One call of `sequentialMergeSort` on a segment of two or more elements,
given what its two recursive calls return. -/
theorem sequentialMergeSortDepth_step (d : Nat) (A L R B L' R' : List Int) (hL : L ≠ [])
    (hR : R ≠ []) (hmid : L.length = (L.length + R.length - 1) / 2 + 1)
    (h1 : sequentialMergeSortDepth d (A ++ L ++ (R ++ B)) A.length (A.length + L.length - 1) =
      A ++ L' ++ (R ++ B))
    (hL' : L'.length = L.length)
    (h2 : sequentialMergeSortDepth d (A ++ L' ++ R ++ B) (A ++ L').length
      ((A ++ L').length + R.length - 1) = A ++ L' ++ R' ++ B)
    (hR' : R'.length = R.length) :
    sequentialMergeSortDepth (d + 1) (A ++ (L ++ R) ++ B) A.length
        (A.length + (L ++ R).length - 1) =
      A ++ List.merge L' R' (fun a b => decide (a ≤ b)) ++ B := by
  have hLpos : 0 < L.length := List.length_pos.2 hL
  have hRpos : 0 < R.length := List.length_pos.2 hR
  have hlt : A.length < A.length + (L.length + R.length) - 1 := by omega
  have em : A.length + (A.length + (L.length + R.length) - 1 - A.length) / 2 =
      A.length + L.length - 1 := by omega
  have ea : A ++ (L ++ R) ++ B = A ++ L ++ (R ++ B) := by simp
  have eb : A ++ L' ++ (R ++ B) = A ++ L' ++ R ++ B := by simp
  have e1 : A.length + L.length - 1 + 1 = (A ++ L').length := by
    rw [List.length_append, hL']; omega
  have e2 : A.length + (L.length + R.length) - 1 = (A ++ L').length + R.length - 1 := by
    rw [List.length_append, hL']; omega
  have hL'ne : L' ≠ [] := by
    intro h; rw [h] at hL'; simp only [List.length_nil] at hL'; omega
  have e3 : A.length + L.length - 1 = A.length + L'.length - 1 := by rw [hL']
  have e4 : (A ++ L').length + R.length - 1 = A.length + L'.length + R'.length - 1 := by
    rw [List.length_append, hR']
  unfold sequentialMergeSortDepth
  simp only [List.length_append]
  rw [if_pos hlt]
  simp only [em]
  rw [ea, h1, eb, e1, e2, h2, e3, e4, merge_spec A L' R' B hL'ne]

/-- The recursion of `sequentialMergeSort` on an array cut into the part
before the segment, the segment, and the part after it. -/
theorem sequentialMergeSortDepth_spec (depth : Nat) : ∀ (A S B : List Int), S ≠ [] →
    S.length - 1 ≤ depth →
    ∃ S', sequentialMergeSortDepth depth (A ++ S ++ B) A.length (A.length + S.length - 1) =
        A ++ S' ++ B ∧ S'.Sorted (· ≤ ·) ∧ S'.Perm S := by
  induction depth with
  | zero =>
    intro A S B hS hd
    have hpos : 0 < S.length := List.length_pos.2 hS
    refine ⟨S, rfl, ?_, List.Perm.refl _⟩
    match S, hpos, hd with
    | [x], _, _ => exact List.sorted_singleton x
    | _ :: _ :: _, _, h => simp at h
  | succ d ih =>
    intro A S B hS hd
    have hpos : 0 < S.length := List.length_pos.2 hS
    by_cases hone : S.length = 1
    · refine ⟨S, ?_, ?_, List.Perm.refl _⟩
      · unfold sequentialMergeSortDepth
        rw [if_neg (by omega)]
      · match S, hone with
        | [x], _ => exact List.sorted_singleton x
    · obtain ⟨L, R, hsplit, hLlen, hRlen⟩ : ∃ L R : List Int, S = L ++ R ∧
          L.length = (S.length - 1) / 2 + 1 ∧ R.length = S.length - ((S.length - 1) / 2 + 1) := by
        refine ⟨S.take ((S.length - 1) / 2 + 1), S.drop ((S.length - 1) / 2 + 1),
          (List.take_append_drop _ _).symm, ?_, ?_⟩
        · rw [List.length_take]; omega
        · rw [List.length_drop]
      have hLne : L ≠ [] := by
        intro h; rw [h] at hLlen; simp only [List.length_nil] at hLlen; omega
      have hRne : R ≠ [] := by
        intro h; rw [h] at hRlen; simp only [List.length_nil] at hRlen; omega
      have hSlen : S.length = L.length + R.length := by rw [hsplit, List.length_append]
      obtain ⟨L', hL1, hL2, hL3⟩ := ih A L (R ++ B) hLne (by omega)
      obtain ⟨R', hR1, hR2, hR3⟩ := ih (A ++ L') R B hRne (by omega)
      refine ⟨List.merge L' R' (fun a b => decide (a ≤ b)), ?_, hL2.merge hR2, ?_⟩
      · rw [hsplit]
        exact sequentialMergeSortDepth_step d A L R B L' R' hLne hRne (by omega) hL1
          hL3.length_eq hR1 hR3.length_eq
      · rw [hsplit]
        exact (List.perm_merge _ L' R').trans (hL3.append hR3)

/-- The result of `sequentialMergeSort` on a segment inside the array. -/
theorem sequentialMergeSort_spec (arr : List Int) (s e : Nat) (hse : s ≤ e)
    (he : e < arr.length) :
    ∃ S', sequentialMergeSort arr s e = arr.take s ++ S' ++ arr.drop (e + 1) ∧
      S'.Sorted (· ≤ ·) ∧ S'.Perm (segment arr s e) := by
  have hseg : (segment arr s e).length = e + 1 - s := by
    unfold segment
    rw [List.length_take, List.length_drop]
    omega
  have hne : segment arr s e ≠ [] := by
    intro h; rw [h] at hseg; simp only [List.length_nil] at hseg; omega
  have harr : arr = arr.take s ++ segment arr s e ++ arr.drop (e + 1) := by
    unfold segment
    have h1 : (arr.drop s).drop (e + 1 - s) = arr.drop (e + 1) := by
      rw [List.drop_drop]
      congr 1
      omega
    rw [List.append_assoc, ← h1, List.take_append_drop, List.take_append_drop]
  have hA : (arr.take s).length = s := by rw [List.length_take]; omega
  obtain ⟨S', h1, h2, h3⟩ := sequentialMergeSortDepth_spec (e - s) (arr.take s)
    (segment arr s e) (arr.drop (e + 1)) hne (by omega)
  refine ⟨S', ?_, h2, h3⟩
  unfold sequentialMergeSort
  have hidx : s + (segment arr s e).length - 1 = e := by omega
  rw [hA, hidx, ← harr] at h1
  exact h1

end MergeSort

/-- C12. For every array and all indices `startIndex`, `endIndex` below its
length, `sequentialMergeSort` keeps the length of the array, leaves the
segment `arr[startIndex .. endIndex]` sorted in non-decreasing order and a
permutation of what it held, and leaves every element outside the segment
unchanged; when `startIndex >= endIndex` the array is unchanged. -/
theorem sequentialMergeSort_sorts_segment (arr : List Int) (startIndex endIndex : Nat)
    (_hs : startIndex < arr.length) (he : endIndex < arr.length) :
    (MergeSort.sequentialMergeSort arr startIndex endIndex).length = arr.length ∧
    (MergeSort.segment (MergeSort.sequentialMergeSort arr startIndex endIndex)
      startIndex endIndex).Sorted (· ≤ ·) ∧
    (MergeSort.segment (MergeSort.sequentialMergeSort arr startIndex endIndex)
      startIndex endIndex).Perm (MergeSort.segment arr startIndex endIndex) ∧
    (∀ i, i < startIndex ∨ endIndex < i →
      (MergeSort.sequentialMergeSort arr startIndex endIndex)[i]? = arr[i]?) ∧
    (endIndex ≤ startIndex → MergeSort.sequentialMergeSort arr startIndex endIndex = arr) := by
  have hsame : endIndex ≤ startIndex →
      MergeSort.sequentialMergeSort arr startIndex endIndex = arr := by
    intro h
    unfold MergeSort.sequentialMergeSort
    rw [Nat.sub_eq_zero_of_le h]
    rfl
  by_cases hse : startIndex ≤ endIndex
  · obtain ⟨S', h1, h2, h3⟩ := MergeSort.sequentialMergeSort_spec arr startIndex endIndex hse he
    have hA : (arr.take startIndex).length = startIndex := by rw [List.length_take]; omega
    have hseg : (MergeSort.segment arr startIndex endIndex).length =
        endIndex + 1 - startIndex := by
      unfold MergeSort.segment
      rw [List.length_take, List.length_drop]
      omega
    have hS' : S'.length = endIndex + 1 - startIndex := by rw [h3.length_eq, hseg]
    have hout : MergeSort.segment (MergeSort.sequentialMergeSort arr startIndex endIndex)
        startIndex endIndex = S' := by
      unfold MergeSort.segment
      rw [h1, List.append_assoc]
      have e1 : (arr.take startIndex ++ (S' ++ arr.drop (endIndex + 1))).drop startIndex =
          S' ++ arr.drop (endIndex + 1) := by
        have := List.drop_left (arr.take startIndex) (S' ++ arr.drop (endIndex + 1))
        rw [hA] at this
        exact this
      rw [e1, ← hS']
      exact List.take_left _ _
    refine ⟨?_, ?_, ?_, ?_, hsame⟩
    · rw [h1]
      simp only [List.length_append, List.length_take, List.length_drop, hS']
      omega
    · rw [hout]; exact h2
    · rw [hout]; exact h3
    · intro i hi
      rw [h1]
      rcases hi with hi | hi
      · rw [List.append_assoc, List.getElem?_append_left (by omega), List.getElem?_take]
        simp [hi]
      · rw [List.getElem?_append_right (by simp only [List.length_append]; omega),
          List.getElem?_drop]
        congr 1
        simp only [List.length_append]
        omega
  · have hle : endIndex ≤ startIndex := by omega
    rw [hsame hle]
    have hnil : MergeSort.segment arr startIndex endIndex = [] := by
      unfold MergeSort.segment
      have : endIndex + 1 - startIndex = 0 := by omega
      rw [this, List.take_zero]
    refine ⟨rfl, ?_, List.Perm.refl _, fun _ _ => rfl, fun _ => rfl⟩
    rw [hnil]
    exact List.sorted_nil

/-- The statement of C12 on an array of eight elements and the segment from
index 2 to index 6. -/
theorem sequentialMergeSort_sorts_segment_witness :
    MergeSort.sequentialMergeSort [5, 3, 9, 1, 4, 8, 2, 7] 2 6 = [5, 3, 1, 2, 4, 8, 9, 7] ∧
    (MergeSort.segment (MergeSort.sequentialMergeSort [5, 3, 9, 1, 4, 8, 2, 7] 2 6)
      2 6).Sorted (· ≤ ·) ∧
    (MergeSort.segment (MergeSort.sequentialMergeSort [5, 3, 9, 1, 4, 8, 2, 7] 2 6)
      2 6).Perm (MergeSort.segment [5, 3, 9, 1, 4, 8, 2, 7] 2 6) :=
  ⟨by decide,
    (sequentialMergeSort_sorts_segment [5, 3, 9, 1, 4, 8, 2, 7] 2 6 (by decide) (by decide)).2.1,
    (sequentialMergeSort_sorts_segment [5, 3, 9, 1, 4, 8, 2, 7] 2 6 (by decide) (by decide)).2.2.1⟩

/-! ## `bubbleSortSeq` -/

namespace BubbleSort

theorem compareSwap_cons_succ (x : Int) (l : List Int) (j : Nat) :
    compareSwap (x :: l) (j + 1) = x :: compareSwap l j := by
  unfold compareSwap
  simp only [List.getD_cons_succ, List.set_cons_succ]
  split <;> rfl

theorem compareSwap_zero (a b : Int) (rest : List Int) :
    compareSwap (a :: b :: rest) 0 = if a > b then b :: a :: rest else a :: b :: rest := by
  unfold compareSwap
  simp only [List.getD_cons_zero, List.getD_cons_succ, List.set_cons_zero, List.set_cons_succ]

theorem foldl_compareSwap_shift (x : Int) (js : List Nat) : ∀ l : List Int,
    (js.map Nat.succ).foldl compareSwap (x :: l) = x :: js.foldl compareSwap l := by
  induction js with
  | nil => intro l; rfl
  | cons j js ih =>
    intro l
    simp only [List.map_cons, List.foldl_cons]
    rw [compareSwap_cons_succ, ih]

/-- The inner loop of `bubbleSortSeq`, with `k` iterations on an array of
more than `k` elements, is a pass of bubble sort. -/
theorem foldl_compareSwap_eq_bubblePass (k : Nat) : ∀ l : List Int, k + 1 ≤ l.length →
    (List.range k).foldl compareSwap l = bubblePass k l := by
  induction k with
  | zero => intro l _; rfl
  | succ k ih =>
    intro l hl
    match l, hl with
    | a :: b :: rest, hl =>
      rw [List.range_succ_eq_map, List.foldl_cons, compareSwap_zero]
      simp only [bubblePass]
      have hlen : k + 1 ≤ (a :: rest).length ∧ k + 1 ≤ (b :: rest).length := by
        simp only [List.length_cons] at hl ⊢
        omega
      by_cases hab : a > b
      · simp only [hab, if_true]
        rw [foldl_compareSwap_shift, ih _ hlen.1]
      · simp only [hab, if_false]
        rw [foldl_compareSwap_shift, ih _ hlen.2]

theorem bubblePass_perm (k : Nat) : ∀ l : List Int, (bubblePass k l).Perm l := by
  induction k with
  | zero => intro l; exact List.Perm.refl _
  | succ k ih =>
    intro l
    match l with
    | [] => exact List.Perm.refl _
    | [_] => exact List.Perm.refl _
    | a :: b :: rest =>
      simp only [bubblePass]
      split
      · exact ((ih (a :: rest)).cons b).trans (List.Perm.swap a b rest)
      · exact (ih (b :: rest)).cons a

/-- A pass of `k` comparisons changes only the first `k + 1` elements. -/
theorem bubblePass_append (k : Nat) : ∀ l1 l2 : List Int, k + 1 ≤ l1.length →
    bubblePass k (l1 ++ l2) = bubblePass k l1 ++ l2 := by
  induction k with
  | zero => intro l1 l2 _; rfl
  | succ k ih =>
    intro l1 l2 hl
    match l1, hl with
    | a :: b :: rest, hl =>
      have hlen : k + 1 ≤ (a :: rest).length ∧ k + 1 ≤ (b :: rest).length := by
        simp only [List.length_cons] at hl ⊢
        omega
      have h1 := ih (a :: rest) l2 hlen.1
      have h2 := ih (b :: rest) l2 hlen.2
      simp only [List.cons_append, bubblePass]
      split
      · exact congrArg (List.cons b) h1
      · exact congrArg (List.cons a) h2

/-- A full pass moves a largest element to the end. -/
theorem bubblePass_last (k : Nat) : ∀ l : List Int, l.length = k + 1 →
    ∃ (init : List Int) (m : Int), bubblePass k l = init ++ [m] ∧ ∀ x ∈ init, x ≤ m := by
  induction k with
  | zero =>
    intro l hl
    match l, hl with
    | [x], _ => exact ⟨[], x, rfl, by simp⟩
  | succ k ih =>
    intro l hl
    match l, hl with
    | a :: b :: rest, hl =>
      have hlen : (a :: rest).length = k + 1 ∧ (b :: rest).length = k + 1 := by
        simp only [List.length_cons] at hl ⊢
        omega
      simp only [bubblePass]
      by_cases hab : a > b
      · simp only [hab, if_true]
        obtain ⟨init, m, h1, h2⟩ := ih _ hlen.1
        have ham : a ≤ m := by
          have hmem : a ∈ init ++ [m] := by
            rw [← h1]
            exact (bubblePass_perm k (a :: rest)).symm.subset (List.mem_cons_self _ _)
          rcases List.mem_append.1 hmem with h | h
          · exact h2 a h
          · simp only [List.mem_singleton] at h; rw [h]
        refine ⟨b :: init, m, by rw [h1]; rfl, ?_⟩
        intro x hx
        rcases List.mem_cons.1 hx with rfl | h
        · omega
        · exact h2 x h
      · simp only [hab, if_false]
        obtain ⟨init, m, h1, h2⟩ := ih _ hlen.2
        have hbm : b ≤ m := by
          have hmem : b ∈ init ++ [m] := by
            rw [← h1]
            exact (bubblePass_perm k (b :: rest)).symm.subset (List.mem_cons_self _ _)
          rcases List.mem_append.1 hmem with h | h
          · exact h2 b h
          · simp only [List.mem_singleton] at h; rw [h]
        refine ⟨a :: init, m, by rw [h1]; rfl, ?_⟩
        intro x hx
        rcases List.mem_cons.1 hx with rfl | h
        · omega
        · exact h2 x h

/-- Pass number `i` of `bubbleSortSeq` settles one more element. -/
theorem settled_pass {arr : List Int} {n i : Nat} (hn : arr.length = n) (hi : i + 1 < n)
    (h : Settled arr i) :
    Settled ((List.range (n - i - 1)).foldl compareSwap arr) (i + 1) ∧
      ((List.range (n - i - 1)).foldl compareSwap arr).length = n ∧
      ((List.range (n - i - 1)).foldl compareSwap arr).Perm arr := by
  obtain ⟨U, T, rfl, hT, hsorted, hle⟩ := h
  have hU : U.length = (n - i - 1) + 1 := by
    rw [List.length_append] at hn
    omega
  rw [foldl_compareSwap_eq_bubblePass _ _ (by rw [List.length_append]; omega),
    bubblePass_append _ U T (by omega)]
  obtain ⟨init, m, h1, h2⟩ := bubblePass_last (n - i - 1) U hU
  have hperm := bubblePass_perm (n - i - 1) U
  have hmU : m ∈ U := hperm.subset (by rw [h1]; simp)
  have hinitU : ∀ x ∈ init, x ∈ U := fun x hx => hperm.subset (by rw [h1]; simp [hx])
  refine ⟨⟨init, m :: T, by rw [h1]; simp, by simp [hT], ?_, ?_⟩, ?_, hperm.append_right T⟩
  · exact List.sorted_cons.2 ⟨fun t ht => hle m hmU t ht, hsorted⟩
  · intro u hu t ht
    rcases List.mem_cons.1 ht with rfl | ht
    · exact h2 u hu
    · exact hle u (hinitU u hu) t ht
  · rw [(hperm.append_right T).length_eq]
    exact hn

/-- The first `m` passes of `bubbleSortSeq`. -/
theorem settled_passes {arr : List Int} {n : Nat} (hn : arr.length = n) (m : Nat) :
    m + 1 ≤ n →
    Settled ((List.range m).foldl
        (fun a i => (List.range (n - i - 1)).foldl compareSwap a) arr) m ∧
      ((List.range m).foldl
        (fun a i => (List.range (n - i - 1)).foldl compareSwap a) arr).length = n ∧
      ((List.range m).foldl
        (fun a i => (List.range (n - i - 1)).foldl compareSwap a) arr).Perm arr := by
  induction m with
  | zero =>
    intro _
    exact ⟨⟨arr, [], by simp, rfl, List.sorted_nil, by simp⟩, hn, List.Perm.refl _⟩
  | succ m ih =>
    intro hm
    obtain ⟨h1, h2, h3⟩ := ih (by omega)
    rw [List.range_succ, List.foldl_append]
    simp only [List.foldl_cons, List.foldl_nil]
    obtain ⟨k1, k2, k3⟩ := settled_pass h2 (by omega) h1
    exact ⟨k1, k2, k3.trans h3⟩

end BubbleSort

/-- C14. For every array, of every length `n`, `bubbleSortSeq` leaves the
array sorted in non-decreasing order and a permutation of its input. -/
theorem bubbleSortSeq_sorts (arr : List Int) :
    (BubbleSort.bubbleSortSeq arr arr.length).Sorted (· ≤ ·) ∧
    (BubbleSort.bubbleSortSeq arr arr.length).Perm arr := by
  by_cases hn : 1 ≤ arr.length
  · obtain ⟨⟨U, T, h1, h2, h3, h4⟩, h5, h6⟩ :=
      BubbleSort.settled_passes (rfl : arr.length = arr.length) (arr.length - 1) (by omega)
    refine ⟨?_, h6⟩
    unfold BubbleSort.bubbleSortSeq
    rw [h1]
    have hU : U.length = 1 := by
      rw [h1, List.length_append] at h5
      omega
    match U, hU with
    | [u], _ =>
      exact List.sorted_cons.2 ⟨fun t ht => h4 u (List.mem_singleton.2 rfl) t ht, h3⟩
  · have h0 : arr = [] := List.length_eq_zero.1 (by omega)
    subst h0
    exact ⟨List.sorted_nil, List.Perm.refl _⟩

/-- The result of `bubbleSortSeq` on an array of five elements. -/
theorem bubbleSortSeq_sorts_example :
    BubbleSort.bubbleSortSeq [5, 3, 9, 1, 4] 5 = [1, 3, 4, 5, 9] := by
  decide

/-- C13, as the code has it. On the array `[3, 2, 1]` the two phases of
`bubbleSortPar` (one comparison each, so the threads have nothing to
schedule) leave `[2, 1, 3]`, which is not sorted and is not the array
`[1, 2, 3]` that `bubbleSortSeq` produces: the loop runs `n - 1` phases where
an odd-even transposition sort needs `n`. -/
theorem bubbleSortPar_leaves_unsorted :
    BubbleSort.phaseIndices 3 0 = [0] ∧ BubbleSort.phaseIndices 3 1 = [1] ∧
    BubbleSort.bubbleSortPar [3, 2, 1] 3 = [2, 1, 3] ∧
    ¬ (BubbleSort.bubbleSortPar [3, 2, 1] 3).Sorted (· ≤ ·) ∧
    BubbleSort.bubbleSortSeq [3, 2, 1] 3 = [1, 2, 3] ∧
    BubbleSort.bubbleSortPar [3, 2, 1] 3 ≠ BubbleSort.bubbleSortSeq [3, 2, 1] 3 := by
  decide

/-! ## The stack of the depth-first searches -/

namespace Dfs

theorem pushUnvisited_eq (visited : List Bool) (temp : List Nat) : ∀ stack : List Nat,
    pushUnvisited visited stack temp = (pushedBy visited temp).reverse ++ stack := by
  induction temp with
  | nil => intro stack; rfl
  | cons x xs ih =>
    intro stack
    have e : pushUnvisited visited stack (x :: xs) =
        pushUnvisited visited (if !isVisited visited x then x :: stack else stack) xs := rfl
    rw [e, ih]
    unfold pushedBy
    by_cases hx : (!isVisited visited x) = true
    · rw [if_pos hx]
      simp only [List.filter_cons, hx, if_true, List.reverse_cons, List.append_assoc,
        List.singleton_append]
    · rw [if_neg hx]
      simp only [List.filter_cons, hx, Bool.false_eq_true, if_false]

/-- What an expansion does to the state. -/
theorem body_expand (graph : Graph) (visited : List Bool) (curr : Nat) (rest : List Nat)
    (h : isVisited visited curr = false) :
    DFSSequentialBody graph visited curr rest =
      { visited := mark visited curr,
        stack := (pushedBy (mark visited curr) (nbrs graph.adjList curr)).reverse ++ rest } := by
  unfold DFSSequentialBody
  simp only [h, Bool.not_false, if_true]
  rw [pushUnvisited_eq]

/-- What the pop of a marked vertex does to the state. -/
theorem body_skip (graph : Graph) (visited : List Bool) (curr : Nat) (rest : List Nat)
    (h : isVisited visited curr = true) :
    DFSSequentialBody graph visited curr rest = { visited := visited, stack := rest } := by
  unfold DFSSequentialBody
  simp only [h, Bool.not_true, Bool.false_eq_true, if_false]

end Dfs

/-- C15, as the code has it. On the graph over 2 vertices built by three
calls `addEdge(0, 1)`, the expansion of vertex 0 pushes vertex 1 three times:
the stack then holds 3 entries, so the third push wrote `stack[2]` in a
block of `V = 2` slots.  Duplicate edges are not needed: on the complete
graph over 5 vertices the stack holds 6 entries after two iterations.  The
local stack of `DFSParallel` does the same. -/
theorem DFS_stack_exceeds_V :
    (Dfs.addEdges (Dfs.createGraph 2) [(0, 1), (0, 1), (0, 1)]).V = 2 ∧
    (Dfs.DFSSequentialLoop (Dfs.addEdges (Dfs.createGraph 2) [(0, 1), (0, 1), (0, 1)]) 1
      { visited := [false, false], stack := [0] }).stack = [1, 1, 1] ∧
    Dfs.DFSParallelLoop (Dfs.addEdges (Dfs.createGraph 2) [(0, 1), (0, 1), (0, 1)]) 1
      { visited := [false, false], locks := [false, false], localStack := [0] } =
      some { visited := [true, false], locks := [false, false], localStack := [1, 1, 1] } ∧
    (Dfs.DFSSequentialLoop
      (Dfs.addEdges (Dfs.createGraph 5)
        [(0, 1), (0, 2), (0, 3), (0, 4), (1, 2), (1, 3), (1, 4), (2, 3), (2, 4), (3, 4)]) 2
      { visited := List.replicate 5 false, stack := [0] }).stack = [2, 3, 4, 2, 3, 4] := by
  decide

namespace Dfs

end Dfs

/-! ## Termination of the traversal loops -/

namespace Bfs

end Bfs

/-! ## `generateRandomGraph` -/

theorem inRange_of_entriesBelow {adjList : AdjList} {n : Nat} (h : EntriesBelow adjList n) :
    InRange adjList n := by
  intro l hl v hv
  obtain ⟨i, hi⟩ := List.mem_iff_getElem?.1 hl
  have hlt : i < adjList.length := by
    by_contra hc
    rw [List.getElem?_eq_none (Nat.le_of_not_lt hc)] at hi
    cases hi
  apply h i v
  rw [nbrs_of_lt hlt]
  rw [List.getElem?_eq_getElem hlt] at hi
  cases hi
  exact hv

theorem entriesBelow_replicate (n : Nat) : EntriesBelow (List.replicate n []) n := by
  intro u v hv
  rw [nbrs_replicate] at hv
  cases hv

namespace Bfs

theorem mem_nbrs_addEdge {adjList : AdjList} {a b : Nat} (ha : a < adjList.length)
    (hb : b < adjList.length) (u v : Nat) :
    v ∈ nbrs (addEdge adjList a b) u ↔
      (u = b ∧ v = a) ∨ (u = a ∧ v = b) ∨ v ∈ nbrs adjList u := by
  rw [nbrs_addEdge _ _ _ _ ha hb]
  by_cases h1 : u = b <;> by_cases h2 : u = a <;> simp [h1, h2]

theorem entriesBelow_addEdge {adjList : AdjList} {n a b : Nat} (hl : adjList.length = n)
    (h : EntriesBelow adjList n) (ha : a < n) (hb : b < n) :
    EntriesBelow (addEdge adjList a b) n := by
  intro u v hv
  rcases (mem_nbrs_addEdge (by omega) (by omega) u v).1 hv with ⟨_, rfl⟩ | ⟨_, rfl⟩ | h1
  · exact ha
  · exact hb
  · exact h u v h1

/-- An `addEdge` keeps every path. -/
theorem reachable_addEdge {adjList : AdjList} {a b : Nat} (ha : a < adjList.length)
    (hb : b < adjList.length) {s v : Nat} (h : Reachable adjList s v) :
    Reachable (addEdge adjList a b) s v :=
  Relation.ReflTransGen.mono
    (fun x y e => (mem_nbrs_addEdge ha hb x y).2 (Or.inr (Or.inr e))) h

/-- The first `m` edges of the spanning tree connect the vertices `0 .. m`. -/
theorem tree_connected (n : Nat) (rand : Nat → Nat) (m : Nat) : m + 1 ≤ n →
    ((List.range m).foldl (fun g k => addEdge g (k + 1) (rand k % (k + 1)))
        (createGraph n)).length = n ∧
    EntriesBelow ((List.range m).foldl (fun g k => addEdge g (k + 1) (rand k % (k + 1)))
        (createGraph n)) n ∧
    ConnectedUpTo ((List.range m).foldl (fun g k => addEdge g (k + 1) (rand k % (k + 1)))
        (createGraph n)) m := by
  induction m with
  | zero =>
    intro _
    refine ⟨by simp [createGraph], entriesBelow_replicate n, ?_⟩
    intro v hv
    have : v = 0 := by omega
    subst this
    exact Relation.ReflTransGen.refl
  | succ m ih =>
    intro hm
    obtain ⟨h1, h2, h3⟩ := ih (by omega)
    have hp : rand m % (m + 1) < m + 1 := Nat.mod_lt _ (Nat.succ_pos m)
    rw [List.range_succ, List.foldl_append]
    simp only [List.foldl_cons, List.foldl_nil]
    refine ⟨by rw [length_addEdge]; exact h1, entriesBelow_addEdge h1 h2 (by omega) (by omega), ?_⟩
    intro v hv
    by_cases hvm : v ≤ m
    · exact reachable_addEdge (by omega) (by omega) (h3 v hvm)
    · have hv1 : v = m + 1 := by omega
      subst hv1
      have hpar := reachable_addEdge (a := m + 1) (b := rand m % (m + 1)) (by omega) (by omega)
        (h3 (rand m % (m + 1)) (by omega))
      exact hpar.edge_step
        ((mem_nbrs_addEdge (by omega) (by omega) _ _).2 (Or.inl ⟨rfl, rfl⟩))

/-- The extra edges keep the size of the graph, its entries below `n`, and
every path. -/
theorem extra_edges_keep (n : Nat) (f : Nat → Nat × Nat) (hf : ∀ i, (f i).1 < n ∧ (f i).2 < n)
    (is : List Nat) : ∀ g : AdjList, g.length = n → EntriesBelow g n →
    (is.foldl (fun g i => if (f i).1 ≠ (f i).2 then addEdge g (f i).1 (f i).2 else g) g).length
        = n ∧
    EntriesBelow
      (is.foldl (fun g i => if (f i).1 ≠ (f i).2 then addEdge g (f i).1 (f i).2 else g) g) n ∧
    ∀ s v, Reachable g s v → Reachable
      (is.foldl (fun g i => if (f i).1 ≠ (f i).2 then addEdge g (f i).1 (f i).2 else g) g) s v := by
  induction is with
  | nil => intro g h1 h2; exact ⟨h1, h2, fun _ _ h => h⟩
  | cons i is ih =>
    intro g h1 h2
    simp only [List.foldl_cons]
    by_cases hne : (f i).1 ≠ (f i).2
    · rw [if_pos hne]
      obtain ⟨k1, k2, k3⟩ := ih (addEdge g (f i).1 (f i).2) (by rw [length_addEdge]; exact h1)
        (entriesBelow_addEdge h1 h2 (hf i).1 (hf i).2)
      exact ⟨k1, k2, fun s v h => k3 s v
        (reachable_addEdge (by rw [h1]; exact (hf i).1) (by rw [h1]; exact (hf i).2) h)⟩
    · rw [if_neg hne]
      exact ih g h1 h2

theorem foldl_addEdge_filter (is : List (Nat × Nat)) : ∀ g : AdjList,
    (is.filter (fun e => e.1 ≠ e.2)).foldl (fun g e => addEdge g e.1 e.2) g =
      is.foldl (fun g e => if e.1 ≠ e.2 then addEdge g e.1 e.2 else g) g := by
  induction is with
  | nil => intro g; rfl
  | cons e es ih =>
    intro g
    by_cases hne : e.1 ≠ e.2
    · simp only [List.filter_cons, hne, decide_True, if_true, List.foldl_cons, ne_eq,
        not_false_eq_true]
      exact ih _
    · simp only [List.filter_cons, hne, decide_False, if_false, List.foldl_cons,
        Bool.false_eq_true]
      exact ih _

/-- The generator is the sequence of its `addEdge` calls. -/
theorem generateRandomGraph_eq_addEdges (adjList : AdjList) (n : Nat) (rand : Nat → Nat) :
    generateRandomGraph adjList n rand = addEdges adjList (generateRandomGraphCalls n rand) := by
  unfold generateRandomGraph addEdges generateRandomGraphCalls
  simp only
  rw [List.foldl_append, List.foldl_map, foldl_addEdge_filter, List.foldl_map]

end Bfs

/-- C20. For every `n >= 1` and every sequence of values of `rand`, the graph
that `generateRandomGraph` makes from `createGraph(n)` is the result of its
`addEdge` calls, all with both endpoints below `n`; it has `n` adjacency
lists with entries below `n`; every vertex is reachable from vertex 0; and
`bfsSequential` from vertex 0 returns within `n` iterations with all `n`
flags true. -/
theorem generateRandomGraph_connected (n : Nat) (rand : Nat → Nat) (hn : 0 < n) :
    Bfs.generateRandomGraph (Bfs.createGraph n) n rand =
      Bfs.addEdges (Bfs.createGraph n) (Bfs.generateRandomGraphCalls n rand) ∧
    (∀ e ∈ Bfs.generateRandomGraphCalls n rand, e.1 < n ∧ e.2 < n) ∧
    (Bfs.generateRandomGraph (Bfs.createGraph n) n rand).length = n ∧
    InRange (Bfs.generateRandomGraph (Bfs.createGraph n) n rand) n ∧
    (∀ v, v < n → Reachable (Bfs.generateRandomGraph (Bfs.createGraph n) n rand) 0 v) ∧
    ∃ st, Bfs.bfsSequential (Bfs.generateRandomGraph (Bfs.createGraph n) n rand) n 0 n =
        some st ∧ st.visited = List.replicate n true := by
  obtain ⟨t1, t2, t3⟩ := Bfs.tree_connected n rand (n - 1) (by omega)
  obtain ⟨g1, g2, g3⟩ := Bfs.extra_edges_keep n
    (fun i => (rand (n - 1 + 2 * i) % n, rand (n - 1 + 2 * i + 1) % n))
    (fun i => ⟨Nat.mod_lt _ hn, Nat.mod_lt _ hn⟩) (List.range n) _ t1 t2
  have hreach : ∀ v, v < n →
      Reachable (Bfs.generateRandomGraph (Bfs.createGraph n) n rand) 0 v :=
    fun v hv => g3 0 v (t3 v (by omega))
  have hrange : InRange (Bfs.generateRandomGraph (Bfs.createGraph n) n rand) n :=
    inRange_of_entriesBelow g2
  refine ⟨Bfs.generateRandomGraph_eq_addEdges _ n rand, ?_, g1, hrange, hreach, ?_⟩
  · intro e he
    unfold Bfs.generateRandomGraphCalls at he
    rcases List.mem_append.1 he with h | h
    · obtain ⟨k, hk, rfl⟩ := List.mem_map.1 h
      have hk2 := List.mem_range.1 hk
      have : rand k % (k + 1) < k + 1 := Nat.mod_lt (rand k) (by omega)
      simp only
      omega
    · obtain ⟨i, _, rfl⟩ := List.mem_map.1 (List.mem_filter.1 h).1
      exact ⟨Nat.mod_lt _ hn, Nat.mod_lt _ hn⟩
  · obtain ⟨st, h1, inv, hend⟩ :=
      @Bfs.bfsSequential_returns _ n 0 n hrange hn (Nat.le_refl n)
    refine ⟨st, h1, ?_⟩
    have hlen : st.visited.length = (List.replicate n true).length := by
      rw [inv.len, List.length_replicate]
    apply List.ext_getElem hlen
    intro i hi1 hi2
    have hin : i < n := by rw [inv.len] at hi1; exact hi1
    have hv : isVisited st.visited i = true :=
      (inv.mem_iff i).2 ((inv.mem_queue_iff hend i).2 (hreach i hin))
    unfold isVisited at hv
    rw [List.getD_eq_getElem _ _ hi1] at hv
    simp [hv]

/-- The statement of C20 for five vertices and the values `7 k + 3` of
`rand`. -/
theorem generateRandomGraph_connected_witness :
    (∀ v, v < 5 →
      Reachable (Bfs.generateRandomGraph (Bfs.createGraph 5) 5 (fun k => 7 * k + 3)) 0 v) ∧
    ∃ st, Bfs.bfsSequential (Bfs.generateRandomGraph (Bfs.createGraph 5) 5
        (fun k => 7 * k + 3)) 5 0 5 = some st ∧ st.visited = List.replicate 5 true :=
  ⟨(generateRandomGraph_connected 5 (fun k => 7 * k + 3) (by decide)).2.2.2.2.1,
    (generateRandomGraph_connected 5 (fun k => 7 * k + 3) (by decide)).2.2.2.2.2⟩

/-! ## `generateRandomTree` -/

theorem nbrs_getElem? {adjList : AdjList} {u : Nat} (h : u < adjList.length) :
    adjList[u]? = some (nbrs adjList u) := by
  rw [List.getElem?_eq_getElem h, nbrs_of_lt h]

theorem Bfs.totalEntries_addEdge {adjList : AdjList} {a b : Nat} (ha : a < adjList.length)
    (hb : b < adjList.length) :
    totalEntries (Bfs.addEdge adjList a b) = totalEntries adjList + 2 := by
  unfold totalEntries Bfs.addEdge
  simp only
  have h1 := sum_map_set List.length adjList a (nbrs adjList a) (b :: nbrs adjList a)
    (nbrs_getElem? ha)
  have hb2 : b < (adjList.set a (b :: nbrs adjList a)).length := by simpa using hb
  have h2 := sum_map_set List.length (adjList.set a (b :: nbrs adjList a)) b
    (nbrs (adjList.set a (b :: nbrs adjList a)) b)
    (a :: nbrs (adjList.set a (b :: nbrs adjList a)) b) (nbrs_getElem? hb2)
  simp only [List.length_cons] at h1 h2
  omega

namespace Dfs

theorem adjList_generateRandomTree (V : Nat) (rand : Nat → Nat) :
    (generateRandomTree (createGraph V) V rand).adjList = treeAdj V rand (V - 1) ∧
    (generateRandomTree (createGraph V) V rand).V = V := by
  unfold generateRandomTree treeAdj
  have key : ∀ (ks : List Nat) (g : Graph),
      (ks.foldl (fun g k => addEdge g (rand k % (k + 1)) (k + 1)) g).adjList =
        ks.foldl (fun a k => Bfs.addEdge a (rand k % (k + 1)) (k + 1)) g.adjList ∧
      (ks.foldl (fun g k => addEdge g (rand k % (k + 1)) (k + 1)) g).V = g.V := by
    intro ks
    induction ks with
    | nil => intro g; exact ⟨rfl, rfl⟩
    | cons k ks ih =>
      intro g
      simp only [List.foldl_cons]
      obtain ⟨h1, h2⟩ := ih (addEdge g (rand k % (k + 1)) (k + 1))
      exact ⟨h1, h2⟩
  exact key _ (createGraph V)

theorem treeAdj_succ (V : Nat) (rand : Nat → Nat) (m : Nat) :
    treeAdj V rand (m + 1) = Bfs.addEdge (treeAdj V rand m) (rand m % (m + 1)) (m + 1) := by
  unfold treeAdj
  rw [List.range_succ, List.foldl_append]
  rfl

theorem childOf_succ_indicator (rand : Nat → Nat) (m u v : Nat) :
    (if ChildOf rand (m + 1) u v then 1 else 0) =
      (if ChildOf rand m u v then 1 else 0) +
        (if v = m + 1 ∧ u = rand m % (m + 1) then 1 else 0) := by
  have c1 : ChildOf rand (m + 1) u v ↔
      ChildOf rand m u v ∨ (v = m + 1 ∧ u = rand m % (m + 1)) := by
    unfold ChildOf
    constructor
    · rintro ⟨a, b, c⟩
      by_cases hv : v = m + 1
      · subst hv
        exact Or.inr ⟨rfl, by simpa using c.symm⟩
      · exact Or.inl ⟨a, by omega, c⟩
    · rintro (⟨a, b, c⟩ | ⟨rfl, rfl⟩)
      · exact ⟨a, by omega, c⟩
      · exact ⟨by omega, Nat.le_refl _, by simp⟩
  by_cases a1 : ChildOf rand m u v
  · have b1 : ¬ (v = m + 1 ∧ u = rand m % (m + 1)) := by
      rintro ⟨c, _⟩
      have := a1.2.1
      omega
    rw [if_pos (c1.2 (Or.inl a1)), if_pos a1, if_neg b1]
  · by_cases b1 : v = m + 1 ∧ u = rand m % (m + 1)
    · rw [if_pos (c1.2 (Or.inr b1)), if_neg a1, if_pos b1]
    · rw [if_neg (fun h => (c1.1 h).elim a1 b1), if_neg a1, if_neg b1]

theorem count_if_singleton (c : Prop) [Decidable c] (x v : Nat) :
    (if c then [x] else []).count v = if c ∧ v = x then 1 else 0 := by
  by_cases hc : c
  · by_cases hv : v = x
    · subst hv; simp [hc]
    · have : ¬ x = v := fun e => hv e.symm
      simp [hc, hv, List.count_singleton, this]
  · simp [hc]

/-- The adjacency lists of the random tree: `v` occurs in the list of `u`
once when one of them is the parent of the other, and not otherwise. -/
theorem treeAdj_spec (V : Nat) (rand : Nat → Nat) (m : Nat) : m + 1 ≤ V →
    (treeAdj V rand m).length = V ∧ totalEntries (treeAdj V rand m) = 2 * m ∧
    ∀ u v, (nbrs (treeAdj V rand m) u).count v =
      (if ChildOf rand m u v then 1 else 0) + (if ChildOf rand m v u then 1 else 0) := by
  induction m with
  | zero =>
    intro _
    refine ⟨by simp [treeAdj], ?_, ?_⟩
    · simp only [treeAdj, List.range_zero, List.foldl_nil, totalEntries]
      apply List.sum_eq_zero
      intro x hx
      obtain ⟨l, hl, rfl⟩ := List.mem_map.1 hx
      rw [List.eq_of_mem_replicate hl]
      rfl
    · intro u v
      have h1 : ¬ ChildOf rand 0 u v := fun h => by have := h.1; have := h.2.1; omega
      have h2 : ¬ ChildOf rand 0 v u := fun h => by have := h.1; have := h.2.1; omega
      simp [treeAdj, nbrs_replicate, h1, h2]
  | succ m ih =>
    intro hm
    obtain ⟨h1, h2, h3⟩ := ih (by omega)
    have hp : rand m % (m + 1) < m + 1 := Nat.mod_lt _ (Nat.succ_pos m)
    rw [treeAdj_succ]
    refine ⟨by rw [Bfs.length_addEdge]; exact h1, ?_, ?_⟩
    · rw [Bfs.totalEntries_addEdge (by omega) (by omega), h2]
      omega
    · intro u v
      rw [Bfs.nbrs_addEdge _ _ _ _ (by omega) (by omega)]
      simp only [List.count_append]
      have e : (if v = m + 1 ∧ u = rand m % (m + 1) then 1 else 0) =
          (if u = rand m % (m + 1) ∧ v = m + 1 then 1 else 0) := by
        simp only [and_comm]
      rw [h3 u v, childOf_succ_indicator rand m u v, childOf_succ_indicator rand m v u,
        count_if_singleton, count_if_singleton, e]
      omega

end Dfs

namespace Dfs

theorem childOf_lt {rand : Nat → Nat} {m u v : Nat} (h : ChildOf rand m u v) : u < v := by
  obtain ⟨h1, _, h3⟩ := h
  have := Nat.mod_lt (rand (v - 1)) (by omega : 0 < v)
  omega

theorem mem_treeAdj {V : Nat} {rand : Nat → Nat} {m : Nat} (hm : m + 1 ≤ V) (u v : Nat) :
    v ∈ nbrs (treeAdj V rand m) u ↔ ChildOf rand m u v ∨ ChildOf rand m v u := by
  rw [← List.count_pos_iff, (treeAdj_spec V rand m hm).2.2 u v]
  by_cases a : ChildOf rand m u v <;> by_cases b : ChildOf rand m v u <;> simp [a, b]

theorem nodup_treeAdj {V : Nat} {rand : Nat → Nat} {m : Nat} (hm : m + 1 ≤ V) (u : Nat) :
    (nbrs (treeAdj V rand m) u).Nodup := by
  rw [List.nodup_iff_count_le_one]
  intro v
  rw [(treeAdj_spec V rand m hm).2.2 u v]
  by_cases a : ChildOf rand m u v
  · have b : ¬ ChildOf rand m v u := fun b => by
      have := childOf_lt a; have := childOf_lt b; omega
    simp [a, b]
  · simp only [a, if_false]
    split <;> omega

theorem entriesBelow_treeAdj {V : Nat} {rand : Nat → Nat} {m : Nat} (hm : m + 1 ≤ V) :
    EntriesBelow (treeAdj V rand m) V := by
  intro u v hv
  rcases (mem_treeAdj hm u v).1 hv with h | h
  · have := h.2.1; omega
  · have := childOf_lt h; have := h.2.1; omega

/-- Every vertex of the random tree is reachable from vertex 0. -/
theorem reachable_treeAdj {V : Nat} {rand : Nat → Nat} {m : Nat} (hm : m + 1 ≤ V) :
    ∀ v, v ≤ m → Reachable (treeAdj V rand m) 0 v := by
  intro v
  induction v using Nat.strong_induction_on with
  | _ v ih =>
    intro hv
    by_cases h0 : v = 0
    · subst h0; exact Relation.ReflTransGen.refl
    · have hc : ChildOf rand m (rand (v - 1) % v) v := ⟨by omega, hv, rfl⟩
      have hlt := childOf_lt hc
      exact (ih _ hlt (by omega)).edge_step ((mem_treeAdj hm _ _).2 (Or.inl hc))

/-- On the random tree an expansion pushes children of the popped vertex
that are neither marked nor on the stack, each once. -/
theorem tree_pushed {V : Nat} {rand : Nat → Nat} (hV : 0 < V) {visited : List Bool}
    {curr : Nat} {rest : List Nat}
    (inv : TreeInv V rand { visited := visited, stack := curr :: rest })
    (hc : isVisited visited curr = false) :
    (pushedBy (mark visited curr) (nbrs (treeAdj V rand (V - 1)) curr)).Nodup ∧
    ∀ w ∈ pushedBy (mark visited curr) (nbrs (treeAdj V rand (V - 1)) curr),
      w ≠ 0 ∧ rand (w - 1) % w = curr ∧ w < V ∧ isVisited visited w = false ∧
        w ∉ curr :: rest ∧ isVisited (mark visited curr) w = false := by
  have hm : V - 1 + 1 ≤ V := by omega
  refine ⟨(nodup_treeAdj hm curr).filter _, ?_⟩
  intro w hw
  unfold pushedBy at hw
  obtain ⟨h1, h2⟩ := List.mem_filter.1 hw
  simp only [Bool.not_eq_true'] at h2
  have hwv : isVisited visited w = false := by
    cases h : isVisited visited w with
    | false => rfl
    | true => rw [isVisited_mark_of_true curr h] at h2; cases h2
  have hchild : ChildOf rand (V - 1) curr w := by
    rcases (mem_treeAdj hm curr w).1 h1 with h | h
    · exact h
    · exfalso
      have hne : curr ≠ 0 := by have := h.1; omega
      have := inv.parent curr (List.mem_cons_self _ _) hne
      simp only at this
      rw [h.2.2, hwv] at this
      cases this
  have hw0 : w ≠ 0 := by have := hchild.1; omega
  refine ⟨hw0, hchild.2.2, by have := hchild.2.1; omega, hwv, ?_, h2⟩
  intro hmem
  have := inv.parent w hmem hw0
  simp only at this
  rw [hchild.2.2, hc] at this
  cases this

/-- The invariant of the random tree survives an iteration. -/
theorem treeInv_body {V : Nat} {rand : Nat → Nat} (hV : 0 < V) {visited : List Bool}
    {curr : Nat} {rest : List Nat}
    (inv : TreeInv V rand { visited := visited, stack := curr :: rest }) :
    TreeInv V rand
      (DFSSequentialBody { adjList := treeAdj V rand (V - 1), V := V } visited curr rest) := by
  have hm : V - 1 + 1 ≤ V := by omega
  have hr : InRange (treeAdj V rand (V - 1)) V := inRange_of_entriesBelow (entriesBelow_treeAdj hm)
  have hsafe := @safe_body { adjList := treeAdj V rand (V - 1), V := V } V hr visited curr rest
    inv.safe
  have hc : isVisited visited curr = false := inv.unmarked curr (List.mem_cons_self _ _)
  have hcV : curr < V := inv.safe.stack_lt curr (List.mem_cons_self _ _)
  have hlen : visited.length = V := inv.safe.len
  obtain ⟨p1, p2⟩ := tree_pushed hV inv hc
  have hnd : (curr :: rest).Nodup := inv.nodup
  obtain ⟨hcr, hrest⟩ := List.nodup_cons.1 hnd
  rw [body_expand _ visited curr rest hc] at hsafe ⊢
  refine ⟨hsafe, ?_, ?_, ?_⟩
  · refine List.Nodup.append (List.nodup_reverse.2 p1) hrest ?_
    intro w hw1 hw2
    exact (p2 w (List.mem_reverse.1 hw1)).2.2.2.2.1 (List.mem_cons_of_mem _ hw2)
  · intro w hw
    rcases List.mem_append.1 hw with h | h
    · exact (p2 w (List.mem_reverse.1 h)).2.2.2.2.2
    · have hne : w ≠ curr := fun e => hcr (e ▸ h)
      simp only
      rw [isVisited_mark_ne hne]
      exact inv.unmarked w (List.mem_cons_of_mem _ h)
  · intro w hw hw0
    rcases List.mem_append.1 hw with h | h
    · simp only
      rw [(p2 w (List.mem_reverse.1 h)).2.1]
      exact (isVisited_mark visited curr curr).2 (Or.inl ⟨rfl, by omega⟩)
    · exact isVisited_mark_of_true curr (inv.parent w (List.mem_cons_of_mem _ h) hw0)

theorem treeInv_loop {V : Nat} {rand : Nat → Nat} (hV : 0 < V) (fuel : Nat) :
    ∀ st : State, TreeInv V rand st →
      TreeInv V rand
        (DFSSequentialLoop { adjList := treeAdj V rand (V - 1), V := V } fuel st) := by
  induction fuel with
  | zero => intro st h; exact h
  | succ k ih =>
    intro st h
    unfold DFSSequentialLoop
    obtain ⟨visited, stack⟩ := st
    cases stack with
    | nil => exact h
    | cons curr rest => exact ih _ (treeInv_body hV h)

end Dfs

namespace Dfs

/-- A run from clear flags ends with an empty stack and exactly the
reachable vertices marked. -/
theorem loop_from_clear {graph : Graph} {start fuel : Nat}
    (hr : InRange graph.adjList graph.V) (hs : start < graph.V)
    (hf : 1 + totalEntries graph.adjList ≤ fuel) :
    (DFSSequentialLoop graph fuel
      { visited := List.replicate graph.V false, stack := [start] }).stack = [] ∧
    ∀ v, isVisited (DFSSequentialLoop graph fuel
      { visited := List.replicate graph.V false, stack := [start] }).visited v = true ↔
      Reachable graph.adjList start v := by
  have hsafe : Safe graph.V { visited := List.replicate graph.V false, stack := [start] } :=
    ⟨by simp, fun v hv => by simp only [List.mem_singleton] at hv; omega⟩
  have hinv : Inv graph.adjList start
      { visited := List.replicate graph.V false, stack := [start] } := by
    refine ⟨?_, ?_, Or.inr (List.mem_singleton.2 rfl), ?_⟩
    · intro v hv; rw [isVisited_replicate] at hv; cases hv
    · intro v hv
      simp only [List.mem_singleton] at hv
      subst hv
      exact Relation.ReflTransGen.refl
    · intro u hu; rw [isVisited_replicate] at hu; cases hu
  have hend := loop_ends hr fuel _ hsafe (le_trans (measure_init_le graph start _) hf)
  have inv := inv_loop start hr fuel _ hsafe hinv
  refine ⟨hend, ?_⟩
  intro v
  constructor
  · exact inv.vis_reach v
  · intro h
    refine Reachable.mem_of_closed (fun x => isVisited _ x = true) ?_ ?_ h
    · rcases inv.start_ok with h1 | h1
      · exact h1
      · rw [hend] at h1; cases h1
    · intro u hu w hw
      rcases inv.closed u hu w hw with h1 | h1
      · exact h1
      · rw [hend] at h1; cases h1

/-- A vertex that gets marked without being discovered yet is pushed on the
way. -/
theorem mem_pushTrace_of_marked (graph : Graph) (v : Nat) (fuel : Nat) : ∀ st : State,
    ¬ Discovered st v → isVisited (DFSSequentialLoop graph fuel st).visited v = true →
      v ∈ pushTrace graph fuel st := by
  induction fuel with
  | zero =>
    intro st hd hv
    exact absurd (Or.inl hv) hd
  | succ k ih =>
    intro st hd hv
    obtain ⟨visited, stack⟩ := st
    cases stack with
    | nil => exact absurd (Or.inl hv) hd
    | cons curr rest =>
      simp only [DFSSequentialLoop] at hv
      simp only [pushTrace]
      have hvis : isVisited visited v = false := by
        cases h : isVisited visited v with
        | false => rfl
        | true => exact absurd (Or.inl h) hd
      have hstack : v ∉ curr :: rest := fun h => hd (Or.inr h)
      by_cases hc : isVisited visited curr = true
      · rw [body_skip graph visited curr rest hc] at hv ⊢
        simp only [hc, Bool.not_true, Bool.false_eq_true, if_false, List.nil_append]
        apply ih _ _ hv
        rintro (h | h)
        · simp only at h; rw [hvis] at h; cases h
        · exact hstack (List.mem_cons_of_mem _ h)
      · simp only [Bool.not_eq_true] at hc
        rw [body_expand graph visited curr rest hc] at hv ⊢
        simp only [hc, Bool.not_false, if_true]
        by_cases hp : v ∈ pushedBy (mark visited curr) (nbrs graph.adjList curr)
        · exact List.mem_append_left _ hp
        · apply List.mem_append_right
          apply ih _ _ hv
          have hne : v ≠ curr := fun e => hstack (e ▸ List.mem_cons_self _ _)
          rintro (h | h)
          · simp only at h
            rw [isVisited_mark_ne hne, hvis] at h
            cases h
          · rcases List.mem_append.1 h with h1 | h1
            · exact hp (List.mem_reverse.1 h1)
            · exact hstack (List.mem_cons_of_mem _ h1)

/-- On the random tree no vertex is pushed twice, no discovered vertex is
pushed again, and every push is a vertex of the tree. -/
theorem pushTrace_tree {V : Nat} {rand : Nat → Nat} (hV : 0 < V) (fuel : Nat) :
    ∀ st : State, TreeInv V rand st → ∀ v,
      (pushTrace { adjList := treeAdj V rand (V - 1), V := V } fuel st).count v ≤ 1 ∧
      (Discovered st v →
        (pushTrace { adjList := treeAdj V rand (V - 1), V := V } fuel st).count v = 0) ∧
      (v ∈ pushTrace { adjList := treeAdj V rand (V - 1), V := V } fuel st → v < V) := by
  induction fuel with
  | zero => intro st _ v; simp [pushTrace]
  | succ k ih =>
    intro st inv v
    obtain ⟨visited, stack⟩ := st
    cases stack with
    | nil => simp [pushTrace]
    | cons curr rest =>
      have hc : isVisited visited curr = false := inv.unmarked curr (List.mem_cons_self _ _)
      have hcV : curr < V := inv.safe.stack_lt curr (List.mem_cons_self _ _)
      have hlen : visited.length = V := inv.safe.len
      obtain ⟨p1, p2⟩ := tree_pushed hV inv hc
      obtain ⟨i1, i2, i3⟩ := ih _ (treeInv_body hV inv) v
      rw [body_expand _ visited curr rest hc] at i1 i2 i3
      simp only [pushTrace, hc, Bool.not_false, if_true, List.count_append, List.mem_append]
      rw [body_expand _ visited curr rest hc]
      dsimp only at i1 i2 i3 ⊢
      by_cases hp : v ∈ pushedBy (mark visited curr) (nbrs (treeAdj V rand (V - 1)) curr)
      · have hcount := List.count_eq_one_of_mem p1 hp
        have hlater := i2 (Or.inr (List.mem_append_left _ (List.mem_reverse.2 hp)))
        refine ⟨by omega, ?_, fun _ => (p2 v hp).2.2.1⟩
        rintro (h | h)
        · dsimp only at h
          rw [(p2 v hp).2.2.2.1] at h
          cases h
        · exact absurd h (p2 v hp).2.2.2.2.1
      · have hcount := List.count_eq_zero.2 hp
        refine ⟨by omega, ?_, ?_⟩
        · intro hd
          have hlater := i2 (by
            rcases hd with h | h
            · exact Or.inl (isVisited_mark_of_true curr h)
            · rcases List.mem_cons.1 h with rfl | h1
              · exact Or.inl ((isVisited_mark visited v v).2 (Or.inl ⟨rfl, by omega⟩))
              · exact Or.inr (List.mem_append_right _ h1))
          omega
        · rintro (h | h)
          · exact absurd h hp
          · exact i3 h

end Dfs

/-- C16. For every `V >= 1` and every sequence of values of `rand`, on the
graph that `generateRandomTree` builds from `createGraph(V)`, the run of
`DFSSequential` from vertex 0 on clear flags pushes every vertex exactly
once (the push of the start vertex included) and nothing else, its stack
never holds more than `V` entries, and it returns with all `V` flags true. -/
theorem DFSSequential_on_random_tree (V : Nat) (rand : Nat → Nat) (fuel : Nat) (hV : 0 < V)
    (hf : 2 * V ≤ fuel) :
    (∀ v, (0 :: Dfs.pushTrace (Dfs.generateRandomTree (Dfs.createGraph V) V rand) fuel
        { visited := List.replicate V false, stack := [0] }).count v =
      if v < V then 1 else 0) ∧
    (∀ k, (Dfs.DFSSequentialLoop (Dfs.generateRandomTree (Dfs.createGraph V) V rand) k
        { visited := List.replicate V false, stack := [0] }).stack.length ≤ V) ∧
    Dfs.DFSSequential (Dfs.generateRandomTree (Dfs.createGraph V) V rand) 0
      (List.replicate V false) fuel = some (List.replicate V true) := by
  have hm : V - 1 + 1 ≤ V := by omega
  have hg : Dfs.generateRandomTree (Dfs.createGraph V) V rand =
      { adjList := Dfs.treeAdj V rand (V - 1), V := V } := by
    obtain ⟨h1, h2⟩ := Dfs.adjList_generateRandomTree V rand
    cases hgen : Dfs.generateRandomTree (Dfs.createGraph V) V rand with
    | mk a b =>
      rw [hgen] at h1 h2
      simp only at h1 h2
      rw [h1, h2]
  rw [hg]
  have hr : InRange (Dfs.treeAdj V rand (V - 1)) V :=
    inRange_of_entriesBelow (Dfs.entriesBelow_treeAdj hm)
  have hinv0 : Dfs.TreeInv V rand { visited := List.replicate V false, stack := [0] } := by
    refine ⟨⟨by simp, fun v hv => by simp only [List.mem_singleton] at hv; omega⟩,
      List.nodup_singleton 0, fun v _ => isVisited_replicate V v, ?_⟩
    intro v hv hv0
    simp only [List.mem_singleton] at hv
    exact absurd hv hv0
  have htotal : 1 + totalEntries (Dfs.treeAdj V rand (V - 1)) ≤ fuel := by
    rw [(Dfs.treeAdj_spec V rand (V - 1) hm).2.1]
    omega
  obtain ⟨hend, hvis⟩ := @Dfs.loop_from_clear { adjList := Dfs.treeAdj V rand (V - 1), V := V }
    0 fuel hr hV htotal
  have hall : ∀ v, v < V → isVisited (Dfs.DFSSequentialLoop
      { adjList := Dfs.treeAdj V rand (V - 1), V := V } fuel
      { visited := List.replicate V false, stack := [0] }).visited v = true :=
    fun v hv => (hvis v).2 (Dfs.reachable_treeAdj hm v (by omega))
  refine ⟨?_, ?_, ?_⟩
  · intro v
    obtain ⟨t1, t2, t3⟩ := Dfs.pushTrace_tree hV fuel _ hinv0 v
    by_cases hv0 : v = 0
    · subst hv0
      have := t2 (Or.inr (List.mem_singleton.2 rfl))
      simp [this, hV]
    · rw [List.count_cons_of_ne hv0]
      by_cases hvV : v < V
      · have hmem := Dfs.mem_pushTrace_of_marked
          { adjList := Dfs.treeAdj V rand (V - 1), V := V } v fuel
          { visited := List.replicate V false, stack := [0] }
          (by
            rintro (h | h)
            · simp only at h; rw [isVisited_replicate] at h; cases h
            · simp only [List.mem_singleton] at h; exact hv0 h)
          (hall v hvV)
        have := List.count_pos_iff.2 hmem
        rw [if_pos hvV]
        omega
      · rw [if_neg hvV]
        exact List.count_eq_zero.2 (fun h => hvV (t3 h))
  · intro k
    have inv := Dfs.treeInv_loop hV k _ hinv0
    exact length_le_of_nodup_lt inv.nodup inv.safe.stack_lt
  · have hret := @Dfs.DFSSequential_returns { adjList := Dfs.treeAdj V rand (V - 1), V := V }
      0 fuel (List.replicate V false) hr hV (by simp) htotal
    rw [hret]
    congr 1
    have hsafe := (Dfs.treeInv_loop hV fuel _ hinv0).safe
    apply List.ext_getElem (by rw [hsafe.len, List.length_replicate])
    intro i hi1 hi2
    have hin : i < V := by rw [hsafe.len] at hi1; exact hi1
    have hv := hall i hin
    unfold isVisited at hv
    rw [List.getD_eq_getElem _ _ hi1] at hv
    simp [hv]

/-- The statement of C16 for six vertices and the values `5 k + 2` of
`rand`. -/
theorem DFSSequential_on_random_tree_witness :
    (∀ v, (0 :: Dfs.pushTrace (Dfs.generateRandomTree (Dfs.createGraph 6) 6
        (fun k => 5 * k + 2)) 12
        { visited := List.replicate 6 false, stack := [0] }).count v =
      if v < 6 then 1 else 0) ∧
    (∀ k, (Dfs.DFSSequentialLoop (Dfs.generateRandomTree (Dfs.createGraph 6) 6
        (fun k => 5 * k + 2)) k
        { visited := List.replicate 6 false, stack := [0] }).stack.length ≤ 6) ∧
    Dfs.DFSSequential (Dfs.generateRandomTree (Dfs.createGraph 6) 6 (fun k => 5 * k + 2)) 0
      (List.replicate 6 false) 12 = some (List.replicate 6 true) :=
  DFSSequential_on_random_tree 6 (fun k => 5 * k + 2) 12 (by decide) (by decide)

/-! ## The order of the queue of `bfsSequential` -/

/-- The scan of an adjacency list appends to the queue a sublist of that
list, made of vertices whose flag was false before the scan. -/
theorem Bfs.scanNeighbours_added (temp : List Nat) : ∀ st : Bfs.SeqState,
    ∃ added, (Bfs.scanNeighbours st temp).queue = st.queue ++ added ∧ added.Sublist temp ∧
      ∀ v ∈ added, isVisited st.visited v = false := by
  induction temp with
  | nil => intro st; exact ⟨[], by simp [Bfs.scanNeighbours], List.Sublist.refl _, by simp⟩
  | cons x xs ih =>
    intro st
    have e : Bfs.scanNeighbours st (x :: xs) =
        Bfs.scanNeighbours (Bfs.visitNeighbour st x) xs := rfl
    obtain ⟨a, h1, h2, h3⟩ := ih (Bfs.visitNeighbour st x)
    rw [e, h1]
    by_cases hv : isVisited st.visited x = true
    · have e2 : Bfs.visitNeighbour st x = st := by
        unfold Bfs.visitNeighbour; simp [hv]
      rw [e2] at h3 ⊢
      exact ⟨a, rfl, h2.cons x, h3⟩
    · simp only [Bool.not_eq_true] at hv
      have e2 : Bfs.visitNeighbour st x =
          { st with visited := mark st.visited x, queue := st.queue ++ [x] } := by
        unfold Bfs.visitNeighbour; simp [hv]
      rw [e2] at h3 ⊢
      refine ⟨x :: a, by simp, h2.cons₂ x, ?_⟩
      intro v hv2
      rcases List.mem_cons.1 hv2 with rfl | h
      · exact hv
      · have h4 := h3 v h
        by_contra hc
        simp only [Bool.not_eq_false] at hc
        have h5 : isVisited (mark st.visited x) v = true := isVisited_mark_of_true x hc
        rw [h5] at h4
        cases h4

theorem Bfs.levelInv_init (adjList : AdjList) (n start : Nat) :
    Bfs.LevelInv adjList start (Bfs.bfsSequentialInit n start) [(start, 0)] := by
  refine ⟨rfl, ?_, List.pairwise_singleton _ _, rfl, ?_, ?_⟩
  · intro p hp
    rw [List.mem_singleton] at hp
    subst hp
    exact Walk.zero
  · intro p hp
    simp [Bfs.bfsSequentialInit] at hp
  · intro p hp q hq
    rw [List.mem_singleton] at hq
    subst hq
    exact Nat.zero_le _

theorem Bfs.levelInv_body {adjList : AdjList} {n start : Nat} (hr : InRange adjList n)
    {st : Bfs.SeqState} {ql : List (Nat × Nat)} (inv : Bfs.SeqInv adjList n start st)
    (lv : Bfs.LevelInv adjList start st ql) (h : st.front < st.queue.length) :
    ∃ ql2, Bfs.LevelInv adjList start (Bfs.bfsSequentialBody adjList st st.queue[st.front]) ql2 := by
  have hlen : ql.length = st.queue.length := by rw [← lv.fst, List.length_map]
  have hq : st.front < ql.length := by omega
  have hp1 : (ql[st.front]).1 = st.queue[st.front] := by
    have e1 : (ql.map Prod.fst)[st.front]? = st.queue[st.front]? := by rw [lv.fst]
    rw [List.getElem?_map, List.getElem?_eq_getElem hq, List.getElem?_eq_getElem h,
      Option.map_some'] at e1
    exact Option.some.inj e1
  have hpm : ql[st.front] ∈ ql := List.getElem_mem hq
  have hu : st.queue[st.front] ∈ st.queue := List.getElem_mem h
  obtain ⟨_, _, _, _, _, r6⟩ := Bfs.scanNeighbours_spec adjList n start
    (nbrs adjList st.queue[st.front]) { st with front := st.front + 1 }
    inv.len inv.nodup inv.mem_iff inv.reach
    (fun v hv => ⟨nbrs_lt hr hv, (inv.reach _ hu).edge_step hv⟩)
  obtain ⟨added, hadd, hsub, _⟩ := Bfs.scanNeighbours_added
    (nbrs adjList st.queue[st.front]) { st with front := st.front + 1 }
  have hqueue : (Bfs.bfsSequentialBody adjList st st.queue[st.front]).queue =
      st.queue ++ added := hadd
  have hfront : (Bfs.bfsSequentialBody adjList st st.queue[st.front]).front = st.front + 1 :=
    (Bfs.seqInv_body hr inv h).2
  have hall : ∀ v ∈ nbrs adjList st.queue[st.front], v ∈ st.queue ++ added := by
    intro v hv
    rw [← hadd]
    exact r6 v hv
  have hbound : ∀ q ∈ ql, q.2 ≤ (ql[st.front]).2 + 1 :=
    lv.bound _ (List.getElem?_eq_getElem hq)
  have hsorted : (ql ++ added.map (fun v => (v, (ql[st.front]).2 + 1))).Pairwise
      (fun a b => a.2 ≤ b.2) := by
    refine List.pairwise_append.2 ⟨lv.sorted, ?_, ?_⟩
    · rw [List.pairwise_map]
      exact List.pairwise_of_forall (fun _ _ => le_refl _)
    · intro a ha b hb
      obtain ⟨v, _, rfl⟩ := List.mem_map.1 hb
      exact hbound a ha
  have hfst : (ql ++ added.map (fun v => (v, (ql[st.front]).2 + 1))).map Prod.fst =
      st.queue ++ added := by
    rw [List.map_append, lv.fst, List.map_map]
    congr 1
    exact List.map_id _
  have hnew : ∀ q ∈ ql ++ added.map (fun v => (v, (ql[st.front]).2 + 1)),
      q.2 ≤ (ql[st.front]).2 + 1 := by
    intro q hq2
    rcases List.mem_append.1 hq2 with h1 | h1
    · exact hbound q h1
    · obtain ⟨v, _, rfl⟩ := List.mem_map.1 h1
      exact le_refl _
  refine ⟨ql ++ added.map (fun v => (v, (ql[st.front]).2 + 1)),
    ⟨by rw [hqueue]; exact hfst, ?_, hsorted, ?_, ?_, ?_⟩⟩
  · intro q hq2
    rcases List.mem_append.1 hq2 with h1 | h1
    · exact lv.walk q h1
    · obtain ⟨v, hv, rfl⟩ := List.mem_map.1 h1
      refine Walk.succ (lv.walk _ hpm) ?_
      show v ∈ nbrs adjList (ql[st.front]).1
      rw [hp1]
      exact hsub.subset hv
  · rw [List.head?_append_of_ne_nil _ (by intro e; rw [e] at hq; simp at hq)]
    exact lv.head
  · rw [hfront]
    intro p hp v hv
    rw [List.take_append_of_le_length (by omega), List.take_succ,
      List.getElem?_eq_getElem hq] at hp
    simp only [Option.toList_some, List.mem_append, List.mem_singleton] at hp
    rcases hp with h1 | rfl
    · obtain ⟨q, hq2, h2, h3⟩ := lv.closed p h1 v hv
      exact ⟨q, List.mem_append_left _ hq2, h2, h3⟩
    · rw [hp1] at hv
      have hv2 := hall v hv
      rw [← hfst, List.mem_map] at hv2
      obtain ⟨q, hq2, h2⟩ := hv2
      exact ⟨q, hq2, h2, hnew q hq2⟩
  · rw [hfront]
    intro p hp q hq2
    obtain ⟨hj, hpj⟩ := List.getElem?_eq_some.1 hp
    have hi : st.front < (ql ++ added.map (fun v => (v, (ql[st.front]).2 + 1))).length := by
      omega
    have h1 := List.pairwise_iff_getElem.1 hsorted st.front (st.front + 1) hi hj (by omega)
    rw [hpj, List.getElem_append_left hq] at h1
    have h2 := hnew q hq2
    omega

/-- The ghost invariant holds after any number of iterations. -/
theorem Bfs.levelInv_loop {adjList : AdjList} {n start : Nat} (hr : InRange adjList n)
    (fuel : Nat) : ∀ st : Bfs.SeqState, Bfs.SeqInv adjList n start st →
      (∃ ql, Bfs.LevelInv adjList start st ql) →
      ∃ ql, Bfs.LevelInv adjList start (Bfs.bfsSequentialLoop adjList fuel st) ql := by
  induction fuel with
  | zero => intro st _ lv; exact lv
  | succ k ih =>
    intro st inv lv
    unfold Bfs.bfsSequentialLoop
    split
    · rename_i h
      obtain ⟨ql, hql⟩ := lv
      exact ih _ (Bfs.seqInv_body hr inv h).1 (Bfs.levelInv_body hr inv hql h)
    · exact lv

/-- When the loop has ended, the level recorded for each queue slot is the
edge-distance of its vertex from `start`. -/
theorem Bfs.levelInv_atDist {adjList : AdjList} {n start : Nat} {st : Bfs.SeqState}
    {ql : List (Nat × Nat)} (inv : Bfs.SeqInv adjList n start st)
    (lv : Bfs.LevelInv adjList start st ql) (hend : ¬ st.front < st.queue.length) :
    ∀ p ∈ ql, AtDist adjList start p.2 p.1 := by
  have hlen : ql.length = st.queue.length := by rw [← lv.fst, List.length_map]
  have htake : ql.take st.front = ql := List.take_of_length_le (by omega)
  have hnd : (ql.map Prod.fst).Nodup := by rw [lv.fst]; exact inv.nodup
  have hstart : (start, 0) ∈ ql := List.mem_of_mem_head? lv.head
  have key : ∀ d v, Walk adjList start d v → ∃ q ∈ ql, q.1 = v ∧ q.2 ≤ d := by
    intro d v w
    induction w with
    | zero => exact ⟨(start, 0), hstart, rfl, le_refl _⟩
    | succ _ e ih =>
      obtain ⟨q, hq, h1, h2⟩ := ih
      obtain ⟨q2, hq2, h3, h4⟩ := lv.closed q (by rw [htake]; exact hq) _ (by rw [h1]; exact e)
      exact ⟨q2, hq2, h3, by omega⟩
  intro p hp
  refine ⟨lv.walk p hp, ?_⟩
  intro j hj w
  obtain ⟨q, hq, h1, h2⟩ := key j p.1 w
  have e := List.inj_on_of_nodup_map hnd hq hp h1
  subst e
  omega

/-- The body of the loop on a queued vertex `u`, with the adjacency list of
`u` cut in two: the vertices claimed from the first part are appended before
those claimed from the rest, each part in the order of the list. -/
theorem Bfs.bfsSequentialBody_cut {adjList : AdjList} {n start : Nat} (hr : InRange adjList n)
    {st : Bfs.SeqState} (inv : Bfs.SeqInv adjList n start st) {u : Nat} (hmem : u ∈ st.queue)
    (temp1 temp2 : List Nat) (htemp : nbrs adjList u = temp1 ++ temp2) :
    ∃ added1 added2,
      (Bfs.bfsSequentialBody adjList st u).queue = st.queue ++ (added1 ++ added2) ∧
      added1.Sublist temp1 ∧ added2.Sublist temp2 ∧ (added1 ++ added2).Nodup ∧
      (∀ v ∈ added1 ++ added2, isVisited st.visited v = false) ∧
      (∀ v ∈ temp1, isVisited st.visited v = false → v ∈ added1) ∧
      (∀ v ∈ temp2, isVisited st.visited v = false → v ∈ added1 ++ added2) := by
  have hin : ∀ v ∈ temp1 ++ temp2, v < n ∧ Reachable adjList start v := by
    intro v hv
    rw [← htemp] at hv
    exact ⟨nbrs_lt hr hv, (inv.reach _ hmem).edge_step hv⟩
  obtain ⟨r1, r2, r3, r4, _, r6⟩ := Bfs.scanNeighbours_spec adjList n start
    temp1 { st with front := st.front + 1 } inv.len inv.nodup inv.mem_iff inv.reach
    (fun v hv => hin v (List.mem_append_left _ hv))
  obtain ⟨_, t2, _, _, _, t6⟩ := Bfs.scanNeighbours_spec adjList n start
    temp2 (Bfs.scanNeighbours { st with front := st.front + 1 } temp1) r1 r2 r3 r4
    (fun v hv => hin v (List.mem_append_right _ hv))
  obtain ⟨a1, h1, s1, u1⟩ := Bfs.scanNeighbours_added temp1 { st with front := st.front + 1 }
  obtain ⟨a2, h2, s2, u2⟩ := Bfs.scanNeighbours_added temp2
    (Bfs.scanNeighbours { st with front := st.front + 1 } temp1)
  have hq : (Bfs.bfsSequentialBody adjList st u).queue = st.queue ++ (a1 ++ a2) := by
    unfold Bfs.bfsSequentialBody
    rw [htemp, Bfs.scanNeighbours_append, h2, h1, List.append_assoc]
  have hun : ∀ v, isVisited st.visited v = false → v ∉ st.queue := by
    intro v hv hin2
    rw [(inv.mem_iff v).2 hin2] at hv
    cases hv
  refine ⟨a1, a2, hq, s1, s2, ?_, ?_, ?_, ?_⟩
  · rw [h2, h1, List.append_assoc] at t2
    exact t2.of_append_right
  · intro v hv
    rcases List.mem_append.1 hv with h3 | h3
    · exact u1 v h3
    · have h4 := u2 v h3
      by_contra hc
      simp only [Bool.not_eq_false] at hc
      have h5 := Bfs.scanNeighbours_mono temp1 v { st with front := st.front + 1 } hc
      rw [h5] at h4
      cases h4
  · intro v hv hf2
    have h3 := r6 v hv
    rw [h1] at h3
    rcases List.mem_append.1 h3 with h4 | h4
    · exact absurd h4 (hun v hf2)
    · exact h4
  · intro v hv hf2
    have h3 := t6 v hv
    rw [h2, h1, List.append_assoc] at h3
    rcases List.mem_append.1 h3 with h4 | h4
    · exact absurd h4 (hun v hf2)
    · exact h4

/-- C17. For every graph over `n` vertices with entries below `n` and every
start below `n`, `bfsSequential` returns, and the queue it has filled (the
vertices in the order in which they were dequeued) is in breadth-first
order: its first slot holds `start`, every vertex in it has an edge-distance
from `start`, and these distances never decrease along the queue. Moreover,
in every iteration that dequeues a vertex `u`, for every cut of the adjacency
list of `u` into a first part and a rest, the body appends to the queue the
vertices claimed from the first part followed by those claimed from the
rest, each in the order of the list: the appended vertices are exactly the
neighbours whose flag was false, each once, in adjacency-list order. -/
theorem bfsSequential_breadth_first_order (adjList : AdjList) (n start fuel : Nat)
    (_hlen : adjList.length = n) (hr : InRange adjList n) (hs : start < n) (hf : n ≤ fuel) :
    (∃ st, Bfs.bfsSequential adjList n start fuel = some st ∧
      st.queue.head? = some start ∧
      (∀ v ∈ st.queue, ∃ d, AtDist adjList start d v) ∧
      (∀ (i j a b da db : Nat), i ≤ j → st.queue[i]? = some a → st.queue[j]? = some b →
        AtDist adjList start da a → AtDist adjList start db b → da ≤ db)) ∧
    (∀ k u temp1 temp2,
      (Bfs.bfsSequentialLoop adjList k (Bfs.bfsSequentialInit n start)).queue[
        (Bfs.bfsSequentialLoop adjList k (Bfs.bfsSequentialInit n start)).front]? = some u →
      nbrs adjList u = temp1 ++ temp2 →
      ∃ added1 added2,
        (Bfs.bfsSequentialBody adjList
          (Bfs.bfsSequentialLoop adjList k (Bfs.bfsSequentialInit n start)) u).queue =
          (Bfs.bfsSequentialLoop adjList k (Bfs.bfsSequentialInit n start)).queue ++
            (added1 ++ added2) ∧
        added1.Sublist temp1 ∧ added2.Sublist temp2 ∧ (added1 ++ added2).Nodup ∧
        (∀ v ∈ added1 ++ added2,
          isVisited (Bfs.bfsSequentialLoop adjList k (Bfs.bfsSequentialInit n start)).visited v =
            false) ∧
        (∀ v ∈ temp1,
          isVisited (Bfs.bfsSequentialLoop adjList k (Bfs.bfsSequentialInit n start)).visited v =
            false → v ∈ added1) ∧
        (∀ v ∈ temp2,
          isVisited (Bfs.bfsSequentialLoop adjList k (Bfs.bfsSequentialInit n start)).visited v =
            false → v ∈ added1 ++ added2)) := by
  have inv0 : Bfs.SeqInv adjList n start (Bfs.bfsSequentialInit n start) := Bfs.seqInv_init hs
  have lv0 : ∃ ql, Bfs.LevelInv adjList start (Bfs.bfsSequentialInit n start) ql :=
    ⟨_, Bfs.levelInv_init adjList n start⟩
  constructor
  · obtain ⟨st, h1, inv, hend⟩ := Bfs.bfsSequential_returns hr hs hf
    have hst : st = Bfs.bfsSequentialLoop adjList fuel (Bfs.bfsSequentialInit n start) := by
      have h2 := h1
      unfold Bfs.bfsSequential at h2
      simp only at h2
      split at h2
      · cases h2
      · exact (Option.some.inj h2).symm
    obtain ⟨ql, lv⟩ := Bfs.levelInv_loop hr fuel _ inv0 lv0
    rw [← hst] at lv
    have hdist := Bfs.levelInv_atDist inv lv hend
    have hget : ∀ (i a : Nat), st.queue[i]? = some a →
        ∃ p : Nat × Nat, ql[i]? = some p ∧ p.1 = a := by
      intro i a hi
      rw [← lv.fst, List.getElem?_map] at hi
      exact Option.map_eq_some'.1 hi
    refine ⟨st, h1, ?_, ?_, ?_⟩
    · rw [← lv.fst, List.head?_map, lv.head]
      rfl
    · intro v hv
      rw [← lv.fst, List.mem_map] at hv
      obtain ⟨p, hp, rfl⟩ := hv
      exact ⟨p.2, hdist p hp⟩
    · intro i j a b da db hij hi hj hda hdb
      obtain ⟨p, hp, rfl⟩ := hget i a hi
      obtain ⟨q, hq, rfl⟩ := hget j b hj
      obtain ⟨hil, hpi⟩ := List.getElem?_eq_some.1 hp
      obtain ⟨hjl, hqj⟩ := List.getElem?_eq_some.1 hq
      have e1 : da = p.2 := hda.unique (hdist p (hpi ▸ List.getElem_mem hil))
      have e2 : db = q.2 := hdb.unique (hdist q (hqj ▸ List.getElem_mem hjl))
      rcases Nat.lt_or_ge i j with hlt | hge
      · have h3 := List.pairwise_iff_getElem.1 lv.sorted i j hil hjl hlt
        rw [hpi, hqj] at h3
        omega
      · have e3 : i = j := by omega
        subst e3
        rw [hp] at hq
        cases hq
        omega
  · intro k u temp1 temp2 hu htemp
    have inv := Bfs.seqInv_loop hr k _ inv0
    exact Bfs.bfsSequentialBody_cut hr inv (List.mem_iff_getElem?.2 ⟨_, hu⟩) temp1 temp2 htemp

/-- The first part of C17 on the cycle `0 - 1 - 3 - 2 - 0` from vertex 0. -/
theorem bfsSequential_breadth_first_order_witness :
    ∃ st, Bfs.bfsSequential [[1, 2], [0, 3], [0, 3], [1, 2]] 4 0 4 = some st ∧
      st.queue.head? = some 0 ∧
      (∀ v ∈ st.queue, ∃ d, AtDist [[1, 2], [0, 3], [0, 3], [1, 2]] 0 d v) ∧
      (∀ (i j a b da db : Nat), i ≤ j → st.queue[i]? = some a → st.queue[j]? = some b →
        AtDist [[1, 2], [0, 3], [0, 3], [1, 2]] 0 da a →
        AtDist [[1, 2], [0, 3], [0, 3], [1, 2]] 0 db b → da ≤ db) :=
  (bfsSequential_breadth_first_order [[1, 2], [0, 3], [0, 3], [1, 2]] 4 0 4 (by decide)
    (by decide) (by decide) (by decide)).1

/-! ## `parallelMergeSort` -/

namespace MergeSort

theorem run_andThen (p : Steps) : ∀ (q : Steps) (arr : List Int),
    (p.andThen q).run arr = q.run (p.run arr) := by
  induction p with
  | done => intro q arr; rfl
  | read i next ih => intro q arr; simp only [Steps.andThen, Steps.run]; exact ih _ q arr
  | write i v next ih => intro q arr; simp only [Steps.andThen, Steps.run]; exact ih q _

theorem within_mono {s1 e1 s e : Nat} {p : Steps} (h : Within s1 e1 p) (hs : s ≤ s1)
    (he : e1 ≤ e) : Within s e p := by
  induction h with
  | done => exact Within.done
  | read h1 h2 _ ih => exact Within.read (by omega) (by omega) ih
  | write h1 h2 _ ih => exact Within.write (by omega) (by omega) ih

theorem within_andThen {s e : Nat} {p q : Steps} (hp : Within s e p) (hq : Within s e q) :
    Within s e (p.andThen q) := by
  induction hp with
  | done => exact hq
  | read h1 h2 _ ih => exact Within.read h1 h2 ih
  | write h1 h2 _ ih => exact Within.write h1 h2 ih

theorem within_together {s e : Nat} (sched : List Bool) : ∀ {p q : Steps},
    Within s e p → Within s e q → Within s e (together sched p q) := by
  induction sched with
  | nil => intro p q hp hq; exact within_andThen hp hq
  | cons b bs ih =>
    intro p q hp hq
    cases b with
    | true =>
      cases hp with
      | done => exact hq
      | read h1 h2 h3 => exact Within.read h1 h2 (fun v => ih (h3 v) hq)
      | write h1 h2 h3 => exact Within.write h1 h2 (ih h3 hq)
    | false =>
      cases hq with
      | done => exact hp
      | read h1 h2 h3 => exact Within.read h1 h2 (fun v => ih hp (h3 v))
      | write h1 h2 h3 => exact Within.write h1 h2 (ih hp h3)

theorem getD_set_ne (arr : List Int) {i j : Nat} (x : Int) (h : i ≠ j) :
    (arr.set j x).getD i 0 = arr.getD i 0 := by
  rw [List.getD_eq_getElem?_getD, List.getD_eq_getElem?_getD, List.getElem?_set_ne (Ne.symm h)]

/-- Steps that stay within a segment leave every slot outside it as it was. -/
theorem run_frame_getD {s e : Nat} {p : Steps} (h : Within s e p) :
    ∀ (arr : List Int) (j : Nat), j < s ∨ e < j → (p.run arr).getD j 0 = arr.getD j 0 := by
  induction h with
  | done => intro arr j _; rfl
  | read _ _ _ ih => intro arr j hj; exact ih _ arr j hj
  | @write i v next h1 h2 _ ih =>
    intro arr j hj
    simp only [Steps.run]
    rw [ih _ j hj]
    exact getD_set_ne arr v (by omega)

/-- Steps that stay within a segment do not depend on the slots outside it:
a write to such a slot can be moved after them. -/
theorem run_frame_set {s e : Nat} {p : Steps} (h : Within s e p) :
    ∀ (arr : List Int) (j : Nat) (x : Int), j < s ∨ e < j →
      p.run (arr.set j x) = (p.run arr).set j x := by
  induction h with
  | done => intro arr j x _; rfl
  | @read i next h1 h2 _ ih =>
    intro arr j x hj
    simp only [Steps.run]
    rw [getD_set_ne arr x (by omega : i ≠ j)]
    exact ih _ arr j x hj
  | @write i v next h1 h2 _ ih =>
    intro arr j x hj
    simp only [Steps.run]
    rw [List.set_comm x v arr (by omega : j ≠ i)]
    exact ih _ j x hj

/-- Two tasks that stay within disjoint segments: whatever the schedule, the
array ends as if the first had run to its end before the second started. -/
theorem run_together {s1 e1 s2 e2 : Nat} (hd : e1 < s2) (sched : List Bool) :
    ∀ {p q : Steps}, Within s1 e1 p → Within s2 e2 q → ∀ arr : List Int,
      (together sched p q).run arr = q.run (p.run arr) := by
  induction sched with
  | nil => intro p q _ _ arr; exact run_andThen p q arr
  | cons b bs ih =>
    intro p q hp hq arr
    cases b with
    | true =>
      cases hp with
      | done => rfl
      | read h1 h2 h3 => exact ih (h3 _) hq arr
      | write h1 h2 h3 => exact ih h3 hq _
    | false =>
      cases hq with
      | done => rfl
      | @read i next h1 h2 h3 =>
        simp only [together, Steps.run]
        rw [ih hp (h3 _) arr, run_frame_getD hp arr i (Or.inr (by omega))]
      | @write i v next h1 h2 h3 =>
        simp only [together, Steps.run]
        rw [ih hp h3 _, run_frame_set hp arr i v (Or.inr (by omega))]

/-! ### The steps of `merge` and `sequentialMergeSort` run alone -/

theorem run_copyToHalf (base : Nat) (arr : List Int) (count : Nat) :
    ∀ (half : List Int) (rest : List Int → Steps),
      (copyToHalf base count half rest).run arr =
        (rest (half ++ (List.range count).map
          fun i => arr.getD (base + half.length + i) 0)).run arr := by
  induction count with
  | zero => intro half rest; simp [copyToHalf]
  | succ n ih =>
    intro half rest
    simp only [copyToHalf, Steps.run]
    rw [ih, List.range_succ_eq_map, List.map_cons, List.map_map, List.append_assoc,
      List.singleton_append]
    have e : (List.range n).map (fun i =>
          arr.getD (base + (half ++ [arr.getD (base + half.length) 0]).length + i) 0) =
        (List.range n).map ((fun i => arr.getD (base + half.length + i) 0) ∘ Nat.succ) := by
      apply List.map_congr_left
      intro i _
      simp only [List.length_append, List.length_singleton, Function.comp]
      congr 1
      omega
    rw [e]
    rfl

theorem run_mergeBothSteps (L R : List Int) (fuel : Nat) :
    ∀ (st : MergeState) (rest : Nat → Nat → Nat → Steps),
      (mergeBothSteps L R fuel st.indexLeft st.indexRight st.indexMerged rest).run
          st.arrayToSort =
        (rest (mergeBoth L R fuel st).indexLeft (mergeBoth L R fuel st).indexRight
          (mergeBoth L R fuel st).indexMerged).run (mergeBoth L R fuel st).arrayToSort := by
  induction fuel with
  | zero => intro st rest; rfl
  | succ f ih =>
    intro st rest
    unfold mergeBothSteps mergeBoth
    by_cases hg : st.indexLeft < L.length ∧ st.indexRight < R.length
    · rw [if_pos hg, if_pos hg]
      by_cases hc : L.getD st.indexLeft 0 ≤ R.getD st.indexRight 0
      · rw [if_pos hc, if_pos hc]
        exact ih { arrayToSort := st.arrayToSort.set st.indexMerged (L.getD st.indexLeft 0),
                   indexLeft := st.indexLeft + 1, indexRight := st.indexRight,
                   indexMerged := st.indexMerged + 1 } rest
      · rw [if_neg hc, if_neg hc]
        exact ih { arrayToSort := st.arrayToSort.set st.indexMerged (R.getD st.indexRight 0),
                   indexLeft := st.indexLeft, indexRight := st.indexRight + 1,
                   indexMerged := st.indexMerged + 1 } rest
    · rw [if_neg hg, if_neg hg]

theorem run_copyLeftSteps (L : List Int) (fuel : Nat) :
    ∀ (st : MergeState) (rest : Nat → Steps),
      (copyLeftSteps L fuel st.indexLeft st.indexMerged rest).run st.arrayToSort =
        (rest (copyLeft L fuel st).indexMerged).run (copyLeft L fuel st).arrayToSort ∧
      (copyLeft L fuel st).indexRight = st.indexRight := by
  induction fuel with
  | zero => intro st rest; exact ⟨rfl, rfl⟩
  | succ f ih =>
    intro st rest
    unfold copyLeftSteps copyLeft
    by_cases hg : st.indexLeft < L.length
    · rw [if_pos hg, if_pos hg]
      exact ih { arrayToSort := st.arrayToSort.set st.indexMerged (L.getD st.indexLeft 0),
                 indexLeft := st.indexLeft + 1, indexRight := st.indexRight,
                 indexMerged := st.indexMerged + 1 } rest
    · rw [if_neg hg, if_neg hg]
      exact ⟨rfl, rfl⟩

theorem run_copyRightSteps (R : List Int) (fuel : Nat) :
    ∀ (st : MergeState) (rest : Steps),
      (copyRightSteps R fuel st.indexRight st.indexMerged rest).run st.arrayToSort =
        rest.run (copyRight R fuel st).arrayToSort := by
  induction fuel with
  | zero => intro st rest; rfl
  | succ f ih =>
    intro st rest
    unfold copyRightSteps copyRight
    by_cases hg : st.indexRight < R.length
    · rw [if_pos hg, if_pos hg]
      exact ih { arrayToSort := st.arrayToSort.set st.indexMerged (R.getD st.indexRight 0),
                 indexLeft := st.indexLeft, indexRight := st.indexRight + 1,
                 indexMerged := st.indexMerged + 1 } rest
    · rw [if_neg hg, if_neg hg]

/-- Run alone, the steps of `merge` leave the array that `merge` returns. -/
theorem run_mergeSteps (arr : List Int) (s m e : Nat) :
    (mergeSteps s m e).run arr = merge arr s m e := by
  unfold mergeSteps merge
  simp only
  rw [run_copyToHalf, run_copyToHalf]
  simp only [List.nil_append, List.length_nil, Nat.add_zero]
  rw [run_mergeBothSteps _ _ _ ⟨arr, 0, 0, s⟩]
  rw [(run_copyLeftSteps _ _ _ _).1,
    ← (run_copyLeftSteps _ (m - s + 1) _ (fun _ => Steps.done)).2]
  rw [run_copyRightSteps]
  rfl

/-- Run alone, the steps of `sequentialMergeSort` leave the array that
`sequentialMergeSort` returns. -/
theorem run_sequentialMergeSortSteps (depth : Nat) : ∀ (arr : List Int) (s e : Nat),
    (sequentialMergeSortSteps depth s e).run arr = sequentialMergeSortDepth depth arr s e := by
  induction depth with
  | zero => intro arr s e; rfl
  | succ d ih =>
    intro arr s e
    unfold sequentialMergeSortSteps sequentialMergeSortDepth
    by_cases h : s < e
    · rw [if_pos h, if_pos h]
      simp only
      rw [run_andThen, run_andThen, run_mergeSteps, ih, ih]
    · rw [if_neg h, if_neg h]
      rfl

/-- A deeper bound on the recursion of `sequentialMergeSort` changes nothing
once the bound is the length of the segment. -/
theorem sequentialMergeSortDepth_of_le (d1 : Nat) : ∀ (d2 : Nat) (arr : List Int) (s e : Nat),
    e - s ≤ d1 → e - s ≤ d2 →
    sequentialMergeSortDepth d1 arr s e = sequentialMergeSortDepth d2 arr s e := by
  induction d1 with
  | zero =>
    intro d2 arr s e h1 _
    cases d2 with
    | zero => rfl
    | succ d =>
      unfold sequentialMergeSortDepth
      rw [if_neg (by omega)]
  | succ d ih =>
    intro d2 arr s e h1 h2
    by_cases h : s < e
    · cases d2 with
      | zero => omega
      | succ d3 =>
        unfold sequentialMergeSortDepth
        rw [if_pos h, if_pos h]
        simp only
        rw [ih d3 arr s _ (by omega) (by omega), ih d3 _ _ e (by omega) (by omega)]
    · cases d2 with
      | zero =>
        unfold sequentialMergeSortDepth
        rw [if_neg h]
      | succ d3 =>
        unfold sequentialMergeSortDepth
        rw [if_neg h, if_neg h]

/-! ### The segment that each piece of code touches -/

theorem within_copyToHalf {s e base : Nat} (count : Nat) :
    ∀ (half : List Int) (rest : List Int → Steps), s ≤ base + half.length →
      base + half.length + count ≤ e + 1 →
      (∀ h : List Int, h.length = half.length + count → Within s e (rest h)) →
      Within s e (copyToHalf base count half rest) := by
  induction count with
  | zero => intro half rest _ _ hrest; exact hrest half rfl
  | succ n ih =>
    intro half rest h1 h2 hrest
    refine Within.read h1 (by omega) (fun v => ih (half ++ [v]) rest ?_ ?_ ?_)
    · simp only [List.length_append, List.length_singleton]; omega
    · simp only [List.length_append, List.length_singleton]; omega
    · intro h hh
      simp only [List.length_append, List.length_singleton] at hh
      exact hrest h (by omega)

theorem within_mergeBothSteps {s e : Nat} (L R : List Int) (fuel : Nat) :
    ∀ (il ir im : Nat) (rest : Nat → Nat → Nat → Steps), s ≤ im →
      im + (L.length - il) + (R.length - ir) ≤ e + 1 →
      (∀ il2 ir2 im2, s ≤ im2 → im2 + (L.length - il2) + (R.length - ir2) ≤ e + 1 →
        Within s e (rest il2 ir2 im2)) →
      Within s e (mergeBothSteps L R fuel il ir im rest) := by
  induction fuel with
  | zero => intro il ir im rest h1 h2 hrest; exact hrest il ir im h1 h2
  | succ f ih =>
    intro il ir im rest h1 h2 hrest
    unfold mergeBothSteps
    by_cases hg : il < L.length ∧ ir < R.length
    · rw [if_pos hg]
      by_cases hc : L.getD il 0 ≤ R.getD ir 0
      · rw [if_pos hc]
        exact Within.write h1 (by omega) (ih _ _ _ rest (by omega) (by omega) hrest)
      · rw [if_neg hc]
        exact Within.write h1 (by omega) (ih _ _ _ rest (by omega) (by omega) hrest)
    · rw [if_neg hg]
      exact hrest il ir im h1 h2

theorem within_copyLeftSteps {s e : Nat} (L : List Int) (c : Nat) (fuel : Nat) :
    ∀ (il im : Nat) (rest : Nat → Steps), s ≤ im → im + (L.length - il) + c ≤ e + 1 →
      (∀ im2, s ≤ im2 → im2 + c ≤ e + 1 → Within s e (rest im2)) →
      Within s e (copyLeftSteps L fuel il im rest) := by
  induction fuel with
  | zero => intro il im rest h1 h2 hrest; exact hrest im h1 (by omega)
  | succ f ih =>
    intro il im rest h1 h2 hrest
    unfold copyLeftSteps
    by_cases hg : il < L.length
    · rw [if_pos hg]
      exact Within.write h1 (by omega) (ih _ _ rest (by omega) (by omega) hrest)
    · rw [if_neg hg]
      exact hrest im h1 (by omega)

theorem within_copyRightSteps {s e : Nat} (R : List Int) (fuel : Nat) :
    ∀ (ir im : Nat) (rest : Steps), s ≤ im → im + (R.length - ir) ≤ e + 1 →
      Within s e rest → Within s e (copyRightSteps R fuel ir im rest) := by
  induction fuel with
  | zero => intro ir im rest _ _ hrest; exact hrest
  | succ f ih =>
    intro ir im rest h1 h2 hrest
    unfold copyRightSteps
    by_cases hg : ir < R.length
    · rw [if_pos hg]
      exact Within.write h1 (by omega) (ih _ _ rest (by omega) (by omega) hrest)
    · rw [if_neg hg]
      exact hrest

/-- Every access of `merge` is to a slot `startIndex .. endIndex`. -/
theorem within_mergeSteps {s m e : Nat} (hsm : s ≤ m) (hme : m ≤ e) :
    Within s e (mergeSteps s m e) := by
  unfold mergeSteps
  simp only
  refine within_copyToHalf _ _ _ (by simp) (by simp only [List.length_nil]; omega) ?_
  intro L hL
  refine within_copyToHalf _ _ _ (by simp only [List.length_nil]; omega)
    (by simp only [List.length_nil]; omega) ?_
  intro R hR
  simp only [List.length_nil, Nat.zero_add] at hL hR
  refine within_mergeBothSteps L R _ _ _ _ _ (Nat.le_refl s) (by omega) ?_
  intro il ir im h1 h2
  refine within_copyLeftSteps L (R.length - ir) _ _ _ _ h1 h2 ?_
  intro im2 h3 h4
  exact within_copyRightSteps R _ _ _ _ h3 h4 Within.done

/-- Every access of `sequentialMergeSort` is to a slot of its segment. -/
theorem within_sequentialMergeSortSteps (depth : Nat) : ∀ s e : Nat,
    Within s e (sequentialMergeSortSteps depth s e) := by
  induction depth with
  | zero => intro s e; exact Within.done
  | succ d ih =>
    intro s e
    unfold sequentialMergeSortSteps
    by_cases h : s < e
    · rw [if_pos h]
      simp only
      exact within_andThen (within_mono (ih _ _) (Nat.le_refl s) (by omega))
        (within_andThen (within_mono (ih _ _) (by omega) (Nat.le_refl e))
          (within_mergeSteps (by omega) (by omega)))
    · rw [if_neg h]
      exact Within.done

/-- Every access of `parallelMergeSort`, tasks included, is to a slot of its
segment. -/
theorem within_parallelMergeSortSteps (sched : Nat → Nat → List Bool) (depth : Nat) :
    ∀ s e : Nat, Within s e (parallelMergeSortSteps sched depth s e) := by
  induction depth with
  | zero => intro s e; exact Within.done
  | succ d ih =>
    intro s e
    unfold parallelMergeSortSteps
    by_cases h : s < e
    · rw [if_pos h]
      by_cases hsmall : e - s + 1 < MIN_SIZE_FOR_PARALLEL
      · rw [if_pos hsmall]
        exact within_sequentialMergeSortSteps _ s e
      · rw [if_neg hsmall]
        simp only
        exact within_andThen
          (within_together _ (within_mono (ih _ _) (Nat.le_refl s) (by omega))
            (within_mono (ih _ _) (by omega) (Nat.le_refl e)))
          (within_mergeSteps (by omega) (by omega))
    · rw [if_neg h]
      exact Within.done

/-- Whatever the schedules, the steps of `parallelMergeSort` leave the array
that `sequentialMergeSort` returns. -/
theorem run_parallelMergeSortSteps (sched : Nat → Nat → List Bool) (depth : Nat) :
    ∀ (arr : List Int) (s e : Nat), e - s ≤ depth →
      (parallelMergeSortSteps sched depth s e).run arr = sequentialMergeSort arr s e := by
  induction depth with
  | zero =>
    intro arr s e hd
    unfold sequentialMergeSort
    rw [Nat.le_zero.1 hd]
    rfl
  | succ d ih =>
    intro arr s e hd
    unfold parallelMergeSortSteps
    by_cases h : s < e
    · rw [if_pos h]
      by_cases hsmall : e - s + 1 < MIN_SIZE_FOR_PARALLEL
      · rw [if_pos hsmall]
        exact run_sequentialMergeSortSteps _ arr s e
      · rw [if_neg hsmall]
        simp only
        rw [run_andThen, run_mergeSteps,
          run_together (by omega : s + (e - s) / 2 < s + (e - s) / 2 + 1) _
            (within_parallelMergeSortSteps sched d s _)
            (within_parallelMergeSortSteps sched d _ e),
          ih _ _ _ (by omega), ih _ _ _ (by omega)]
        obtain ⟨k, hk⟩ : ∃ k, e - s = k + 1 := ⟨e - s - 1, by omega⟩
        unfold sequentialMergeSort
        rw [hk]
        conv_rhs => unfold sequentialMergeSortDepth
        rw [if_pos h]
        simp only
        rw [sequentialMergeSortDepth_of_le k (s + (e - s) / 2 - s) arr s _ (by omega)
            (Nat.le_refl _),
          sequentialMergeSortDepth_of_le k (e - (s + (e - s) / 2 + 1)) _ _ e (by omega)
            (Nat.le_refl _)]
        rw [hk]
    · rw [if_neg h]
      unfold sequentialMergeSort
      rw [Nat.sub_eq_zero_of_le (by omega : e ≤ s)]
      rfl

end MergeSort

/-- C21. For every `int` array, all indices `startIndex`, `endIndex` below its
length and every order in which the tasks take their steps (each step one
read or one write of an array slot), `parallelMergeSort` leaves the array
that `sequentialMergeSort` returns. A segment shorter than
`MIN_SIZE_FOR_PARALLEL` is sorted by the very steps of `sequentialMergeSort`.
A segment that is not shorter runs two tasks together and then `merge`: the
first task touches only the slots `startIndex .. midIndex` and the second
only `midIndex + 1 .. endIndex`, each leaves on any array what
`sequentialMergeSort` returns for its half, and the result is `merge` applied
to the array with both halves sorted. -/
theorem parallelMergeSort_eq_sequentialMergeSort (arr : List Int) (startIndex endIndex : Nat)
    (sched : Nat → Nat → List Bool) (_hs : startIndex < arr.length)
    (_he : endIndex < arr.length) :
    MergeSort.parallelMergeSort sched arr startIndex endIndex =
      MergeSort.sequentialMergeSort arr startIndex endIndex ∧
    (endIndex - startIndex + 1 < MergeSort.MIN_SIZE_FOR_PARALLEL →
      MergeSort.parallelMergeSortSteps sched (endIndex - startIndex) startIndex endIndex =
        MergeSort.sequentialMergeSortSteps (endIndex - startIndex) startIndex endIndex) ∧
    (MergeSort.MIN_SIZE_FOR_PARALLEL ≤ endIndex - startIndex + 1 →
      MergeSort.parallelMergeSortSteps sched (endIndex - startIndex) startIndex endIndex =
        (MergeSort.together (sched startIndex endIndex)
          (MergeSort.parallelMergeSortSteps sched (endIndex - startIndex - 1) startIndex
            (startIndex + (endIndex - startIndex) / 2))
          (MergeSort.parallelMergeSortSteps sched (endIndex - startIndex - 1)
            (startIndex + (endIndex - startIndex) / 2 + 1) endIndex)).andThen
          (MergeSort.mergeSteps startIndex (startIndex + (endIndex - startIndex) / 2) endIndex) ∧
      MergeSort.Within startIndex (startIndex + (endIndex - startIndex) / 2)
        (MergeSort.parallelMergeSortSteps sched (endIndex - startIndex - 1) startIndex
          (startIndex + (endIndex - startIndex) / 2)) ∧
      MergeSort.Within (startIndex + (endIndex - startIndex) / 2 + 1) endIndex
        (MergeSort.parallelMergeSortSteps sched (endIndex - startIndex - 1)
          (startIndex + (endIndex - startIndex) / 2 + 1) endIndex) ∧
      (∀ a : List Int,
        (MergeSort.parallelMergeSortSteps sched (endIndex - startIndex - 1) startIndex
          (startIndex + (endIndex - startIndex) / 2)).run a =
          MergeSort.sequentialMergeSort a startIndex
            (startIndex + (endIndex - startIndex) / 2)) ∧
      (∀ a : List Int,
        (MergeSort.parallelMergeSortSteps sched (endIndex - startIndex - 1)
          (startIndex + (endIndex - startIndex) / 2 + 1) endIndex).run a =
          MergeSort.sequentialMergeSort a (startIndex + (endIndex - startIndex) / 2 + 1)
            endIndex) ∧
      MergeSort.parallelMergeSort sched arr startIndex endIndex =
        MergeSort.merge
          (MergeSort.sequentialMergeSort
            (MergeSort.sequentialMergeSort arr startIndex
              (startIndex + (endIndex - startIndex) / 2))
            (startIndex + (endIndex - startIndex) / 2 + 1) endIndex)
          startIndex (startIndex + (endIndex - startIndex) / 2) endIndex) := by
  have hmain : MergeSort.parallelMergeSort sched arr startIndex endIndex =
      MergeSort.sequentialMergeSort arr startIndex endIndex :=
    MergeSort.run_parallelMergeSortSteps sched _ arr startIndex endIndex (Nat.le_refl _)
  refine ⟨hmain, ?_, ?_⟩
  · intro hsmall
    by_cases h : startIndex < endIndex
    · obtain ⟨k, hk⟩ : ∃ k, endIndex - startIndex = k + 1 :=
        ⟨endIndex - startIndex - 1, by omega⟩
      rw [hk] at hsmall ⊢
      conv_lhs => unfold MergeSort.parallelMergeSortSteps
      rw [if_pos h, hk, if_pos hsmall]
    · rw [Nat.sub_eq_zero_of_le (by omega : endIndex ≤ startIndex)]
      rfl
  · intro hlarge
    have h : startIndex < endIndex := by
      unfold MergeSort.MIN_SIZE_FOR_PARALLEL at hlarge
      omega
    have hsteps : MergeSort.parallelMergeSortSteps sched (endIndex - startIndex) startIndex
        endIndex =
        (MergeSort.together (sched startIndex endIndex)
          (MergeSort.parallelMergeSortSteps sched (endIndex - startIndex - 1) startIndex
            (startIndex + (endIndex - startIndex) / 2))
          (MergeSort.parallelMergeSortSteps sched (endIndex - startIndex - 1)
            (startIndex + (endIndex - startIndex) / 2 + 1) endIndex)).andThen
          (MergeSort.mergeSteps startIndex (startIndex + (endIndex - startIndex) / 2)
            endIndex) := by
      obtain ⟨k, hk⟩ : ∃ k, endIndex - startIndex = k + 1 :=
        ⟨endIndex - startIndex - 1, by omega⟩
      rw [hk] at hlarge ⊢
      conv_lhs => unfold MergeSort.parallelMergeSortSteps
      rw [if_pos h, hk, if_neg (by omega)]
      rfl
    have hfirst := MergeSort.run_parallelMergeSortSteps sched (endIndex - startIndex - 1)
    have w1 := MergeSort.within_parallelMergeSortSteps sched (endIndex - startIndex - 1)
      startIndex (startIndex + (endIndex - startIndex) / 2)
    have w2 := MergeSort.within_parallelMergeSortSteps sched (endIndex - startIndex - 1)
      (startIndex + (endIndex - startIndex) / 2 + 1) endIndex
    refine ⟨hsteps, w1, w2, fun a => hfirst a _ _ (by omega), fun a => hfirst a _ _ (by omega),
      ?_⟩
    unfold MergeSort.parallelMergeSort
    rw [hsteps, MergeSort.run_andThen, MergeSort.run_mergeSteps,
      MergeSort.run_together (by omega) _ w1 w2, hfirst _ _ _ (by omega),
      hfirst _ _ _ (by omega)]

/-- The statement of C21 on an array of 6000 elements in decreasing order,
sorted as a whole: the segment is not shorter than `MIN_SIZE_FOR_PARALLEL`,
so the two halves are sorted by two tasks. -/
theorem parallelMergeSort_eq_sequentialMergeSort_witness :
    MergeSort.parallelMergeSort (fun _ _ => [true, false, false, true])
        ((List.range 6000).map fun i : Nat => (6000 : Int) - (i : Int)) 0 5999 =
      MergeSort.sequentialMergeSort
        ((List.range 6000).map fun i : Nat => (6000 : Int) - (i : Int)) 0 5999 ∧
    MergeSort.Within 0 (0 + (5999 - 0) / 2)
      (MergeSort.parallelMergeSortSteps (fun _ _ => [true, false, false, true]) (5999 - 0 - 1) 0
        (0 + (5999 - 0) / 2)) ∧
    MergeSort.Within (0 + (5999 - 0) / 2 + 1) 5999
      (MergeSort.parallelMergeSortSteps (fun _ _ => [true, false, false, true]) (5999 - 0 - 1)
        (0 + (5999 - 0) / 2 + 1) 5999) :=
  have h := parallelMergeSort_eq_sequentialMergeSort
    ((List.range 6000).map fun i : Nat => (6000 : Int) - (i : Int)) 0 5999
    (fun _ _ => [true, false, false, true])
    (by simp only [List.length_map, List.length_range]; decide)
    (by simp only [List.length_map, List.length_range]; decide)
  ⟨h.1, (h.2.2 (by decide)).2.1, (h.2.2 (by decide)).2.2.1⟩

/-! ## The depth-first searches on their stack block -/

namespace Dfs

end Dfs

/-! ## The entry points on arguments out of range -/

/-- C7, as the code has it. At 4 vertices and `start = 4`, with every
allocation successful, no entry point raises an invalid-start-vertex error:
each has allocated its blocks when it indexes `visited` with `start`, outside
the block. -/
theorem entry_points_do_not_reject_start :
    Bfs.bfsSequentialEntry (fun _ => true) 4 4 ≠ Entry.invalidStart ∧
    Bfs.bfsParallelEntry (fun _ => true) 4 4 ≠ Entry.invalidStart ∧
    Dfs.DFSSequentialEntry (fun _ => true) 4 4 ≠ Entry.invalidStart ∧
    Dfs.DFSParallelEntry (fun _ => true) 4 4 ≠ Entry.invalidStart ∧
    Bfs.bfsSequentialEntry (fun _ => true) 4 4 =
      Entry.outOfBounds [Block.visited, Block.queue] Block.visited 4 := by
  decide

/-- C7, amended. For every `start` outside `[0, n)`, and so for every `start`
when `n <= 0`, and whichever allocations the C library grants, no entry
point checks its arguments: each makes its allocations first and then
accesses an array outside its block, which is undefined behaviour.  The two
breadth-first searches write `visited[start]`.  The two depth-first searches
read `visited[start]` after pushing `start`, unless the vertex count is not
positive or an allocation has failed: then the first store to the block that
is missing or has no slot (`stack[0]`, `frontier[0]`, `locks[0]`,
`localStack[0]`) is the access outside a block.  When `n < 0` every
allocation returns `NULL` and no block is on the heap at that access; when
`n > 0` and every allocation succeeds all the blocks are. -/
theorem entry_points_out_of_range_start (heap : Block → Bool) (n start : Int)
    (h : ¬ (0 ≤ start ∧ start < n)) :
    Bfs.bfsSequentialEntry heap n start =
      Entry.outOfBounds (obtained heap n Block.visited ++ obtained heap n Block.queue)
        Block.visited start ∧
    Bfs.bfsParallelEntry heap n start =
      Entry.outOfBounds (obtained heap n Block.visited ++ obtained heap n Block.frontier)
        Block.visited start ∧
    Dfs.DFSSequentialEntry heap n start =
      (if 0 < n ∧ heap Block.stack = true then
        Entry.outOfBounds [Block.stack] Block.visited start
       else Entry.outOfBounds (obtained heap n Block.stack) Block.stack 0) ∧
    Dfs.DFSParallelEntry heap n start =
      (if 0 < n ∧ heap Block.frontier = true then
        if heap Block.locks = true then
          if heap Block.localStack = true then
            Entry.outOfBounds [Block.frontier, Block.locks, Block.localStack] Block.visited start
          else Entry.outOfBounds [Block.frontier, Block.locks] Block.localStack 0
        else Entry.outOfBounds [Block.frontier] Block.locks 0
       else Entry.outOfBounds (obtained heap n Block.frontier) Block.frontier 0) ∧
    (n < 0 →
      Bfs.bfsSequentialEntry heap n start = Entry.outOfBounds [] Block.visited start ∧
      Bfs.bfsParallelEntry heap n start = Entry.outOfBounds [] Block.visited start ∧
      Dfs.DFSSequentialEntry heap n start = Entry.outOfBounds [] Block.stack 0 ∧
      Dfs.DFSParallelEntry heap n start = Entry.outOfBounds [] Block.frontier 0) ∧
    (0 < n → (∀ block, heap block = true) →
      Bfs.bfsSequentialEntry heap n start =
        Entry.outOfBounds [Block.visited, Block.queue] Block.visited start ∧
      Bfs.bfsParallelEntry heap n start =
        Entry.outOfBounds [Block.visited, Block.frontier] Block.visited start ∧
      Dfs.DFSSequentialEntry heap n start =
        Entry.outOfBounds [Block.stack] Block.visited start ∧
      Dfs.DFSParallelEntry heap n start =
        Entry.outOfBounds [Block.frontier, Block.locks, Block.localStack] Block.visited
          start) := by
  have hbs : Bfs.bfsSequentialEntry heap n start =
      Entry.outOfBounds (obtained heap n Block.visited ++ obtained heap n Block.queue)
        Block.visited start := by
    unfold Bfs.bfsSequentialEntry accessOwn
    simp only
    rw [if_neg (fun c => h c.2)]
  have hbp : Bfs.bfsParallelEntry heap n start =
      Entry.outOfBounds (obtained heap n Block.visited ++ obtained heap n Block.frontier)
        Block.visited start := by
    unfold Bfs.bfsParallelEntry accessOwn
    simp only
    rw [if_neg (fun c => h c.2)]
  have hds : Dfs.DFSSequentialEntry heap n start =
      (if 0 < n ∧ heap Block.stack = true then
        Entry.outOfBounds [Block.stack] Block.visited start
       else Entry.outOfBounds (obtained heap n Block.stack) Block.stack 0) := by
    unfold Dfs.DFSSequentialEntry accessOwn access obtained
    by_cases hn : 0 < n
    · by_cases hh : heap Block.stack = true
      · simp [hn, hh, h, le_of_lt hn]
      · simp [hn, hh, le_of_lt hn]
    · by_cases hh : 0 ≤ n ∧ heap Block.stack = true
      · simp [hn, hh]
      · simp [hn, hh]
  have hdp : Dfs.DFSParallelEntry heap n start =
      (if 0 < n ∧ heap Block.frontier = true then
        if heap Block.locks = true then
          if heap Block.localStack = true then
            Entry.outOfBounds [Block.frontier, Block.locks, Block.localStack] Block.visited start
          else Entry.outOfBounds [Block.frontier, Block.locks] Block.localStack 0
        else Entry.outOfBounds [Block.frontier] Block.locks 0
       else Entry.outOfBounds (obtained heap n Block.frontier) Block.frontier 0) := by
    unfold Dfs.DFSParallelEntry accessOwn access obtained
    by_cases hn : 0 < n
    · have hn0 : 0 ≤ n := le_of_lt hn
      by_cases h1 : heap Block.frontier = true
      · by_cases h2 : heap Block.locks = true
        · by_cases h3 : heap Block.localStack = true
          · simp [hn, hn0, h1, h2, h3, h]
          · simp [hn, hn0, h1, h2, h3]
        · simp [hn, hn0, h1, h2]
      · simp [hn, hn0, h1]
    · by_cases hh : 0 ≤ n ∧ heap Block.frontier = true
      · simp [hn, hh]
      · simp [hn, hh]
  refine ⟨hbs, hbp, hds, hdp, ?_, ?_⟩
  · intro hneg
    have hnot : ¬ 0 ≤ n := by omega
    have hnot2 : ¬ 0 < n := by omega
    have ho : ∀ block, obtained heap n block = [] := by
      intro block
      unfold obtained
      rw [if_neg (fun c => hnot c.1)]
    rw [hbs, hbp, hds, hdp]
    simp [ho, hnot2]
  · intro hpos hall
    have ho : ∀ block, obtained heap n block = [block] := by
      intro block
      unfold obtained
      rw [if_pos ⟨le_of_lt hpos, hall block⟩]
    rw [hbs, hbp, hds, hdp]
    simp [ho, hpos, hall]

/-- The amended C7 at 4 vertices and `start = -1` with every allocation
successful, and at `n = -1`, `start = 0`, where every allocation fails. -/
theorem entry_points_out_of_range_start_witness :
    (Bfs.bfsSequentialEntry (fun _ => true) 4 (-1) =
        Entry.outOfBounds [Block.visited, Block.queue] Block.visited (-1) ∧
      Bfs.bfsParallelEntry (fun _ => true) 4 (-1) =
        Entry.outOfBounds [Block.visited, Block.frontier] Block.visited (-1) ∧
      Dfs.DFSSequentialEntry (fun _ => true) 4 (-1) =
        Entry.outOfBounds [Block.stack] Block.visited (-1) ∧
      Dfs.DFSParallelEntry (fun _ => true) 4 (-1) =
        Entry.outOfBounds [Block.frontier, Block.locks, Block.localStack] Block.visited
          (-1)) ∧
    (Bfs.bfsSequentialEntry (fun _ => true) (-1) 0 = Entry.outOfBounds [] Block.visited 0 ∧
      Bfs.bfsParallelEntry (fun _ => true) (-1) 0 = Entry.outOfBounds [] Block.visited 0 ∧
      Dfs.DFSSequentialEntry (fun _ => true) (-1) 0 = Entry.outOfBounds [] Block.stack 0 ∧
      Dfs.DFSParallelEntry (fun _ => true) (-1) 0 = Entry.outOfBounds [] Block.frontier 0) :=
  ⟨(entry_points_out_of_range_start (fun _ => true) 4 (-1) (by decide)).2.2.2.2.2 (by decide)
      (fun _ => rfl),
    (entry_points_out_of_range_start (fun _ => true) (-1) 0 (by decide)).2.2.2.2.1 (by decide)⟩

/-! ## The properties of the depth-first searches on their stack block -/

end HPC
